import Mathlib

/-!
# ConvertToOFX: the balance checker, the repair engine and the pruner

A shallow embedding of `src/ConvertToOFX.cpp`.

* A `std::string` is a `List Char`, one `Char` per `char` of the string.
* `size_t` values are natural numbers below `SIZE_MOD = 2 ^ 64`; the one
  subtraction of the source that can wrap (`tag.length() - 2`) is taken
  modulo `SIZE_MOD`, and `std::string::npos` is `SIZE_MOD - 1`.
* A `std::vector<std::string>` used as a stack is a `List (List Char)` whose
  head is `back()`.
* A failed `assert` is an outcome of its own.
-/

namespace ConvertToOFX

/-! ## Strings and `size_t` -/

/-- Number of values of the unsigned type `size_t`. -/
def SIZE_MOD : Nat := 2 ^ 64

/-- The constant `std::string::npos`, the largest `size_t`. -/
def npos : Nat := SIZE_MOD - 1

/-- Subtraction `a - b` of two `size_t` values, wrapping around below zero. -/
def sizeSub (a b : Nat) : Nat := (a + SIZE_MOD - b) % SIZE_MOD

/-- Search of `std::string::find`: the index of the first position at or after
index `i` of the whole string where `pat` starts, given the rest `s` of the
string from index `i`; `npos` when there is none. -/
def findFrom (pat : List Char) : List Char → Nat → Nat
  | [], i => if pat.isEmpty then i else npos
  | c :: cs, i => if pat.isPrefixOf (c :: cs) then i else findFrom pat cs (i + 1)

/-- The call `s.find(pat)`. -/
def find (s pat : List Char) : Nat := findFrom pat s 0

/-- The call `s.substr(pos, n)`: at most `n` characters from index `pos` on.
Every call of the source has `pos ≤ s.length()` (the tag starts with the one
or two characters skipped), so `std::out_of_range` is never thrown. -/
def substr (s : List Char) (pos n : Nat) : List Char := (s.drop pos).take n

/-- The C library predicate `isspace` in the "C" locale: space, `\t`, `\n`,
`\v`, `\f` and `\r`. -/
def isspace (c : Char) : Bool :=
  c == ' ' || c == '\t' || c == '\n' || c == '\x0b' || c == '\x0c' || c == '\r'

/-- The statement `value.erase(value.find_last_not_of(" ") + 1)`: everything
after the last character that is not a space is erased; when every character is
a space `find_last_not_of` gives `npos`, `npos + 1` wraps to `0` and the whole
string is erased. -/
def eraseTrailingSpaces (value : List Char) : List Char :=
  (value.reverse.dropWhile (fun c => c == ' ')).reverse

/-- The test `tag.find("</") == 0` of both scanners. -/
def isClosingTag (tag : List Char) : Bool := find tag "</".toList == 0

/-- The test `tag.find("/>") == tag.length() - 2 || tag.find("<?") == 0` of both
scanners. The subtraction is unsigned: for a tag of length one (a `>` that no
`<` precedes) it wraps to `npos`, which is also what `find` returns there. -/
def isSelfContainedTag (tag : List Char) : Bool :=
  find tag "/>".toList == sizeSub tag.length 2 || find tag "<?".toList == 0

/-- The expression `tag.substr(2, tag.length() - 3)` for a closing tag. -/
def closingRawValue (tag : List Char) : List Char :=
  substr tag 2 (sizeSub tag.length 3)

/-- The expression `topOfStack.substr(1, topOfStack.length() - 2)`. -/
def openRawValue (topOfStack : List Char) : List Char :=
  substr topOfStack 1 (sizeSub topOfStack.length 2)

/-- The synthesized closing tag `"</" + raw + ">"`. -/
def closeTagOf (raw : List Char) : List Char := "</".toList ++ raw ++ ">".toList

/-- The constant `XML_HEADER`. -/
def XML_HEADER : List Char := "<?xml version=\"1.0\" encoding=\"utf-8\" ?>".toList

/-- The constant `XML_OFX_HEADER`. -/
def XML_OFX_HEADER : List Char :=
  ("<?OFX OFXHEADER=\"200\" VERSION=\"202\" SECURITY=\"NONE\" " ++
    "OLDFILEUID=\"NONE\" NEWFILEUID=\"NONE\" ?>").toList

/-! ## FixXML -/

/-- First diagnostic of `FixXML` (a closing tag met with an empty stack). -/
def MSG_NO_TAG_FOR_CLOSING : List Char :=
  "No XML tag to match closing tag with. Giving up. XML:\n".toList

/-- Second diagnostic of `FixXML` (the stack empties while unwinding). -/
def MSG_RAN_INTO_ISSUES : List Char :=
  "Ran into issues trying to fix this XML:\n".toList

/-- Third diagnostic of `FixXML` (an opening tag after a value, empty stack). -/
def MSG_NO_TAG_FOR_VALUE : List Char :=
  "No XML tag to match value with. Giving up. XML:\n".toList

/-- What a call of `FixXML` ends in: the failed `assert`, one of the three
early returns (the string returned is the message followed by `fixedXML`), or
the return at the end of the function. -/
inductive FixOutcome where
  | assertFailure : FixOutcome
  | diagnostic (text : List Char) : FixOutcome
  | repaired (text : List Char) : FixOutcome
  deriving DecidableEq, Repr

/-- The local variables of `FixXML`. -/
structure FixState where
  fixedXML : List Char
  tag : List Char
  value : List Char
  processTag : Bool
  tagStack : List (List Char)
  deriving DecidableEq, Repr

/-- One iteration of a scanning loop: go on with a new state, or leave the
function with an outcome. -/
inductive Step (σ ρ : Type) where
  | next (st : σ) : Step σ ρ
  | done (r : ρ) : Step σ ρ

/-- The `while (topOfStackRawValue != tagRawValue)` loop of the closing-tag
branch, entered after the first pop: `stack` is what is left of `tagStack`,
`topRaw` the raw name of the tag popped last. It gives the final `fixedXML`,
`value` and `tagStack`, or the `fixedXML` at the early return. -/
def unwind (tagRawValue : List Char) :
    List (List Char) → List Char → List Char → List Char →
      Except (List Char) (List Char × List Char × List (List Char))
  | [], topRaw, fixedXML, value =>
    if topRaw ≠ tagRawValue then .error fixedXML
    else .ok (fixedXML, value, [])
  | top :: rest, topRaw, fixedXML, value =>
    if topRaw ≠ tagRawValue then
      unwind tagRawValue rest (openRawValue top)
        (fixedXML ++ (value ++ closeTagOf topRaw)) []
    else .ok (fixedXML, value, top :: rest)

/-- The body of `if (c == '>')` in `FixXML`, after `tag += c`. -/
def fixCloseBracket (st : FixState) (tag : List Char) : Step FixState FixOutcome :=
  if isClosingTag tag then
    match st.tagStack with
    | [] => .done (.diagnostic (MSG_NO_TAG_FOR_CLOSING ++ st.fixedXML))
    | topOfStack :: rest =>
      match unwind (closingRawValue tag) rest (openRawValue topOfStack)
          st.fixedXML st.value with
      | .error fixedXML => .done (.diagnostic (MSG_RAN_INTO_ISSUES ++ fixedXML))
      | .ok (fixedXML, value, stack) =>
        .next { fixedXML := fixedXML ++ (value ++ tag), tag := [], value := [],
                processTag := false, tagStack := stack }
  else if isSelfContainedTag tag then
    .next { fixedXML := st.fixedXML ++ (st.value ++ tag), tag := [], value := [],
            processTag := false, tagStack := st.tagStack }
  else if st.value.length > 0 then
    match st.tagStack with
    | [] => .done (.diagnostic (MSG_NO_TAG_FOR_VALUE ++ st.fixedXML))
    | topOfStack :: rest =>
      .next { fixedXML := st.fixedXML ++
                (st.value ++ closeTagOf (openRawValue topOfStack) ++ tag),
              tag := [], value := [], processTag := false,
              tagStack := tag :: rest }
  else
    .next { fixedXML := st.fixedXML ++ tag, tag := [], value := [],
            processTag := false, tagStack := tag :: st.tagStack }

/-- The body of the `for (const char& c : input)` loop of `FixXML`. -/
def fixStep (c : Char) (st : FixState) : Step FixState FixOutcome :=
  if c = '>' then
    fixCloseBracket st (st.tag ++ [c])
  else if c = '<' then
    if st.tag.length = 0 then
      .next { st with
        tag := st.tag ++ [c], processTag := true,
        value := if st.value.length > 1 then eraseTrailingSpaces st.value
                 else st.value }
    else .done .assertFailure
  else if st.processTag then
    .next { st with tag := st.tag ++ [c] }
  else if st.value.length = 0 && isspace c then
    .next st
  else if c = '\r' ∨ c = '\n' then
    .next st
  else
    .next { st with value := st.value ++ [c] }

/-- The loop after the scan: one synthesized closing tag for every tag left on
the stack, from `back()` down. -/
def closeOut : List (List Char) → List Char → List Char
  | [], fixedXML => fixedXML
  | topOfStack :: rest, fixedXML =>
    closeOut rest (fixedXML ++ closeTagOf (openRawValue topOfStack))

/-- The scanning loop of `FixXML` over the rest of the input, followed by the
closing loop and the final `return fixedXML`. -/
def fixLoop : List Char → FixState → FixOutcome
  | [], st => .repaired (closeOut st.tagStack st.fixedXML)
  | c :: cs, st =>
    match fixStep c st with
    | .next st' => fixLoop cs st'
    | .done r => r

/-- The local variables of `FixXML` when the loop is entered. -/
def FixState.init : FixState :=
  { fixedXML := [], tag := [], value := [], processTag := false, tagStack := [] }

/-- The function `FixXML`. -/
def FixXML (input : List Char) : FixOutcome := fixLoop input FixState.init

/-! ## isXMLBalanced -/

/-- The local variables of `isXMLBalanced` (`isBalanced` is never read). -/
structure BalState where
  tag : List Char
  value : List Char
  processTag : Bool
  tagStack : List (List Char)
  deriving DecidableEq, Repr

/-- The body of `if (c == '>')` in `isXMLBalanced`, after `tag += c`. The
outcome `some b` is `return b`. -/
def balCloseBracket (st : BalState) (tag : List Char) :
    Step BalState (Option Bool) :=
  if isClosingTag tag then
    match st.tagStack with
    | [] => .done (some false)
    | topOfStack :: rest =>
      if openRawValue topOfStack ≠ closingRawValue tag then .done (some false)
      else .next { tag := [], value := [], processTag := false, tagStack := rest }
  else if isSelfContainedTag tag then
    .next { tag := [], value := [], processTag := false, tagStack := st.tagStack }
  else if st.value.length > 0 then
    .done (some false)
  else
    .next { tag := [], value := [], processTag := false,
            tagStack := tag :: st.tagStack }

/-- The body of the `for (const char& c : xml)` loop of `isXMLBalanced`; the
outcome `none` is the failed `assert`. -/
def balStep (c : Char) (st : BalState) : Step BalState (Option Bool) :=
  if c = '>' then
    balCloseBracket st (st.tag ++ [c])
  else if c = '<' then
    if st.tag.length = 0 then
      .next { st with tag := st.tag ++ [c], processTag := true }
    else .done none
  else if st.processTag then
    .next { st with tag := st.tag ++ [c] }
  else if st.value.length = 0 && isspace c then
    .next st
  else if c = '\r' ∨ c = '\n' then
    .next st
  else
    .next { st with value := st.value ++ [c] }

/-- The scanning loop of `isXMLBalanced` over the rest of the input, followed
by the test of the stack after it. -/
def balLoop : List Char → BalState → Option Bool
  | [], st => some (decide (¬ st.tagStack.length > 0))
  | c :: cs, st =>
    match balStep c st with
    | .next st' => balLoop cs st'
    | .done r => r

/-- The local variables of `isXMLBalanced` when the loop is entered. -/
def BalState.init : BalState :=
  { tag := [], value := [], processTag := false, tagStack := [] }

/-- The function `isXMLBalanced`; `none` stands for the failed `assert`. -/
def isXMLBalanced (xml : List Char) : Option Bool := balLoop xml BalState.init

/-! ## Scanning without the final test -/

/-- The scanning loop of `isXMLBalanced` alone: the state after the last
character of `xml`, or the early `return` or failed `assert`. -/
def balScan : List Char → BalState → Step BalState (Option Bool)
  | [], st => .next st
  | c :: cs, st =>
    match balStep c st with
    | .next st' => balScan cs st'
    | .done r => .done r

/-- The scanning loop of `FixXML` alone: the state after the last character of
`input`, or the outcome of an early `return` or of the failed `assert`. -/
def fixScan : List Char → FixState → Step FixState FixOutcome
  | [], st => .next st
  | c :: cs, st =>
    match fixStep c st with
    | .next st' => fixScan cs st'
    | .done r => .done r

/-- No character of `s` is an angle bracket. -/
def bracketFree (s : List Char) : Prop := ∀ c ∈ s, c ≠ '<' ∧ c ≠ '>'

instance (s : List Char) : Decidable (bracketFree s) := by
  unfold bracketFree
  infer_instance

/-- The strings a scanner can hold in `tag` after `tag += '>'`: a lone `>`, or
`<`, characters other than angle brackets, `>`. -/
def TagShape (t : List Char) : Prop :=
  t = ['>'] ∨ ∃ body, bracketFree body ∧ t = '<' :: (body ++ ['>'])

/-- What links a state of `FixXML` to a second scan, by `isXMLBalanced`, of the
text written so far: that scan ends with the same stack and nothing pending. -/
structure FixInv (st : FixState) : Prop where
  rescan : balScan st.fixedXML BalState.init = .next ⟨[], [], false, st.tagStack⟩
  value_free : bracketFree st.value
  tag_shape : (st.tag = [] ∧ st.processTag = false) ∨
    (∃ body, bracketFree body ∧ st.tag = '<' :: body ∧ st.processTag = true)
  stack_shape : ∀ p ∈ st.tagStack, TagShape p

/-! ## The reference reduction of the specification

These definitions follow the words of the specification (sections 3, 4.1 and
4.2), not the source: they are what `isXMLBalanced` is compared with. -/

/-- The token of the specification's data model. -/
inductive Token where
  | OpenTag (name : List Char) : Token
  | CloseTag (name : List Char) : Token
  | SelfClosingOrDeclaration (raw : List Char) : Token
  | Value (text : List Char) : Token
  deriving DecidableEq, Repr

/-- The classification rule of section 4.1 for a captured span: begins with
`</` gives CloseTag; ends with `/>` or begins with `<?` gives
SelfClosingOrDeclaration; otherwise OpenTag. The name is the span without its
delimiters. -/
def specClassify (span : List Char) : Token :=
  if "</".toList.isPrefixOf span then .CloseTag (span.drop 2).dropLast
  else if "/>".toList.isSuffixOf span || "<?".toList.isPrefixOf span then
    .SelfClosingOrDeclaration span
  else .OpenTag (span.drop 1).dropLast

/-- Removal of trailing whitespace of a completed value (section 4.1). -/
def specTrimValue (value : List Char) : List Char :=
  (value.reverse.dropWhile isspace).reverse

/-- The state of the tokenizer of section 4.1: whether it is in tag-capture
mode, the span captured so far and the pending value. -/
structure SpecScan where
  inTag : Bool
  span : List Char
  value : List Char
  deriving DecidableEq, Repr

/-- The tokenizer of section 4.1. `<` starts tag-capture mode and is a
precondition violation (`none`) inside it; `>` ends tag-capture mode, attaches
the completed value, if any, and classifies the captured span; any other
character goes to the span in tag-capture mode and to the pending value
otherwise, leading whitespace and every CR and LF being dropped. -/
def specTokenize : List Char → SpecScan → Option (List Token)
  | [], _ => some []
  | c :: cs, sc =>
    if c = '>' then
      let tag := specClassify (sc.span ++ [c])
      let value := specTrimValue sc.value
      (specTokenize cs ⟨false, [], []⟩).map fun ts =>
        if value = [] then tag :: ts else .Value value :: tag :: ts
    else if c = '<' then
      if sc.inTag then none
      else specTokenize cs { sc with inTag := true, span := [c] }
    else if sc.inTag then
      specTokenize cs { sc with span := sc.span ++ [c] }
    else if (sc.value = [] ∧ isspace c) ∨ c = '\r' ∨ c = '\n' then
      specTokenize cs sc
    else
      specTokenize cs { sc with value := sc.value ++ [c] }

/-- The stack reduction of section 4.2 over a token sequence, with the stack
of open tag names and the pending value: an OpenTag met while the pending
value is non-empty fails, otherwise its name is pushed; a CloseTag fails on an
empty stack and on a top of another name, otherwise it pops; a
SelfClosingOrDeclaration has no stack effect; every tag completes the pending
value; at the end of input the stack must be empty. -/
def specReduce : List Token → List (List Char) → List Char → Bool
  | [], stack, _ => stack.isEmpty
  | .Value text :: ts, stack, _ => specReduce ts stack text
  | .OpenTag name :: ts, stack, pending =>
    if pending ≠ [] then false else specReduce ts (name :: stack) []
  | .CloseTag _ :: _, [], _ => false
  | .CloseTag name :: ts, top :: rest, _ =>
    if top ≠ name then false else specReduce ts rest []
  | .SelfClosingOrDeclaration _ :: ts, stack, _ => specReduce ts stack []

/-- The reference Balance Checker of the specification: the reduction applied
to the tokens of the text; `none` is the tokenizer's precondition violation. -/
def specBalanced (xml : List Char) : Option Bool :=
  (specTokenize xml ⟨false, [], []⟩).map fun ts => specReduce ts [] []

/-! ## The document tree and PruneSTMTTRN -/

/-- Modelled from the spec: the document tree, "a standard ordered,
named-element tree with text-leaf children"; the node classes of the XML
library are declared in `tinyxml2.h`, which is not part of the source. A text
leaf holds at least one character, as the parser builds it (CDATA sections are
outside the specification). -/
inductive XMLNode where
  | element (name : List Char) (children : List XMLNode) : XMLNode
  | text (first : Char) (rest : List Char) : XMLNode
  deriving Repr

/-- Modelled from the spec: the accessor `Value()` of the XML library, the name
of an element and the characters of a text leaf. -/
def XMLNode.Value : XMLNode → List Char
  | .element name _ => name
  | .text first rest => first :: rest

/-- The child nodes of a node, first to last (`FirstChild()`, then
`NextSibling()` until null). -/
def XMLNode.children : XMLNode → List XMLNode
  | .element _ children => children
  | .text _ _ => []

/-- Whether a node is an element of the given name, the test that
`FirstChildElement(name)` and `NextSiblingElement(name)` apply to each node. -/
def XMLNode.isElementNamed (name : List Char) : XMLNode → Bool
  | .element n _ => n == name
  | .text _ _ => false

/-- Modelled from the spec: the call `FirstChildElement(name)` of the XML
library on a node with these children: the first child that is an element of
that name, null (`none`) when there is none. -/
def FirstChildElement (children : List XMLNode) (name : List Char) : Option XMLNode :=
  children.find? (XMLNode.isElementNamed name)

/-- Modelled from the spec: the call `GetText()` of the XML library: the
characters of the first child when it is a text leaf, null (`none`) otherwise. -/
def XMLNode.GetText : XMLNode → Option (List Char)
  | .element _ (.text first rest :: _) => some (first :: rest)
  | _ => none

/-- Modelled from the spec: the call `DeleteChild(node)` of the XML library for
the node that `FirstChildElement(name)` returned: that child leaves the list,
with its subtree. -/
def DeleteFirstChildElement (children : List XMLNode) (name : List Char) : List XMLNode :=
  children.eraseP (XMLNode.isElementNamed name)

/-- The set `STMTTRN_WHITELIST`. -/
def STMTTRN_WHITELIST : List (List Char) :=
  ["TRNTYPE".toList, "DTPOSTED".toList, "TRNAMT".toList, "FITID".toList,
   "CHECKNUM".toList, "NAME".toList, "MEMO".toList, "CCACCTTO".toList,
   "DTUSER".toList]

/-- The inner loop of `PruneSTMTTRN` over the children of one `STMTTRN`: a child
whose `Value()` is not in the whitelist is deleted. -/
def pruneFields : List XMLNode → List XMLNode
  | [] => []
  | currentChild :: rest =>
    if currentChild.Value ∈ STMTTRN_WHITELIST then currentChild :: pruneFields rest
    else pruneFields rest

/-- The body of `if (dedupeMemoField)` on the children of one `STMTTRN`;
`strcmp(a, b) == 0` is equality of the two texts. -/
def dedupeMemo (children : List XMLNode) : List XMLNode :=
  match FirstChildElement children "NAME".toList,
        FirstChildElement children "MEMO".toList with
  | some name, some memo =>
    match name.GetText, memo.GetText with
    | some a, some b =>
      if a = b then DeleteFirstChildElement children "MEMO".toList else children
    | _, _ => children
  | _, _ => children

/-- The body of the outer loop of `PruneSTMTTRN` on the children of one
`STMTTRN`. -/
def pruneRecord (dedupeMemoField : Bool) (children : List XMLNode) : List XMLNode :=
  if dedupeMemoField then dedupeMemo (pruneFields children) else pruneFields children

/-- What the outer loop of `PruneSTMTTRN` does to one child of the container:
it visits the elements named `STMTTRN` and no other node. -/
def pruneChild (dedupeMemoField : Bool) : XMLNode → XMLNode
  | .element name children =>
    if name = "STMTTRN".toList then .element name (pruneRecord dedupeMemoField children)
    else .element name children
  | .text first rest => .text first rest

/-- The function `PruneSTMTTRN`, with the global `dedupeMemoField` as an
argument; the result is the container after the call. The argument is an
`XMLElement*`, so the text case does not arise. -/
def PruneSTMTTRN (dedupeMemoField : Bool) : XMLNode → XMLNode
  | .element name children => .element name (children.map (pruneChild dedupeMemoField))
  | .text first rest => .text first rest

/-- The property of a container that claim C3 words: every child element of
every element that is a direct child of the container has a whitelisted name. -/
def recordsWhitelisted (container : XMLNode) : Prop :=
  ∀ n fields, XMLNode.element n fields ∈ container.children →
    ∀ m sub, XMLNode.element m sub ∈ fields → m ∈ STMTTRN_WHITELIST

/-- Whether a node is a `NAME` or a `MEMO` element. -/
def isNameOrMemo (c : XMLNode) : Bool :=
  c.isElementNamed "NAME".toList || c.isElementNamed "MEMO".toList

/-! ## Plain names and values -/

/-- The opening tag `<name>`. -/
def openTagOf (name : List Char) : List Char := '<' :: (name ++ ['>'])

/-- A plain tag name: free of `<`, `>`, `/`, `?` and whitespace, and, as the
content of a `std::string`, of a length below `npos`. -/
def plainName (name : List Char) : Bool :=
  name.all (fun c => c != '<' && c != '>' && c != '/' && c != '?' && !isspace c) &&
    decide (name.length < npos)

/-- A plain value: free of `<`, `>`, CR and LF, not starting with whitespace
and not ending in a space, so that the scan stores it as it is. -/
def plainValue (v : List Char) : Bool :=
  v.all (fun c => c != '<' && c != '>' && c != '\r' && c != '\n') &&
    (match v.head? with
     | some c => !isspace c
     | none => true) &&
    (v.getLast? != some ' ')

/-! ## Well-nested trees and their serialization (claim C10) -/

mutual
/-- The serialization of claim C10: `<name>`, the serialized children in
order, `</name>`; a text leaf is its characters. -/
def serialize : XMLNode → List Char
  | .element name children => openTagOf name ++ (serializeAll children ++ closeTagOf name)
  | .text first rest => first :: rest
/-- The serializations of a list of nodes, one after the other. -/
def serializeAll : List XMLNode → List Char
  | [] => []
  | c :: cs => serialize c ++ serializeAll cs
end

mutual
/-- The well-nested trees of claim C10: every name is plain and every text is
free of `<` and `>`. -/
def wellNested : XMLNode → Bool
  | .element name children => plainName name && wellNestedAll children
  | .text first rest => (first :: rest).all (fun c => c != '<' && c != '>')
/-- Every node of the list is well nested. -/
def wellNestedAll : List XMLNode → Bool
  | [] => true
  | c :: cs => wellNested c && wellNestedAll cs
end

/-- Whether a node is a text leaf. -/
def XMLNode.isText : XMLNode → Bool
  | .element _ _ => false
  | .text _ _ => true

/-- In a list of children, every text leaf that holds a character other than
whitespace is followed by text leaves only: no element comes after it. -/
def valuesClosed : List XMLNode → Bool
  | [] => true
  | .text first rest :: cs =>
    ((first :: rest).all isspace || cs.all XMLNode.isText) && valuesClosed cs
  | .element _ _ :: cs => valuesClosed cs

mutual
/-- In the whole tree, no text leaf that holds a character other than
whitespace has an element among its later siblings. -/
def noOpenValue : XMLNode → Bool
  | .element _ children => valuesClosed children && noOpenValueAll children
  | .text _ _ => true
/-- The same for every node of a list. -/
def noOpenValueAll : List XMLNode → Bool
  | [] => true
  | c :: cs => noOpenValue c && noOpenValueAll cs
end

/-! ## Texts whose angle brackets alternate (claim C19) -/

/-- Each `<` of the text is followed by a `>` before the next `<`; `capturing`
tells whether a `<` has been read with no `>` after it yet. -/
def bracketsAlternate : Bool → List Char → Bool
  | _, [] => true
  | capturing, c :: cs =>
    if c = '<' then !capturing && bracketsAlternate true cs
    else if c = '>' then bracketsAlternate false cs
    else bracketsAlternate capturing cs

/-! ## The tags that `FixXML` cannot repair (claim C18) -/

/-- The state of `FixXML` is such that the tag `tag`, just completed, cannot be
repaired: it is a closing tag whose name is the name of no tag on the stack, or
it is an opening tag met with a non-empty pending value and an empty stack. -/
def unfixableAt (st : FixState) (tag : List Char) : Prop :=
  (isClosingTag tag = true ∧
      ∀ p ∈ st.tagStack, openRawValue p ≠ closingRawValue tag) ∨
    (isClosingTag tag = false ∧ isSelfContainedTag tag = false ∧
      st.value ≠ [] ∧ st.tagStack = [])

/-- The scan of `FixXML` over `s`, started in `st0`, reaches, before any failed
assertion and any early return, a `>` that completes a tag it cannot repair;
`st` is the state in which that `>` is read. -/
def reachesUnfixableFrom (st0 : FixState) (s : List Char) (st : FixState) : Prop :=
  ∃ pre post, s = pre ++ '>' :: post ∧ fixScan pre st0 = .next st ∧
    unfixableAt st (st.tag ++ ['>'])

/-- The three diagnostic messages of `FixXML`. -/
def diagnosticMessages : List (List Char) :=
  [MSG_NO_TAG_FOR_CLOSING, MSG_RAN_INTO_ISSUES, MSG_NO_TAG_FOR_VALUE]

/-! ## ConvertInputToOFX -/

/-- Modelled from the spec: the XML library as `ConvertInputToOFX` uses it (the
classes of `tinyxml2.h`, which is not part of the source). `Parse text` stands
for `doc.Parse(text)` and gives `doc.ErrorID()` with the child nodes of the
document; `Print` stands for `doc.Print(&printer)` followed by
`printer.CStr()`. -/
structure XMLLibrary where
  Parse : List Char → Nat × List XMLNode
  Print : List XMLNode → List Char

/-- The lines that the successive calls `std::getline(ss, line)` read from a
stream over the text: `line` holds the characters read since the last line
feed; at the end of the text a call that reads no character fails. -/
def getlines : List Char → List Char → List (List Char)
  | [], line => if line = [] then [] else [line]
  | c :: cs, line => if c = '\n' then line :: getlines cs [] else getlines cs (line ++ [c])

/-- The two `while (std::getline(ss, line))` loops of `ConvertInputToOFX`: the
lines before the first one that contains `<OFX>` are dropped, that line is kept
from the marker on, and every later line is appended with a line feed. -/
def trimLines : List (List Char) → List Char
  | [] => []
  | line :: rest =>
    if find line "<OFX>".toList ≠ npos then
      substr line (find line "<OFX>".toList) npos ++
        (rest.map (fun l => l ++ ['\n'])).flatten
    else trimLines rest

/-- The string `polishedText` that `ConvertInputToOFX` builds from the text
`s` of the input window. -/
def polishedText (s : List Char) : List Char :=
  XML_HEADER ++ ('\n' :: (XML_OFX_HEADER ++ ('\n' :: trimLines (getlines s []))))

/-- The message boxes of `ConvertInputToOFX`, in the order of the source. -/
inductive Message where
  | unbalancedPerParser : Message
  | appearsUnbalanced : Message
  | couldNotFix (errorID : Nat) : Message
  | parserError (errorID : Nat) : Message
  | missingRoot : Message
  | noStatementTypes : Message
  | mappingMissing (type : List Char) : Message
  | notModifying (type segment : List Char) : Message
  | nothingChanged : Message
  deriving DecidableEq, Repr

/-- How a call of `ConvertInputToOFX` ends: a failed `assert` in one of the two
scanners, `return false` with the text shown for debugging, or `return true`
with the text written to the OFX window. -/
inductive ConvertResult where
  | assertFailure : ConvertResult
  | failed (debugText : List Char) : ConvertResult
  | succeeded (ofxText : List Char) : ConvertResult
  deriving DecidableEq, Repr

/-- The message boxes shown during a call of `ConvertInputToOFX`, first to
last, and how the call ends. -/
structure ConvertOutcome where
  messages : List Message
  result : ConvertResult
  deriving DecidableEq, Repr

/-- The text that `SetOfxWindowDebugText` writes to the OFX window. -/
def SetOfxWindowDebugText (xml : List Char) : List Char :=
  "This text is invalid and only for debugging purposes!\r\n\r\n".toList ++ xml

/-- The map `TYPE_TO_BANKTRANLIST_MAP` read with `operator[]`: a key that is
not in the map gives an empty vector. -/
def TYPE_TO_BANKTRANLIST_MAP (type : List Char) : List (List Char) :=
  if type = "CREDITCARDMSGSRSV1".toList then
    ["OFX".toList, "CREDITCARDMSGSRSV1".toList, "CCSTMTTRNRS".toList,
     "CCSTMTRS".toList, "BANKTRANLIST".toList]
  else if type = "BANKMSGSRSV1".toList then
    ["OFX".toList, "BANKMSGSRSV1".toList, "STMTTRNRS".toList,
     "STMTRS".toList, "BANKTRANLIST".toList]
  else []

/-- The vector `statementTypes` that `ConvertInputToOFX` fills from the
document. -/
def statementTypes (doc : List XMLNode) : List (List Char) :=
  let ofxChildren :=
    match FirstChildElement doc "OFX".toList with
    | some ofx => ofx.children
    | none => []
  (if (FirstChildElement ofxChildren "CREDITCARDMSGSRSV1".toList).isSome then
      ["CREDITCARDMSGSRSV1".toList] else []) ++
    (if (FirstChildElement ofxChildren "BANKMSGSRSV1".toList).isSome then
      ["BANKMSGSRSV1".toList] else [])

/-- The walk `banktranlistHandle = banktranlistHandle.FirstChildElement(...)`
down the path, from a node with the given children: the first segment for which
the handle becomes null, `none` when every segment is found. -/
def firstMissing : List (List Char) → List XMLNode → Option (List Char)
  | [], _ => none
  | segment :: rest, children =>
    match FirstChildElement children segment with
    | none => some segment
    | some c => firstMissing rest c.children

/-- The element that the handle holds after the walk, `none` when the handle is
null (a segment is missing) or the path is empty. -/
def resolvePath : List (List Char) → List XMLNode → Option XMLNode
  | [], _ => none
  | [segment], children => FirstChildElement children segment
  | segment :: rest, children =>
    match FirstChildElement children segment with
    | none => none
    | some c => resolvePath rest c.children

/-- The child list in which the first element of the given name has been
replaced by its image under `f`. -/
def mapFirstChildElement (name : List Char) (f : XMLNode → XMLNode) :
    List XMLNode → List XMLNode
  | [] => []
  | c :: cs =>
    if c.isElementNamed name then f c :: cs
    else c :: mapFirstChildElement name f cs

/-- The tree after `PruneSTMTTRN(banktranlist)` has changed, in place, the
element that the walk down the path ends at; the children given are those of
the node the walk starts from. -/
def pruneAlongPath (dedupeMemoField : Bool) :
    List (List Char) → List XMLNode → List XMLNode
  | [], children => children
  | [segment], children =>
    mapFirstChildElement segment (PruneSTMTTRN dedupeMemoField) children
  | segment :: rest, children =>
    mapFirstChildElement segment
      (fun c => .element c.Value (pruneAlongPath dedupeMemoField rest c.children))
      children

/-- The body of `for (std::string& type : statementTypes)`: the messages shown
so far and the document, before and after the iteration for `type`. -/
def pruneStatementType (dedupeMemoField : Bool)
    (state : List Message × List XMLNode) (type : List Char) :
    List Message × List XMLNode :=
  if (TYPE_TO_BANKTRANLIST_MAP type).length = 0 then
    (state.1 ++ [.mappingMissing type], state.2)
  else
    match firstMissing (TYPE_TO_BANKTRANLIST_MAP type) state.2 with
    | some segment => (state.1 ++ [.notModifying type segment], state.2)
    | none => (state.1, pruneAlongPath dedupeMemoField (TYPE_TO_BANKTRANLIST_MAP type) state.2)

/-- The loop that puts a carriage return before every line feed. -/
def normalizeLineEndings : List Char → List Char
  | [] => []
  | c :: cs =>
    if c = '\n' then '\r' :: '\n' :: normalizeLineEndings cs
    else c :: normalizeLineEndings cs

/-- The part of `ConvertInputToOFX` after the parsing (from the lookup of the
`OFX` root to the end), for the document `doc` parsed from the text `inxml`,
the window text `s` and the messages shown so far. -/
def convertParsed (lib : XMLLibrary) (dedupeMemoField : Bool) (s inxml : List Char)
    (messages : List Message) (doc : List XMLNode) : ConvertOutcome :=
  match FirstChildElement doc "OFX".toList with
  | none => ⟨messages ++ [.missingRoot], .failed (SetOfxWindowDebugText inxml)⟩
  | some _ =>
    if (statementTypes doc).length = 0 then
      ⟨messages ++ [.noStatementTypes], .failed (SetOfxWindowDebugText inxml)⟩
    else
      let state := (statementTypes doc).foldl (pruneStatementType dedupeMemoField)
        (messages, doc)
      let normalizedString := normalizeLineEndings (lib.Print state.2)
      ⟨if s = normalizedString then state.1 ++ [.nothingChanged] else state.1,
        .succeeded normalizedString⟩

/-- The string that `FixXML` returns, when it returns. -/
def FixOutcome.text : FixOutcome → Option (List Char)
  | .assertFailure => none
  | .diagnostic t => some t
  | .repaired t => some t

/-- The branch of `ConvertInputToOFX` that runs `FixXML`, after the message box
`notice`, parses what it returns and goes on with that document. -/
def repairAndConvert (lib : XMLLibrary) (dedupeMemoField : Bool)
    (s polished : List Char) (notice : Message) : ConvertOutcome :=
  match (FixXML polished).text with
  | none => ⟨[notice], .assertFailure⟩
  | some fixedXML =>
    if (lib.Parse fixedXML).1 ≠ 0 then
      ⟨[notice, .couldNotFix (lib.Parse fixedXML).1],
        .failed (SetOfxWindowDebugText fixedXML)⟩
    else convertParsed lib dedupeMemoField s fixedXML [notice] (lib.Parse fixedXML).2

/-- The function `ConvertInputToOFX`, for the text `s` of the input window,
with the XML library and the global `dedupeMemoField` as arguments. -/
def ConvertInputToOFX (lib : XMLLibrary) (dedupeMemoField : Bool) (s : List Char) :
    ConvertOutcome :=
  if (lib.Parse (polishedText s)).1 = 14 then
    repairAndConvert lib dedupeMemoField s (polishedText s) .unbalancedPerParser
  else if (lib.Parse (polishedText s)).1 = 0 then
    match isXMLBalanced (polishedText s) with
    | none => ⟨[], .assertFailure⟩
    | some false =>
      repairAndConvert lib dedupeMemoField s (polishedText s) .appearsUnbalanced
    | some true =>
      convertParsed lib dedupeMemoField s (polishedText s) [] (lib.Parse (polishedText s)).2
  else
    ⟨[.parserError (lib.Parse (polishedText s)).1],
      .failed (SetOfxWindowDebugText (polishedText s))⟩

/-- An XML library for examples: it parses every text, with no error, to the
document `<OFX><BANKMSGSRSV1/></OFX>` and prints every document as that
document is printed, headers first, one element per line. -/
def exampleLibrary : XMLLibrary where
  Parse := fun _ => (0, [.element "OFX".toList [.element "BANKMSGSRSV1".toList []]])
  Print := fun _ => XML_HEADER ++ ('\n' :: (XML_OFX_HEADER ++
    "\n<OFX>\n    <BANKMSGSRSV1/>\n</OFX>\n".toList))

/-- The text that `exampleLibrary` prints, with a carriage return before every
line feed, as a conversion writes it to the OFX window. -/
def exampleOutput : List Char :=
  XML_HEADER ++ ('\r' :: '\n' :: (XML_OFX_HEADER ++
    "\r\n<OFX>\r\n    <BANKMSGSRSV1/>\r\n</OFX>\r\n".toList))

/-- The root marker that `ConvertInputToOFX` looks for in each line. -/
def OFX_MARKER : List Char := "<OFX>".toList

/-- The specification's words "the suffix of the raw input that starts at the
first `<OFX>`": the text from the first place on where `marker` begins, and the
empty text when `marker` occurs nowhere. -/
def suffixFromFirst (marker : List Char) : List Char → List Char
  | [] => []
  | c :: cs =>
    if marker.isPrefixOf (c :: cs) then c :: cs else suffixFromFirst marker cs

/-- A text with a line feed put at its end unless it is empty or ends in one
already. -/
def endWithLineFeed : List Char → List Char
  | [] => []
  | [c] => if c = '\n' then [c] else [c, '\n']
  | c :: d :: cs => c :: endWithLineFeed (d :: cs)

/-- The suffix of the raw input from the first `<OFX>` on, with the line feed
that ends the line of the marker taken out and what follows that line ended
by a line feed. -/
def trimmedBody (s : List Char) : List Char :=
  (suffixFromFirst OFX_MARKER s).takeWhile (fun c => c != '\n') ++
    endWithLineFeed (((suffixFromFirst OFX_MARKER s).dropWhile (fun c => c != '\n')).drop 1)

/-- The warnings of the path loop of `ConvertInputToOFX` for a document, in the
order of `statementTypes`: one for each detected type with a missing segment,
naming the first missing segment. -/
def pathWarnings (doc : List XMLNode) : List Message :=
  (statementTypes doc).filterMap
    (fun type =>
      (firstMissing (TYPE_TO_BANKTRANLIST_MAP type) doc).map (Message.notModifying type))

/-- A document for examples: the credit card path is complete down to a
`BANKTRANLIST` with one record, the bank path stops after `STMTTRNRS`. -/
def exampleDocument : List XMLNode :=
  [.element "OFX".toList
    [.element "CREDITCARDMSGSRSV1".toList
      [.element "CCSTMTTRNRS".toList
        [.element "CCSTMTRS".toList
          [.element "BANKTRANLIST".toList
            [.element "STMTTRN".toList
              [.element "TRNTYPE".toList [.text 'D' "EBIT".toList],
               .element "SIC".toList [.text '5' "411".toList]]]]]],
     .element "BANKMSGSRSV1".toList [.element "STMTTRNRS".toList []]]]

/-! ## Values and tags as the scan of `FixXML` writes them (claims C21 to C25) -/

/-- The specification's words for a value as `FixXML` stores it: the input
value with all leading whitespace removed and every carriage return and line
feed removed. -/
def specValue (v : List Char) : List Char :=
  (v.dropWhile isspace).filter (fun c => c != '\r' && c != '\n')

/-- The statement `if (value.length() > 1) value.erase(...)` of the `<` branch
of `FixXML`, as a function of `value`. -/
def trimAtTag (value : List Char) : List Char :=
  if value.length > 1 then eraseTrailingSpaces value else value

/-- The characters of a text that are outside its tags, in order: a tag runs
from a `<` to the next `>`, and a `>` that no `<` precedes is a tag of its own;
`inTag` tells whether a `<` has been read with no `>` after it yet. -/
def outsideTags : List Char → Bool → List Char
  | [], _ => []
  | c :: cs, inTag =>
    if c = '>' then outsideTags cs false
    else if c = '<' then outsideTags cs true
    else if inTag then outsideTags cs true
    else c :: outsideTags cs false

/-- The tags of a text, in order, as both scanners collect them in `tag`:
`pending` is what has been read of a tag that has not ended yet. -/
def tagsFrom : List Char → List Char → List (List Char)
  | [], _ => []
  | c :: cs, pending =>
    if c = '>' then (pending ++ [c]) :: tagsFrom cs []
    else if c = '<' then tagsFrom cs (pending ++ [c])
    else if pending ≠ [] then tagsFrom cs (pending ++ [c])
    else tagsFrom cs pending

/-- The closing tags that `FixXML` synthesizes for the stack entries `closed`,
in the order in which it pops them. -/
def synthClosings (closed : List (List Char)) : List Char :=
  (closed.map (fun p => closeTagOf (openRawValue p))).flatten

/-- What holds of the local variables of `FixXML` throughout the scan: the
pending value is free of angle brackets, carriage returns and line feeds and
does not start with whitespace; a pending tag starts with `<`, has no other
angle bracket, and the value before it has been trimmed; the stack holds
opening tags only. -/
structure ScanInv (st : FixState) : Prop where
  value_chars : ∀ c ∈ st.value, c ≠ '<' ∧ c ≠ '>' ∧ c ≠ '\r' ∧ c ≠ '\n'
  value_head : ∀ c cs, st.value = c :: cs → isspace c = false
  tag_shape : (st.tag = [] ∧ st.processTag = false) ∨
    (∃ body, bracketFree body ∧ st.tag = '<' :: body ∧ st.processTag = true ∧
      trimAtTag st.value = st.value)
  stack_shape : ∀ p ∈ st.tagStack,
    TagShape p ∧ isClosingTag p = false ∧ isSelfContainedTag p = false

/-- What links the states of `FixXML` and `isXMLBalanced` while both scan the
same text and `isXMLBalanced` has not returned: the same pending tag, flag and
stack, and no pending value in `FixXML` when `isXMLBalanced` has none. -/
structure SimBal (f : FixState) (b : BalState) : Prop where
  tag_eq : f.tag = b.tag
  flag_eq : f.processTag = b.processTag
  stack_eq : f.tagStack = b.tagStack
  value_nil : b.value = [] → f.value = []

/-! ## Positions in the document (claim C26) -/

/-- The position, among the children, of the child that `FirstChildElement(name)`
returns; `none` when it returns null. -/
def firstChildIndex (name : List Char) : List XMLNode → Option Nat
  | [] => none
  | c :: cs =>
    if c.isElementNamed name then some 0
    else (firstChildIndex name cs).map (fun i => i + 1)

/-- The first-match chain of a path: the positions of the children that the
walk `FirstChildElement(segment)` goes through, one for each level, as far as
the walk gets. -/
def firstMatchChain : List (List Char) → List XMLNode → List Nat
  | [], _ => []
  | segment :: rest, children =>
    match firstChildIndex segment children with
    | none => []
    | some i =>
      match children[i]? with
      | none => []
      | some c => i :: firstMatchChain rest c.children

/-- The node at a position of the tree: `[i]` is the child number `i`, and
`i :: rest` is the node at `rest` among the children of child number `i`. -/
def nodeAt : List Nat → List XMLNode → Option XMLNode
  | [], _ => none
  | [i], children => children[i]?
  | i :: rest, children =>
    match children[i]? with
    | none => none
    | some c => nodeAt rest c.children

/-- The position leaves the chain: at some level it goes to another child than
the chain does, so the node there is neither on the chain nor below its end. -/
def offChain : List Nat → List Nat → Bool
  | i :: pos, j :: chain => if i = j then offChain pos chain else true
  | _, _ => false

/-- A document for examples with two `STMTTRNRS` blocks under `BANKMSGSRSV1`,
each with a transaction list that holds a field off the whitelist. -/
def twoBlockDocument : List XMLNode :=
  [.element "OFX".toList
    [.element "BANKMSGSRSV1".toList
      [.element "STMTTRNRS".toList
        [.element "STMTRS".toList
          [.element "BANKTRANLIST".toList
            [.element "STMTTRN".toList
              [.element "TRNAMT".toList [.text '1' []],
               .element "SIC".toList [.text '5' "411".toList]]]]],
       .element "STMTTRNRS".toList
        [.element "STMTRS".toList
          [.element "BANKTRANLIST".toList
            [.element "STMTTRN".toList
              [.element "TRNAMT".toList [.text '2' []],
               .element "SIC".toList [.text '5' "812".toList]]]]]]]]

end ConvertToOFX

namespace ConvertToOFX

/-! ## Scanning lemmas -/

theorem balScan_append (xs ys : List Char) (st : BalState) :
    balScan (xs ++ ys) st =
      match balScan xs st with
      | .next st' => balScan ys st'
      | .done r => .done r := by
  induction xs generalizing st with
  | nil => simp [balScan]
  | cons c cs ih =>
    simp only [List.cons_append, balScan]
    cases h : balStep c st with
    | next st' => simp [ih]
    | done r => simp

theorem balLoop_append (xs ys : List Char) (st : BalState) :
    balLoop (xs ++ ys) st =
      match balScan xs st with
      | .next st' => balLoop ys st'
      | .done r => r := by
  induction xs generalizing st with
  | nil => simp [balScan]
  | cons c cs ih =>
    simp only [List.cons_append, balScan, balLoop]
    cases h : balStep c st with
    | next st' => simp [ih]
    | done r => simp

theorem balStep_value (c : Char) (h1 : c ≠ '<') (h2 : c ≠ '>')
    (v0 : List Char) (S : List (List Char)) :
    ∃ v1, balStep c ⟨[], v0, false, S⟩ = .next ⟨[], v1, false, S⟩ := by
  simp only [balStep, h1, h2, if_false, Bool.false_eq_true]
  split_ifs <;> exact ⟨_, rfl⟩

theorem balScan_value (v : List Char) (hv : bracketFree v)
    (v0 : List Char) (S : List (List Char)) :
    ∃ v1, balScan v ⟨[], v0, false, S⟩ = .next ⟨[], v1, false, S⟩ := by
  induction v generalizing v0 with
  | nil => exact ⟨v0, rfl⟩
  | cons c cs ih =>
    have hc := hv c (List.mem_cons_self _ _)
    have hcs : bracketFree cs := fun d hd => hv d (List.mem_cons_of_mem _ hd)
    obtain ⟨v1, h1⟩ := balStep_value c hc.1 hc.2 v0 S
    obtain ⟨v2, h2⟩ := ih hcs v1
    exact ⟨v2, by simp only [balScan, h1, h2]⟩

theorem balStep_tagChar (c : Char) (h1 : c ≠ '<') (h2 : c ≠ '>')
    (t0 v : List Char) (S : List (List Char)) :
    balStep c ⟨t0, v, true, S⟩ = .next ⟨t0 ++ [c], v, true, S⟩ := by
  simp [balStep, h1, h2]

theorem balScan_tagBody (body : List Char) (hb : bracketFree body)
    (t0 v : List Char) (S : List (List Char)) :
    balScan body ⟨t0, v, true, S⟩ = .next ⟨t0 ++ body, v, true, S⟩ := by
  induction body generalizing t0 with
  | nil => simp [balScan]
  | cons c cs ih =>
    have hc := hb c (List.mem_cons_self _ _)
    have hcs : bracketFree cs := fun d hd => hb d (List.mem_cons_of_mem _ hd)
    simp only [balScan, balStep_tagChar c hc.1 hc.2, ih hcs]
    simp

theorem balScan_singleton (c : Char) (st : BalState) :
    balScan [c] st = balStep c st := by
  simp only [balScan]
  cases balStep c st <;> rfl

theorem balScan_tag (t : List Char) (ht : TagShape t)
    (v : List Char) (S : List (List Char)) :
    balScan t ⟨[], v, false, S⟩ = balCloseBracket ⟨[], v, false, S⟩ t := by
  rcases ht with rfl | ⟨body, hb, rfl⟩
  · rw [balScan_singleton]
    simp [balStep]
  · have h1 : balStep '<' ⟨[], v, false, S⟩ = .next ⟨['<'], v, true, S⟩ := by
      simp [balStep]
    simp only [balScan, h1]
    rw [balScan_append, balScan_tagBody body hb]
    simp only
    rw [balScan_singleton]
    simp [balStep]
    rfl

/-- Scanning a pending value and then a tag from a state between tokens comes
down to the `>` branch on that tag. -/
theorem balScan_value_tag (fx v t : List Char) (S : List (List Char))
    (h : balScan fx BalState.init = .next ⟨[], [], false, S⟩)
    (hv : bracketFree v) (ht : TagShape t) :
    ∃ v1, balScan (fx ++ (v ++ t)) BalState.init =
      balCloseBracket ⟨[], v1, false, S⟩ t := by
  obtain ⟨v1, h1⟩ := balScan_value v hv [] S
  refine ⟨v1, ?_⟩
  rw [balScan_append, h]
  simp only
  rw [balScan_append, h1]
  simp only
  exact balScan_tag t ht v1 S

theorem balScan_only_tag (fx t : List Char) (S : List (List Char))
    (h : balScan fx BalState.init = .next ⟨[], [], false, S⟩) (ht : TagShape t) :
    balScan (fx ++ t) BalState.init = balCloseBracket ⟨[], [], false, S⟩ t := by
  rw [balScan_append, h]
  simp only
  exact balScan_tag t ht [] S

/-! ## Raw names and synthesized closing tags -/

theorem isClosingTag_closeTagOf (raw : List Char) :
    isClosingTag (closeTagOf raw) = true := by
  simp [isClosingTag, closeTagOf, find, findFrom, List.isPrefixOf]

theorem sizeSub_add_self (n k : Nat) (h : n < SIZE_MOD) : sizeSub (n + k) k = n := by
  unfold sizeSub
  have : n + k + SIZE_MOD - k = n + SIZE_MOD := by omega
  rw [this, Nat.add_mod_right, Nat.mod_eq_of_lt h]

theorem sizeSub_le (n k : Nat) : sizeSub (n + k) k ≤ n := by
  unfold sizeSub
  have : n + k + SIZE_MOD - k = n + SIZE_MOD := by omega
  rw [this, Nat.add_mod_right]
  exact Nat.mod_le _ _

theorem closingRawValue_closeTagOf (raw : List Char) (h : raw.length < SIZE_MOD) :
    closingRawValue (closeTagOf raw) = raw := by
  have hl : (closeTagOf raw).length = raw.length + 3 := by
    simp [closeTagOf]
  unfold closingRawValue substr
  rw [hl, sizeSub_add_self _ _ h]
  simp [closeTagOf]

theorem openRawValue_length_lt (p : List Char) :
    (openRawValue p).length < SIZE_MOD := by
  unfold openRawValue substr
  refine lt_of_le_of_lt (List.length_take_le _ _) ?_
  exact Nat.mod_lt _ (by unfold SIZE_MOD; positivity)

theorem closingRawValue_closeTagOf_open (p : List Char) :
    closingRawValue (closeTagOf (openRawValue p)) = openRawValue p :=
  closingRawValue_closeTagOf _ (openRawValue_length_lt p)

theorem bracketFree_openRawValue (p : List Char) (hp : TagShape p) :
    bracketFree (openRawValue p) := by
  rcases hp with rfl | ⟨body, hb, rfl⟩
  · intro c hc
    simp [openRawValue, substr] at hc
  · intro c hc
    have hl : ('<' :: (body ++ ['>'])).length = body.length + 2 := by simp
    unfold openRawValue substr at hc
    rw [hl] at hc
    have hle := sizeSub_le body.length 2
    simp only [List.drop_succ_cons, List.drop_zero] at hc
    rw [List.take_append_of_le_length hle] at hc
    exact hb c (List.mem_of_mem_take hc)

theorem TagShape_closeTagOf (raw : List Char) (h : bracketFree raw) :
    TagShape (closeTagOf raw) := by
  refine Or.inr ⟨'/' :: raw, ?_, by simp [closeTagOf]⟩
  intro c hc
  rcases List.mem_cons.1 hc with rfl | hc
  · exact ⟨by decide, by decide⟩
  · exact h c hc

/-! ## The `>` branch of the checker on the tags the repair writes -/

theorem balCloseBracket_synth (p v : List Char) (S : List (List Char)) :
    balCloseBracket ⟨[], v, false, p :: S⟩ (closeTagOf (openRawValue p)) =
      .next ⟨[], [], false, S⟩ := by
  simp [balCloseBracket, isClosingTag_closeTagOf, closingRawValue_closeTagOf_open]

theorem balCloseBracket_closing (t p v : List Char) (S : List (List Char))
    (ht : isClosingTag t = true) (hm : openRawValue p = closingRawValue t) :
    balCloseBracket ⟨[], v, false, p :: S⟩ t = .next ⟨[], [], false, S⟩ := by
  simp [balCloseBracket, ht, hm]

theorem balCloseBracket_selfContained (t v : List Char) (S : List (List Char))
    (ht : isClosingTag t = false) (hs : isSelfContainedTag t = true) :
    balCloseBracket ⟨[], v, false, S⟩ t = .next ⟨[], [], false, S⟩ := by
  simp [balCloseBracket, ht, hs]

theorem balCloseBracket_open (t : List Char) (S : List (List Char))
    (ht : isClosingTag t = false) (hs : isSelfContainedTag t = false) :
    balCloseBracket ⟨[], [], false, S⟩ t = .next ⟨[], [], false, t :: S⟩ := by
  simp [balCloseBracket, ht, hs]

/-- Writing a pending value and the synthesized closing tag of the top of the
stack pops that tag in the second scan. -/
theorem rescan_value_synth (fx v p : List Char) (S : List (List Char))
    (h : balScan fx BalState.init = .next ⟨[], [], false, p :: S⟩)
    (hv : bracketFree v) (hp : TagShape p) :
    balScan (fx ++ (v ++ closeTagOf (openRawValue p))) BalState.init =
      .next ⟨[], [], false, S⟩ := by
  obtain ⟨v1, h1⟩ := balScan_value_tag fx v (closeTagOf (openRawValue p)) (p :: S) h hv
    (TagShape_closeTagOf _ (bracketFree_openRawValue p hp))
  rw [h1, balCloseBracket_synth]

theorem bracketFree_nil : bracketFree [] := by
  intro c hc
  cases hc

/-- The unwinding loop keeps the second scan in step: after it the tag popped
last is on top of the second scan's stack and bears the closing tag's name. -/
theorem unwind_rescan (tagRaw : List Char) (rest : List (List Char)) :
    ∀ (topTag fx value fx' v' : List Char) (stack' : List (List Char)),
      balScan fx BalState.init = .next ⟨[], [], false, topTag :: rest⟩ →
      TagShape topTag → (∀ p ∈ rest, TagShape p) → bracketFree value →
      unwind tagRaw rest (openRawValue topTag) fx value = .ok (fx', v', stack') →
      bracketFree v' ∧ (∀ p ∈ stack', TagShape p) ∧
        ∃ topTag', openRawValue topTag' = tagRaw ∧
          balScan fx' BalState.init = .next ⟨[], [], false, topTag' :: stack'⟩ := by
  induction rest with
  | nil =>
    intro topTag fx value fx' v' stack' h ht _ hv hu
    unfold unwind at hu
    split_ifs at hu with hne
    simp only [Except.ok.injEq, Prod.mk.injEq] at hu
    obtain ⟨rfl, rfl, rfl⟩ := hu
    refine ⟨hv, by simp, topTag, ?_, h⟩
    simpa using hne
  | cons top rest ih =>
    intro topTag fx value fx' v' stack' h ht hS hv hu
    unfold unwind at hu
    split_ifs at hu with hne
    · exact ih top _ [] fx' v' stack' (rescan_value_synth fx value topTag _ h hv ht)
        (hS top (List.mem_cons_self _ _))
        (fun p hp => hS p (List.mem_cons_of_mem _ hp)) bracketFree_nil hu
    · simp only [Except.ok.injEq, Prod.mk.injEq] at hu
      obtain ⟨rfl, rfl, rfl⟩ := hu
      refine ⟨hv, hS, topTag, ?_, h⟩
      simpa using hne

/-! ## The invariant is kept by every step of `FixXML` -/

theorem fixCloseBracket_inv (st st' : FixState) (t : List Char) (ht : TagShape t)
    (inv : FixInv st) (h : fixCloseBracket st t = .next st') : FixInv st' := by
  obtain ⟨fx, tg, v, pt, S⟩ := st
  obtain ⟨hre, hv, _, hS⟩ := inv
  simp only at hre hv hS
  unfold fixCloseBracket at h
  by_cases hc : isClosingTag t = true
  · simp only [hc, if_true] at h
    cases S with
    | nil => simp at h
    | cons top rest =>
      simp only at h
      cases hu : unwind (closingRawValue t) rest (openRawValue top) fx v with
      | error e => rw [hu] at h; simp at h
      | ok r =>
        obtain ⟨fx', v', stack'⟩ := r
        rw [hu] at h
        simp only [Step.next.injEq] at h
        subst h
        obtain ⟨hv', hS', top', hraw, hre'⟩ :=
          unwind_rescan _ rest top fx v fx' v' stack' hre
            (hS top (List.mem_cons_self _ _))
            (fun p hp => hS p (List.mem_cons_of_mem _ hp)) hv hu
        obtain ⟨v1, h1⟩ := balScan_value_tag fx' v' t _ hre' hv' ht
        refine ⟨?_, bracketFree_nil, Or.inl ⟨rfl, rfl⟩, hS'⟩
        simp only
        rw [h1, balCloseBracket_closing t top' v1 stack' hc hraw]
  · have hc' : isClosingTag t = false := by simpa using hc
    simp only [hc', Bool.false_eq_true, if_false] at h
    by_cases hs : isSelfContainedTag t = true
    · simp only [hs, if_true, Step.next.injEq] at h
      subst h
      obtain ⟨v1, h1⟩ := balScan_value_tag fx v t _ hre hv ht
      refine ⟨?_, bracketFree_nil, Or.inl ⟨rfl, rfl⟩, hS⟩
      simp only
      rw [h1, balCloseBracket_selfContained t v1 S hc' hs]
    · have hs' : isSelfContainedTag t = false := by simpa using hs
      simp only [hs', Bool.false_eq_true, if_false] at h
      by_cases hl : v.length > 0
      · simp only [hl, if_true] at h
        cases S with
        | nil => simp at h
        | cons top rest =>
          simp only [Step.next.injEq] at h
          subst h
          have h2 := rescan_value_synth fx v top rest hre hv
            (hS top (List.mem_cons_self _ _))
          refine ⟨?_, bracketFree_nil, Or.inl ⟨rfl, rfl⟩, ?_⟩
          · simp only
            rw [← List.append_assoc fx,
              balScan_only_tag _ t rest h2 ht, balCloseBracket_open t rest hc' hs']
          · intro p hp
            rcases List.mem_cons.1 hp with rfl | hp
            · exact ht
            · exact hS p (List.mem_cons_of_mem _ hp)
      · simp only [hl, if_false, Step.next.injEq] at h
        subst h
        refine ⟨?_, bracketFree_nil, Or.inl ⟨rfl, rfl⟩, ?_⟩
        · simp only
          rw [balScan_only_tag _ t S hre ht, balCloseBracket_open t S hc' hs']
        · intro p hp
          rcases List.mem_cons.1 hp with rfl | hp
          · exact ht
          · exact hS p hp

theorem bracketFree_eraseTrailingSpaces (v : List Char) (hv : bracketFree v) :
    bracketFree (eraseTrailingSpaces v) := by
  intro c hc
  unfold eraseTrailingSpaces at hc
  rw [List.mem_reverse] at hc
  have := (List.dropWhile_sublist _).subset hc
  exact hv c (List.mem_reverse.1 this)

theorem bracketFree_append_singleton (v : List Char) (c : Char)
    (hv : bracketFree v) (h1 : c ≠ '<') (h2 : c ≠ '>') : bracketFree (v ++ [c]) := by
  intro d hd
  rcases List.mem_append.1 hd with hd | hd
  · exact hv d hd
  · rw [List.mem_singleton] at hd
    subst hd
    exact ⟨h1, h2⟩

theorem fixStep_inv (c : Char) (st st' : FixState) (inv : FixInv st)
    (h : fixStep c st = .next st') : FixInv st' := by
  unfold fixStep at h
  by_cases hgt : c = '>'
  · subst hgt
    simp only [if_true] at h
    refine fixCloseBracket_inv st st' _ ?_ inv h
    rcases inv.tag_shape with ⟨h0, _⟩ | ⟨body, hb, h0, _⟩
    · rw [h0]; exact Or.inl rfl
    · rw [h0]; exact Or.inr ⟨body, hb, rfl⟩
  · simp only [hgt, if_false] at h
    by_cases hlt : c = '<'
    · subst hlt
      simp only [if_true] at h
      split_ifs at h with h0 hl
      · simp only [Step.next.injEq] at h
        subst h
        have ht0 : st.tag = [] := List.length_eq_zero.1 h0
        exact ⟨inv.rescan, bracketFree_eraseTrailingSpaces _ inv.value_free,
          Or.inr ⟨[], bracketFree_nil, by simp [ht0], rfl⟩, inv.stack_shape⟩
      · simp only [Step.next.injEq] at h
        subst h
        have ht0 : st.tag = [] := List.length_eq_zero.1 h0
        exact ⟨inv.rescan, inv.value_free,
          Or.inr ⟨[], bracketFree_nil, by simp [ht0], rfl⟩, inv.stack_shape⟩
    · simp only [hlt, if_false] at h
      split_ifs at h with hp hsp hnl
      · simp only [Step.next.injEq] at h
        subst h
        rcases inv.tag_shape with ⟨_, h1⟩ | ⟨body, hb, h0, _⟩
        · rw [h1] at hp; cases hp
        · exact ⟨inv.rescan, inv.value_free,
            Or.inr ⟨body ++ [c], bracketFree_append_singleton body c hb hlt hgt,
              by simp [h0], hp⟩, inv.stack_shape⟩
      · simp only [Step.next.injEq] at h
        subst h
        exact inv
      · simp only [Step.next.injEq] at h
        subst h
        exact inv
      · simp only [Step.next.injEq] at h
        subst h
        refine ⟨inv.rescan, bracketFree_append_singleton _ c inv.value_free hlt hgt,
          ?_, inv.stack_shape⟩
        rcases inv.tag_shape with h1 | ⟨body, hb, h0, h1⟩
        · exact Or.inl h1
        · rw [h1] at hp; exact absurd rfl hp

theorem FixInv_init : FixInv FixState.init :=
  ⟨rfl, bracketFree_nil, Or.inl ⟨rfl, rfl⟩, by intro p hp; cases hp⟩

/-- The closing loop at the end of `FixXML` empties the second scan's stack. -/
theorem closeOut_balanced (stack : List (List Char)) :
    ∀ fx : List Char, (∀ p ∈ stack, TagShape p) →
      balScan fx BalState.init = .next ⟨[], [], false, stack⟩ →
      balLoop (closeOut stack fx) BalState.init = some true := by
  induction stack with
  | nil =>
    intro fx _ h
    have := balLoop_append fx [] BalState.init
    rw [List.append_nil, h] at this
    simp only [closeOut]
    rw [this]
    simp [balLoop]
  | cons top rest ih =>
    intro fx hS h
    simp only [closeOut]
    refine ih _ (fun p hp => hS p (List.mem_cons_of_mem _ hp)) ?_
    have := rescan_value_synth fx [] top rest h bracketFree_nil
      (hS top (List.mem_cons_self _ _))
    simpa using this

theorem fixStep_done_ne_repaired (c : Char) (st : FixState) (out : List Char) :
    fixStep c st ≠ .done (.repaired out) := by
  unfold fixStep fixCloseBracket
  intro h
  repeat' split at h
  all_goals simp at h

theorem fixLoop_balanced (input : List Char) :
    ∀ (st : FixState) (out : List Char), FixInv st →
      fixLoop input st = .repaired out → balLoop out BalState.init = some true := by
  induction input with
  | nil =>
    intro st out inv h
    simp only [fixLoop, FixOutcome.repaired.injEq] at h
    subst h
    exact closeOut_balanced st.tagStack st.fixedXML inv.stack_shape inv.rescan
  | cons c cs ih =>
    intro st out inv h
    simp only [fixLoop] at h
    cases hs : fixStep c st with
    | next st' =>
      rw [hs] at h
      exact ih st' out (fixStep_inv c st st' inv hs) h
    | done r =>
      rw [hs] at h
      simp only at h
      subst h
      exact absurd hs (fixStep_done_ne_repaired c st out)

/-! ## Claims on the repair engine and the balance checker -/

/-- C1: whenever `FixXML` returns a repaired document (no diagnostic result and
no failed assertion), `isXMLBalanced` accepts that document. -/
theorem FixXML_output_is_balanced (s out : List Char)
    (h : FixXML s = .repaired out) : isXMLBalanced out = some true :=
  fixLoop_balanced s FixState.init out FixInv_init h

theorem FixXML_output_is_balanced_witness :
    FixXML "<a><b>x<c>y</a>z".toList = .repaired "<a><b>x</b><c>y</c></a>".toList ∧
      isXMLBalanced "<a><b>x</b><c>y</c></a>".toList = some true :=
  ⟨by decide, FixXML_output_is_balanced "<a><b>x<c>y</a>z".toList
    "<a><b>x</b><c>y</c></a>".toList (by decide)⟩

set_option maxRecDepth 100000 in
/-- C2 (the code departs from the claim): on the text `<a>x><b></b></a>` the
reference reduction fails, the `>` after `x` being no self-closing tag and no
declaration and the opening tag `<b>` being reached after a value, yet
`isXMLBalanced` returns true: the lone `>` is the one-character tag `>`, for
which `tag.length() - 2` wraps around to `npos`, the value `find` returns, so it
is taken for a self-contained tag and the pending value is cleared. The same
happens behind the two headers that `ConvertInputToOFX` prepends, and without
the lone `>` the text is rejected. -/
theorem isXMLBalanced_stray_bracket :
    isXMLBalanced "<a>x><b></b></a>".toList = some true ∧
      specBalanced "<a>x><b></b></a>".toList = some false ∧
      isXMLBalanced (XML_HEADER ++ '\n' :: XML_OFX_HEADER ++ '\n' ::
        "<OFX>x><b></b></OFX>".toList) = some true ∧
      isXMLBalanced "<a>x<b></b></a>".toList = some false ∧
      isSelfContainedTag ">".toList = true ∧
      find ">".toList "/>".toList = npos ∧ sizeSub ">".toList.length 2 = npos ∧
      specClassify ">".toList = .OpenTag [] := by
  decide

/-! ## Lemmas on the pruner -/

theorem pruneFields_eq_filter (cs : List XMLNode) :
    pruneFields cs = cs.filter (fun c => decide (c.Value ∈ STMTTRN_WHITELIST)) := by
  induction cs with
  | nil => rfl
  | cons c cs ih =>
    by_cases h : c.Value ∈ STMTTRN_WHITELIST
    · simp [pruneFields, h, ih]
    · simp [pruneFields, h, ih]

theorem Value_of_isElementNamed (name : List Char) (c : XMLNode)
    (h : c.isElementNamed name = true) : c.Value = name := by
  cases c with
  | element n cs => simpa [XMLNode.isElementNamed, XMLNode.Value] using h
  | text a r => simp [XMLNode.isElementNamed] at h

theorem find?_filter_of_imp {α : Type} (p q : α → Bool) (hpq : ∀ x, p x = true → q x = true)
    (l : List α) : (l.filter q).find? p = l.find? p := by
  induction l with
  | nil => rfl
  | cons a l ih =>
    by_cases hq : q a = true
    · by_cases hp : p a = true
      · simp [List.filter_cons, hq, hp]
      · simp [List.filter_cons, hq, hp, ih]
    · have hp : ¬ p a = true := fun hp => hq (hpq a hp)
      simp [List.filter_cons, hq, hp, ih]

theorem filter_eraseP_self {α : Type} (p : α → Bool) (l : List α) :
    (l.eraseP p).filter p = (l.filter p).tail := by
  induction l with
  | nil => rfl
  | cons a l ih =>
    by_cases hp : p a = true
    · simp [List.eraseP_cons, hp, List.filter_cons]
    · simp [List.eraseP_cons, hp, List.filter_cons, ih]

theorem filter_eraseP_of_disjoint {α : Type} (p q : α → Bool)
    (hpq : ∀ x, p x = true → q x = false) (l : List α) :
    (l.eraseP p).filter q = l.filter q := by
  induction l with
  | nil => rfl
  | cons a l ih =>
    by_cases hp : p a = true
    · simp [List.eraseP_cons, hp, List.filter_cons, hpq a hp]
    · by_cases hq : q a = true
      · simp [List.eraseP_cons, hp, List.filter_cons, hq, ih]
      · simp [List.eraseP_cons, hp, List.filter_cons, hq, ih]

theorem firstChildElement_pruneFields (cs : List XMLNode) (name : List Char)
    (h : name ∈ STMTTRN_WHITELIST) :
    FirstChildElement (pruneFields cs) name = FirstChildElement cs name := by
  unfold FirstChildElement
  rw [pruneFields_eq_filter]
  refine find?_filter_of_imp _ _ ?_ cs
  intro x hx
  rw [Value_of_isElementNamed name x hx]
  simpa using h

theorem dedupeMemo_cases (cs : List XMLNode) :
    dedupeMemo cs = cs ∨ dedupeMemo cs = cs.eraseP (XMLNode.isElementNamed "MEMO".toList) := by
  unfold dedupeMemo DeleteFirstChildElement
  repeat' split
  all_goals simp

theorem pruneRecord_cases (d : Bool) (cs : List XMLNode) :
    pruneRecord d cs = pruneFields cs ∨
      (d = true ∧ pruneRecord d cs =
        (pruneFields cs).eraseP (XMLNode.isElementNamed "MEMO".toList)) := by
  unfold pruneRecord
  cases d with
  | false => simp
  | true =>
    rcases dedupeMemo_cases (pruneFields cs) with h | h
    · simp [h]
    · simp [h]

theorem pruneRecord_sublist (d : Bool) (cs : List XMLNode) :
    (pruneRecord d cs).Sublist cs := by
  have hf : (pruneFields cs).Sublist cs := by
    rw [pruneFields_eq_filter]; exact List.filter_sublist _
  rcases pruneRecord_cases d cs with h | ⟨_, h⟩
  · rw [h]; exact hf
  · rw [h]; exact (List.eraseP_sublist _).trans hf

theorem getElem?_children_PruneSTMTTRN (d : Bool) (cn : List Char)
    (cs : List XMLNode) (i : Nat) :
    (PruneSTMTTRN d (.element cn cs)).children[i]? = (cs[i]?).map (pruneChild d) := by
  simp [PruneSTMTTRN, XMLNode.children]

theorem pruneChild_record (d : Bool) (fields : List XMLNode) :
    pruneChild d (.element "STMTTRN".toList fields) =
      .element "STMTTRN".toList (pruneRecord d fields) := by
  simp [pruneChild]

/-! ## Claims on the pruner -/

/-- C3 as worded fails: an element that is a direct child of the container but
is not named `STMTTRN` is not visited, so its child `FOO` stays. -/
theorem PruneSTMTTRN_skips_other_children :
    ¬ recordsWhitelisted (PruneSTMTTRN true
        (.element "BANKTRANLIST".toList
          [.element "X".toList [.element "FOO".toList []]])) := by
  intro h
  have := h "X".toList [.element "FOO".toList []]
    (by simp [PruneSTMTTRN, pruneChild, XMLNode.children])
    "FOO".toList [] (by simp)
  revert this
  decide

/-- C3 amended: after `PruneSTMTTRN`, every child element of every direct child
of the container that is an element named `STMTTRN` has one of the nine
whitelisted names. -/
theorem PruneSTMTTRN_whitelist (d : Bool) (banktranlist : XMLNode)
    (fields : List XMLNode)
    (h : XMLNode.element "STMTTRN".toList fields ∈
      (PruneSTMTTRN d banktranlist).children) :
    ∀ m sub, XMLNode.element m sub ∈ fields → m ∈ STMTTRN_WHITELIST := by
  intro m sub hm
  cases banktranlist with
  | text a r => simp [PruneSTMTTRN, XMLNode.children] at h
  | element cn cs =>
    simp only [PruneSTMTTRN, XMLNode.children, List.mem_map] at h
    obtain ⟨c, _, hc⟩ := h
    cases c with
    | text a r => simp [pruneChild] at hc
    | element n fs =>
      simp only [pruneChild] at hc
      split_ifs at hc with hn
      · simp only [XMLNode.element.injEq] at hc
        obtain ⟨_, rfl⟩ := hc
        have h1 := (pruneRecord_sublist d fs).subset hm
        have h2 : XMLNode.element m sub ∈ pruneFields fs := by
          rcases pruneRecord_cases d fs with h | ⟨_, h⟩
          · rw [h] at hm; exact hm
          · rw [h] at hm; exact (List.eraseP_sublist _).subset hm
        rw [pruneFields_eq_filter, List.mem_filter] at h2
        simpa [XMLNode.Value] using h2.2
      · simp only [XMLNode.element.injEq] at hc
        exact absurd hc.1 hn

theorem PruneSTMTTRN_whitelist_witness :
    XMLNode.element "STMTTRN".toList [.element "TRNTYPE".toList [.text 'C' []]] ∈
        (PruneSTMTTRN true (.element "BANKTRANLIST".toList
          [.element "STMTTRN".toList
            [.element "TRNTYPE".toList [.text 'C' []],
             .element "FOO".toList [.text 'b' []]]])).children ∧
      ∀ m sub, XMLNode.element m sub ∈
          [XMLNode.element "TRNTYPE".toList [.text 'C' []]] →
        m ∈ STMTTRN_WHITELIST :=
  have hmem : XMLNode.element "STMTTRN".toList [.element "TRNTYPE".toList [.text 'C' []]] ∈
        (PruneSTMTTRN true (.element "BANKTRANLIST".toList
          [.element "STMTTRN".toList
            [.element "TRNTYPE".toList [.text 'C' []],
             .element "FOO".toList [.text 'b' []]]])).children :=
    List.mem_cons_self _ _
  ⟨hmem, PruneSTMTTRN_whitelist true _ _ hmem⟩

/-- C4 as worded fails: in a record with a `NAME` and two `MEMO` fields, all of
the same text, only the first `MEMO` is deleted and the record still contains a
`MEMO` field after `PruneSTMTTRN`. -/
theorem PruneSTMTTRN_second_memo_stays :
    PruneSTMTTRN true (.element "BANKTRANLIST".toList
        [.element "STMTTRN".toList
          [.element "NAME".toList [.text 'X' []],
           .element "MEMO".toList [.text 'X' []],
           .element "MEMO".toList [.text 'X' []]]]) =
      .element "BANKTRANLIST".toList
        [.element "STMTTRN".toList
          [.element "NAME".toList [.text 'X' []],
           .element "MEMO".toList [.text 'X' []]]] ∧
    FirstChildElement
        [.element "NAME".toList [.text 'X' []],
         .element "MEMO".toList [.text 'X' []]] "MEMO".toList =
      some (.element "MEMO".toList [.text 'X' []]) :=
  ⟨rfl, rfl⟩

/-- C4 amended: with the dedupe flag enabled, for every `STMTTRN` record whose
first `NAME` child and first `MEMO` child both have text and the texts are
equal, `PruneSTMTTRN` deletes that first `MEMO` child and no other `MEMO`
or `NAME`: a record with a single `MEMO` field (as the record of the example)
contains no `MEMO` field afterwards. -/
theorem PruneSTMTTRN_dedupes_first_memo (cn : List Char) (cs : List XMLNode)
    (i : Nat) (fields : List XMLNode) (name memo : XMLNode) (t : List Char)
    (hrec : cs[i]? = some (.element "STMTTRN".toList fields))
    (hname : FirstChildElement fields "NAME".toList = some name)
    (hmemo : FirstChildElement fields "MEMO".toList = some memo)
    (htn : name.GetText = some t) (htm : memo.GetText = some t) :
    ∃ fields', (PruneSTMTTRN true (.element cn cs)).children[i]? =
        some (.element "STMTTRN".toList fields') ∧
      fields'.filter (XMLNode.isElementNamed "MEMO".toList) =
        (fields.filter (XMLNode.isElementNamed "MEMO".toList)).tail ∧
      fields'.filter (XMLNode.isElementNamed "NAME".toList) =
        fields.filter (XMLNode.isElementNamed "NAME".toList) ∧
      ((fields.filter (XMLNode.isElementNamed "MEMO".toList)).length = 1 →
        ∀ f ∈ fields', f.isElementNamed "MEMO".toList = false) := by
  have hwl : ∀ nm : List Char, nm ∈ STMTTRN_WHITELIST → ∀ l : List XMLNode,
      (pruneFields l).filter (XMLNode.isElementNamed nm) =
        l.filter (XMLNode.isElementNamed nm) := by
    intro nm hnm l
    rw [pruneFields_eq_filter, List.filter_filter]
    congr 1
    funext x
    by_cases hx : x.isElementNamed nm = true
    · simp [hx, Value_of_isElementNamed nm x hx, hnm]
    · simp [hx]
  have hrecord : pruneRecord true fields =
      (pruneFields fields).eraseP (XMLNode.isElementNamed "MEMO".toList) := by
    simp only [pruneRecord, if_true, dedupeMemo]
    rw [firstChildElement_pruneFields _ _ (by decide),
      firstChildElement_pruneFields _ _ (by decide), hname, hmemo]
    simp [htn, htm, DeleteFirstChildElement]
  have hM : (pruneRecord true fields).filter (XMLNode.isElementNamed "MEMO".toList) =
      (fields.filter (XMLNode.isElementNamed "MEMO".toList)).tail := by
    rw [hrecord, filter_eraseP_self, hwl _ (by decide)]
  refine ⟨pruneRecord true fields, ?_, hM, ?_, ?_⟩
  · rw [getElem?_children_PruneSTMTTRN, hrec, Option.map_some', pruneChild_record]
  · rw [hrecord, filter_eraseP_of_disjoint, hwl _ (by decide)]
    intro x hx
    cases x with
    | text a r => rfl
    | element n sub =>
      have : n = "MEMO".toList := by simpa [XMLNode.isElementNamed] using hx
      subst this
      show ("MEMO".toList == "NAME".toList) = false
      decide
  · intro hone f hf
    by_contra hcon
    have hcon' : f.isElementNamed "MEMO".toList = true := by simpa using hcon
    have hmem : f ∈ (pruneRecord true fields).filter
        (XMLNode.isElementNamed "MEMO".toList) := List.mem_filter.2 ⟨hf, hcon'⟩
    rw [hM] at hmem
    match hl : fields.filter (XMLNode.isElementNamed "MEMO".toList), hone with
    | [a], _ => rw [hl] at hmem; simp at hmem

theorem PruneSTMTTRN_dedupes_first_memo_witness :
    (PruneSTMTTRN true (.element "BANKTRANLIST".toList
        [.element "STMTTRN".toList
          [.element "TRNTYPE".toList [.text 'C' "HECK".toList],
           .element "FOO".toList [.text 'b' "ar".toList],
           .element "NAME".toList [.text 'X' []],
           .element "MEMO".toList [.text 'X' []]]])) =
      .element "BANKTRANLIST".toList
        [.element "STMTTRN".toList
          [.element "TRNTYPE".toList [.text 'C' "HECK".toList],
           .element "NAME".toList [.text 'X' []]]] ∧
    ∃ fields', (PruneSTMTTRN true (.element "BANKTRANLIST".toList
        [.element "STMTTRN".toList
          [.element "TRNTYPE".toList [.text 'C' "HECK".toList],
           .element "FOO".toList [.text 'b' "ar".toList],
           .element "NAME".toList [.text 'X' []],
           .element "MEMO".toList [.text 'X' []]]])).children[0]? =
        some (.element "STMTTRN".toList fields') ∧
      fields'.filter (XMLNode.isElementNamed "MEMO".toList) =
        ([XMLNode.element "TRNTYPE".toList [.text 'C' "HECK".toList],
           .element "FOO".toList [.text 'b' "ar".toList],
           .element "NAME".toList [.text 'X' []],
           .element "MEMO".toList [.text 'X' []]].filter
            (XMLNode.isElementNamed "MEMO".toList)).tail ∧
      fields'.filter (XMLNode.isElementNamed "NAME".toList) =
        [XMLNode.element "TRNTYPE".toList [.text 'C' "HECK".toList],
           .element "FOO".toList [.text 'b' "ar".toList],
           .element "NAME".toList [.text 'X' []],
           .element "MEMO".toList [.text 'X' []]].filter
            (XMLNode.isElementNamed "NAME".toList) ∧
      (([XMLNode.element "TRNTYPE".toList [.text 'C' "HECK".toList],
           .element "FOO".toList [.text 'b' "ar".toList],
           .element "NAME".toList [.text 'X' []],
           .element "MEMO".toList [.text 'X' []]].filter
            (XMLNode.isElementNamed "MEMO".toList)).length = 1 →
        ∀ f ∈ fields', f.isElementNamed "MEMO".toList = false) :=
  ⟨rfl, PruneSTMTTRN_dedupes_first_memo "BANKTRANLIST".toList _ 0 _
    (.element "NAME".toList [.text 'X' []]) (.element "MEMO".toList [.text 'X' []])
    "X".toList rfl rfl rfl rfl rfl⟩

theorem filter_isNameOrMemo_pruneFields (l : List XMLNode) :
    (pruneFields l).filter isNameOrMemo = l.filter isNameOrMemo := by
  rw [pruneFields_eq_filter, List.filter_filter]
  congr 1
  funext x
  by_cases hx : isNameOrMemo x = true
  · have hv : x.Value ∈ STMTTRN_WHITELIST := by
      unfold isNameOrMemo at hx
      rcases Bool.or_eq_true_iff.1 hx with h | h
      · rw [Value_of_isElementNamed _ x h]; decide
      · rw [Value_of_isElementNamed _ x h]; decide
    simp [hx, hv]
  · simp [hx]

/-- C5: `PruneSTMTTRN` leaves the `NAME` and `MEMO` children of a `STMTTRN`
record as they are (the same nodes in the same order) when the dedupe flag is
disabled, and when the record has no `NAME` child and `MEMO` child that both
have text with the two texts equal (one of them absent, one without text, or
the texts different). -/
theorem PruneSTMTTRN_keeps_name_and_memo (d : Bool) (cn : List Char)
    (cs : List XMLNode) (i : Nat) (fields : List XMLNode)
    (hrec : cs[i]? = some (.element "STMTTRN".toList fields))
    (h : d = false ∨ ∀ name ∈ fields, ∀ memo ∈ fields,
      name.isElementNamed "NAME".toList = true →
      memo.isElementNamed "MEMO".toList = true →
      ∀ t, name.GetText = some t → memo.GetText ≠ some t) :
    ∃ fields', (PruneSTMTTRN d (.element cn cs)).children[i]? =
        some (.element "STMTTRN".toList fields') ∧
      fields'.filter isNameOrMemo = fields.filter isNameOrMemo := by
  refine ⟨pruneRecord d fields, ?_, ?_⟩
  · rw [getElem?_children_PruneSTMTTRN, hrec, Option.map_some', pruneChild_record]
  · have hkeep : pruneRecord d fields = pruneFields fields := by
      rcases h with rfl | h
      · rfl
      · cases d with
        | false => rfl
        | true =>
          simp only [pruneRecord, if_true, dedupeMemo]
          rw [firstChildElement_pruneFields _ _ (by decide),
            firstChildElement_pruneFields _ _ (by decide)]
          cases hn : FirstChildElement fields "NAME".toList with
          | none => rfl
          | some name =>
            cases hm : FirstChildElement fields "MEMO".toList with
            | none => rfl
            | some memo =>
              simp only
              cases htn : name.GetText with
              | none => rfl
              | some a =>
                cases htm : memo.GetText with
                | none => rfl
                | some b =>
                  simp only
                  have hne : a ≠ b := by
                    intro hab
                    subst hab
                    unfold FirstChildElement at hn hm
                    exact h name (List.mem_of_find?_eq_some hn)
                      memo (List.mem_of_find?_eq_some hm)
                      (List.find?_some hn) (List.find?_some hm) a htn htm
                  simp [hne]
    rw [hkeep, filter_isNameOrMemo_pruneFields]

theorem PruneSTMTTRN_keeps_name_and_memo_witness :
    ∃ fields', (PruneSTMTTRN true (.element "BANKTRANLIST".toList
        [.element "STMTTRN".toList
          [.element "NAME".toList [.text 'X' []],
           .element "FOO".toList [],
           .element "MEMO".toList [.text 'Y' []]]])).children[0]? =
        some (.element "STMTTRN".toList fields') ∧
      fields'.filter isNameOrMemo =
        [XMLNode.element "NAME".toList [.text 'X' []],
           .element "FOO".toList [],
           .element "MEMO".toList [.text 'Y' []]].filter isNameOrMemo :=
  PruneSTMTTRN_keeps_name_and_memo true "BANKTRANLIST".toList _ 0 _ rfl
    (Or.inr (by
      intro name hname memo hmemo hn hm t htn htm
      simp only [List.mem_cons, List.mem_singleton, List.not_mem_nil, or_false] at hname hmemo
      rcases hname with rfl | rfl | rfl <;> rcases hmemo with rfl | rfl | rfl <;>
        simp_all [XMLNode.isElementNamed, XMLNode.GetText]
      subst htn
      exact absurd htm (by decide)))

/-- C6: for every `STMTTRN` record, the children after `PruneSTMTTRN` are the
original children whose name (`Value()`) is in the whitelist, in their original
order, less the first `MEMO` element when deduplication removed it; every
whitelisted child other than a `MEMO` element is kept, in place. -/
theorem PruneSTMTTRN_keeps_whitelisted_in_order (d : Bool) (cn : List Char)
    (cs : List XMLNode) (i : Nat) (fields : List XMLNode)
    (hrec : cs[i]? = some (.element "STMTTRN".toList fields)) :
    ∃ fields', (PruneSTMTTRN d (.element cn cs)).children[i]? =
        some (.element "STMTTRN".toList fields') ∧
      (fields' = fields.filter (fun c => decide (c.Value ∈ STMTTRN_WHITELIST)) ∨
        (d = true ∧ fields' =
          (fields.filter (fun c => decide (c.Value ∈ STMTTRN_WHITELIST))).eraseP
            (XMLNode.isElementNamed "MEMO".toList))) ∧
      fields'.Sublist fields ∧
      fields'.filter (fun c => !c.isElementNamed "MEMO".toList) =
        fields.filter (fun c => decide (c.Value ∈ STMTTRN_WHITELIST) &&
          !c.isElementNamed "MEMO".toList) := by
  refine ⟨pruneRecord d fields, ?_, ?_, pruneRecord_sublist d fields, ?_⟩
  · rw [getElem?_children_PruneSTMTTRN, hrec, Option.map_some', pruneChild_record]
  · rw [← pruneFields_eq_filter]
    exact pruneRecord_cases d fields
  · have hf : (pruneFields fields).filter (fun c => !c.isElementNamed "MEMO".toList) =
        fields.filter (fun c => decide (c.Value ∈ STMTTRN_WHITELIST) &&
          !c.isElementNamed "MEMO".toList) := by
      rw [pruneFields_eq_filter, List.filter_filter]
      congr 1
      funext x
      exact Bool.and_comm _ _
    rcases pruneRecord_cases d fields with h | ⟨_, h⟩
    · rw [h, hf]
    · rw [h, filter_eraseP_of_disjoint _ _ (fun x hx => by rw [hx]; rfl), hf]

theorem PruneSTMTTRN_keeps_whitelisted_in_order_witness :
    ∃ fields', (PruneSTMTTRN true (.element "BANKTRANLIST".toList
        [.text 'j' [],
         .element "STMTTRN".toList
          [.element "DTPOSTED".toList [.text '2' []],
           .element "SIC".toList [.text '7' []],
           .element "TRNAMT".toList [.text '5' []]]])).children[1]? =
        some (.element "STMTTRN".toList fields') ∧
      (fields' = [XMLNode.element "DTPOSTED".toList [.text '2' []],
           .element "SIC".toList [.text '7' []],
           .element "TRNAMT".toList [.text '5' []]].filter
            (fun c => decide (c.Value ∈ STMTTRN_WHITELIST)) ∨
        (true = true ∧ fields' =
          ([XMLNode.element "DTPOSTED".toList [.text '2' []],
           .element "SIC".toList [.text '7' []],
           .element "TRNAMT".toList [.text '5' []]].filter
            (fun c => decide (c.Value ∈ STMTTRN_WHITELIST))).eraseP
            (XMLNode.isElementNamed "MEMO".toList))) ∧
      fields'.Sublist [XMLNode.element "DTPOSTED".toList [.text '2' []],
           .element "SIC".toList [.text '7' []],
           .element "TRNAMT".toList [.text '5' []]] ∧
      fields'.filter (fun c => !c.isElementNamed "MEMO".toList) =
        [XMLNode.element "DTPOSTED".toList [.text '2' []],
           .element "SIC".toList [.text '7' []],
           .element "TRNAMT".toList [.text '5' []]].filter
          (fun c => decide (c.Value ∈ STMTTRN_WHITELIST) &&
            !c.isElementNamed "MEMO".toList) :=
  PruneSTMTTRN_keeps_whitelisted_in_order true "BANKTRANLIST".toList _ 1 _ rfl

/-- C7: `PruneSTMTTRN` keeps the container's name and its list of children node
for node: a child other than a `STMTTRN` element is unchanged, and a `STMTTRN`
element keeps its name and has as children a sublist of its children before
the call, each retained child being the same node with the same subtree. -/
theorem PruneSTMTTRN_frame (d : Bool) (cn : List Char) (cs : List XMLNode) :
    ∃ cs', PruneSTMTTRN d (.element cn cs) = .element cn cs' ∧
      cs'.map XMLNode.Value = cs.map XMLNode.Value ∧
      List.Forall₂ (fun c c' => c' = c ∨ ∃ fields fields',
        c = .element "STMTTRN".toList fields ∧
        c' = .element "STMTTRN".toList fields' ∧ fields'.Sublist fields) cs cs' := by
  refine ⟨cs.map (pruneChild d), rfl, ?_, ?_⟩
  · rw [List.map_map]
    congr 1
    funext c
    cases c with
    | text a r => rfl
    | element n fs =>
      simp only [Function.comp, pruneChild]
      split_ifs <;> rfl
  · rw [List.forall₂_map_right_iff]
    refine List.forall₂_same.2 ?_
    intro c _
    cases c with
    | text a r => exact Or.inl rfl
    | element n fs =>
      simp only [pruneChild]
      split_ifs with hn
      · subst hn
        exact Or.inr ⟨fs, _, rfl, rfl, pruneRecord_sublist d fs⟩
      · exact Or.inl rfl

/-! ## Lemmas on the scan of `FixXML` -/

theorem fixLoop_append (xs ys : List Char) (st : FixState) :
    fixLoop (xs ++ ys) st =
      match fixScan xs st with
      | .next st' => fixLoop ys st'
      | .done r => r := by
  induction xs generalizing st with
  | nil => simp [fixScan]
  | cons c cs ih =>
    simp only [List.cons_append, fixScan, fixLoop]
    cases h : fixStep c st with
    | next st' => simp [ih]
    | done r => simp

theorem fixScan_append (xs ys : List Char) (st : FixState) :
    fixScan (xs ++ ys) st =
      match fixScan xs st with
      | .next st' => fixScan ys st'
      | .done r => .done r := by
  induction xs generalizing st with
  | nil => simp [fixScan]
  | cons c cs ih =>
    simp only [List.cons_append, fixScan]
    cases h : fixStep c st with
    | next st' => simp [ih]
    | done r => simp

/-- C9: when the scan of `FixXML` has read `pre` without leaving the function,
the stack is empty and the next character `>` completes a closing tag, the
function returns the first diagnostic message followed by exactly the text
`fixedXML` written up to there; on `</a>` it returns the message alone. -/
theorem FixXML_closing_tag_on_empty_stack (pre post : List Char) (st : FixState)
    (hscan : fixScan pre FixState.init = .next st)
    (hstack : st.tagStack = [])
    (hclose : isClosingTag (st.tag ++ ['>']) = true) :
    FixXML (pre ++ '>' :: post) =
        .diagnostic (MSG_NO_TAG_FOR_CLOSING ++ st.fixedXML) ∧
      FixXML "</a>".toList = .diagnostic MSG_NO_TAG_FOR_CLOSING := by
  refine ⟨?_, by decide⟩
  unfold FixXML
  rw [fixLoop_append, hscan]
  simp [fixLoop, fixStep, fixCloseBracket, hclose, hstack]

theorem FixXML_closing_tag_on_empty_stack_witness :
    FixXML ("<a>x</a> </b".toList ++ '>' :: "<c>y</c>".toList) =
        .diagnostic (MSG_NO_TAG_FOR_CLOSING ++ "<a>x</a>".toList) ∧
      FixXML "</a>".toList = .diagnostic MSG_NO_TAG_FOR_CLOSING :=
  FixXML_closing_tag_on_empty_stack "<a>x</a> </b".toList "<c>y</c>".toList
    ⟨"<a>x</a>".toList, "</b".toList, [], true, []⟩ rfl rfl (by decide)

/-! ## Plain tags in the scanners -/

theorem findFrom_succ_ne_zero (pat s : List Char) (i : Nat) :
    findFrom pat s (i + 1) ≠ 0 := by
  induction s generalizing i with
  | nil =>
    unfold findFrom
    split_ifs
    · omega
    · decide
  | cons c cs ih =>
    unfold findFrom
    split_ifs
    · omega
    · exact ih (i + 1)

theorem findFrom_eq_npos_of_not_mem (a b : Char) (s : List Char) (i : Nat)
    (h : a ∉ s) : findFrom [a, b] s i = npos := by
  induction s generalizing i with
  | nil => simp [findFrom]
  | cons c cs ih =>
    have hca : a ≠ c := fun e => h (e ▸ List.mem_cons_self _ _)
    have hcs : a ∉ cs := fun e => h (List.mem_cons_of_mem _ e)
    unfold findFrom
    have : List.isPrefixOf [a, b] (c :: cs) = false := by
      simp [List.isPrefixOf, hca]
    simp [this, ih (i + 1) hcs]

theorem plainName_spec (n : List Char) (h : plainName n = true) :
    (∀ c ∈ n, c ≠ '<' ∧ c ≠ '>' ∧ c ≠ '/' ∧ c ≠ '?' ∧ isspace c = false) ∧
      n.length < npos := by
  unfold plainName at h
  simp only [Bool.and_eq_true, List.all_eq_true, decide_eq_true_eq, bne_iff_ne, ne_eq,
    Bool.not_eq_true'] at h
  refine ⟨fun c hc => ?_, h.2⟩
  obtain ⟨⟨⟨⟨h1, h2⟩, h3⟩, h4⟩, h5⟩ := h.1 c hc
  exact ⟨h1, h2, h3, h4, h5⟩

theorem plainName_bracketFree (n : List Char) (h : plainName n = true) :
    bracketFree n := fun c hc =>
  ⟨((plainName_spec n h).1 c hc).1, ((plainName_spec n h).1 c hc).2.1⟩

theorem npos_lt : npos < SIZE_MOD := by decide

theorem isClosingTag_openTagOf (n : List Char) (h : plainName n = true) :
    isClosingTag (openTagOf n) = false := by
  have hs := (plainName_spec n h).1
  unfold isClosingTag find openTagOf findFrom
  have hp : List.isPrefixOf "</".toList ('<' :: (n ++ ['>'])) = false := by
    cases n with
    | nil => decide
    | cons c cs =>
      have : c ≠ '/' := (hs c (List.mem_cons_self _ _)).2.2.1
      simp [List.isPrefixOf, Ne.symm this]
  rw [hp]
  simpa using findFrom_succ_ne_zero _ _ 0

theorem isSelfContainedTag_openTagOf (n : List Char) (h : plainName n = true) :
    isSelfContainedTag (openTagOf n) = false := by
  obtain ⟨hs, hl⟩ := plainName_spec n h
  have h1 : find (openTagOf n) "/>".toList = npos := by
    unfold find
    apply findFrom_eq_npos_of_not_mem
    intro hm
    simp only [openTagOf, List.mem_cons, List.mem_append, List.mem_singleton,
      List.not_mem_nil, or_false] at hm
    rcases hm with hm | hm | hm
    · exact absurd hm (by decide)
    · exact (hs _ hm).2.2.1 rfl
    · exact absurd hm (by decide)
  have h2 : sizeSub (openTagOf n).length 2 = n.length := by
    have : (openTagOf n).length = n.length + 2 := by simp [openTagOf]
    rw [this]
    exact sizeSub_add_self _ _ (lt_trans hl npos_lt)
  have h3 : find (openTagOf n) "<?".toList ≠ 0 := by
    unfold find openTagOf findFrom
    have hp : List.isPrefixOf "<?".toList ('<' :: (n ++ ['>'])) = false := by
      cases n with
      | nil => decide
      | cons c cs =>
        have : c ≠ '?' := (hs c (List.mem_cons_self _ _)).2.2.2.1
        simp [List.isPrefixOf, Ne.symm this]
    rw [hp]
    simpa using findFrom_succ_ne_zero _ _ 0
  unfold isSelfContainedTag
  rw [h1, h2]
  simp only [Bool.or_eq_false_iff, beq_eq_false_iff_ne, ne_eq]
  exact ⟨fun e => absurd (e ▸ hl) (lt_irrefl _), h3⟩

theorem openRawValue_openTagOf (n : List Char) (h : n.length < SIZE_MOD) :
    openRawValue (openTagOf n) = n := by
  have : (openTagOf n).length = n.length + 2 := by simp [openTagOf]
  unfold openRawValue substr
  rw [this, sizeSub_add_self _ _ h]
  simp [openTagOf]

theorem TagShape_openTagOf (n : List Char) (h : bracketFree n) :
    TagShape (openTagOf n) := Or.inr ⟨n, h, rfl⟩

/-! ## The scan of `FixXML` over plain tags and values -/

theorem fixScan_singleton (c : Char) (st : FixState) :
    fixScan [c] st = fixStep c st := by
  simp only [fixScan]
  cases fixStep c st <;> rfl

theorem fixScan_tagBody (body : List Char) (hb : bracketFree body)
    (fx t0 v : List Char) (S : List (List Char)) :
    fixScan body ⟨fx, t0, v, true, S⟩ = .next ⟨fx, t0 ++ body, v, true, S⟩ := by
  induction body generalizing t0 with
  | nil => simp [fixScan]
  | cons c cs ih =>
    have hc := hb c (List.mem_cons_self _ _)
    have hcs : bracketFree cs := fun d hd => hb d (List.mem_cons_of_mem _ hd)
    have h1 : fixStep c ⟨fx, t0, v, true, S⟩ = .next ⟨fx, t0 ++ [c], v, true, S⟩ := by
      simp [fixStep, hc.1, hc.2]
    simp only [fixScan, h1, ih hcs]
    simp

/-- The value as it stands after the `<` branch of `FixXML`. -/
theorem fixScan_tag (body : List Char) (hb : bracketFree body)
    (fx v : List Char) (S : List (List Char)) :
    fixScan ('<' :: (body ++ ['>'])) ⟨fx, [], v, false, S⟩ =
      fixCloseBracket
        ⟨fx, [], if v.length > 1 then eraseTrailingSpaces v else v, false, S⟩
        ('<' :: (body ++ ['>'])) := by
  have h1 : fixStep '<' ⟨fx, [], v, false, S⟩ =
      .next ⟨fx, ['<'], if v.length > 1 then eraseTrailingSpaces v else v, true, S⟩ := by
    simp [fixStep]
  simp only [fixScan, h1]
  rw [fixScan_append, fixScan_tagBody body hb]
  simp only
  rw [fixScan_singleton]
  simp [fixStep]
  rfl

theorem eraseTrailingSpaces_of_getLast (v : List Char) (h : v.getLast? ≠ some ' ') :
    eraseTrailingSpaces v = v := by
  unfold eraseTrailingSpaces
  cases hr : v.reverse with
  | nil =>
    have : v = [] := by simpa using hr
    simp [this]
  | cons a r =>
    have hv : v = r.reverse ++ [a] := by
      have := congrArg List.reverse hr
      simpa using this
    have ha : a ≠ ' ' := by
      intro e
      apply h
      rw [hv, e]
      simp
    rw [List.dropWhile_cons_of_neg (by simpa using ha), hv]
    simp

theorem plainValue_spec (v : List Char) (h : plainValue v = true) :
    (∀ c ∈ v, c ≠ '<' ∧ c ≠ '>' ∧ c ≠ '\r' ∧ c ≠ '\n') ∧
      (∀ c cs, v = c :: cs → isspace c = false) ∧ v.getLast? ≠ some ' ' := by
  unfold plainValue at h
  simp only [Bool.and_eq_true, List.all_eq_true, bne_iff_ne, ne_eq] at h
  obtain ⟨⟨h1, h2⟩, h3⟩ := h
  refine ⟨fun c hc => ?_, ?_, h3⟩
  · obtain ⟨⟨⟨a, b⟩, c'⟩, d⟩ := h1 c hc
    exact ⟨a, b, c', d⟩
  · intro c cs hv
    subst hv
    simpa using h2

theorem fixScan_value_aux (v : List Char)
    (hv : ∀ c ∈ v, c ≠ '<' ∧ c ≠ '>' ∧ c ≠ '\r' ∧ c ≠ '\n')
    (fx v0 : List Char) (S : List (List Char))
    (h0 : v0 ≠ [] ∨ ∀ c cs, v = c :: cs → isspace c = false) :
    fixScan v ⟨fx, [], v0, false, S⟩ = .next ⟨fx, [], v0 ++ v, false, S⟩ := by
  induction v generalizing v0 with
  | nil => simp [fixScan]
  | cons c cs ih =>
    obtain ⟨c1, c2, c3, c4⟩ := hv c (List.mem_cons_self _ _)
    have hcs : ∀ d ∈ cs, d ≠ '<' ∧ d ≠ '>' ∧ d ≠ '\r' ∧ d ≠ '\n' :=
      fun d hd => hv d (List.mem_cons_of_mem _ hd)
    have hskip : (decide (v0.length = 0) && isspace c) = false := by
      rcases h0 with h0 | h0
      · have : v0.length ≠ 0 := fun e => h0 (List.length_eq_zero.1 e)
        simp [this]
      · simp [h0 c cs rfl]
    have h1 : fixStep c ⟨fx, [], v0, false, S⟩ = .next ⟨fx, [], v0 ++ [c], false, S⟩ := by
      simp only [fixStep, c1, c2, c3, c4, if_false, Bool.false_eq_true, hskip, or_self]
    simp only [fixScan, h1]
    rw [ih hcs (v0 ++ [c]) (Or.inl (by simp))]
    simp

theorem fixScan_plainValue (v : List Char) (h : plainValue v = true)
    (fx : List Char) (S : List (List Char)) :
    fixScan v ⟨fx, [], [], false, S⟩ = .next ⟨fx, [], v, false, S⟩ := by
  obtain ⟨h1, h2, _⟩ := plainValue_spec v h
  simpa using fixScan_value_aux v h1 fx [] S (Or.inr h2)

theorem plainValue_trim (v : List Char) (h : plainValue v = true) :
    (if v.length > 1 then eraseTrailingSpaces v else v) = v := by
  obtain ⟨_, _, h3⟩ := plainValue_spec v h
  split_ifs
  · exact eraseTrailingSpaces_of_getLast v h3
  · rfl

theorem fixScan_openTag (n : List Char) (h : plainName n = true)
    (fx : List Char) (S : List (List Char)) :
    fixScan (openTagOf n) ⟨fx, [], [], false, S⟩ =
      .next ⟨fx ++ openTagOf n, [], [], false, openTagOf n :: S⟩ := by
  have := fixScan_tag n (plainName_bracketFree n h) fx [] S
  unfold openTagOf
  rw [this]
  have hc := isClosingTag_openTagOf n h
  have hs := isSelfContainedTag_openTagOf n h
  unfold openTagOf at hc hs
  simp [fixCloseBracket, hc, hs]

theorem fixScan_openTags (ns : List (List Char)) (h : ∀ n ∈ ns, plainName n = true)
    (fx : List Char) (S : List (List Char)) :
    fixScan (ns.map openTagOf).flatten ⟨fx, [], [], false, S⟩ =
      .next ⟨fx ++ (ns.map openTagOf).flatten, [], [], false,
        (ns.map openTagOf).reverse ++ S⟩ := by
  induction ns generalizing fx S with
  | nil => simp [fixScan]
  | cons n ns ih =>
    simp only [List.map_cons, List.flatten_cons]
    rw [fixScan_append, fixScan_openTag n (h n (List.mem_cons_self _ _))]
    simp only
    rw [ih (fun m hm => h m (List.mem_cons_of_mem _ hm))]
    simp

/-- The unwinding loop over a stack of plain opening tags none of which bears
the closing tag's name, with the matching tag below them. -/
theorem unwind_plain (n0 : List Char) (h0 : n0.length < SIZE_MOD)
    (ms : List (List Char)) :
    ∀ (top fx v : List Char), top ≠ n0 →
      (∀ m ∈ ms, m.length < SIZE_MOD ∧ m ≠ n0) →
      unwind n0 (ms.map openTagOf ++ [openTagOf n0]) top fx v =
        .ok (fx ++ (v ++ closeTagOf top) ++ (ms.map closeTagOf).flatten, [], []) := by
  induction ms with
  | nil =>
    intro top fx v ht _
    simp [unwind, ht, openRawValue_openTagOf n0 h0]
  | cons m ms ih =>
    intro top fx v ht hms
    obtain ⟨hm1, hm2⟩ := hms m (List.mem_cons_self _ _)
    simp only [List.map_cons, List.cons_append, unwind, ne_eq, ht, not_false_eq_true,
      if_true, openRawValue_openTagOf m hm1]
    have := ih m (fx ++ (v ++ closeTagOf top)) [] hm2
      (fun x hx => hms x (List.mem_cons_of_mem _ hx))
    simp only [List.append_eq] at this ⊢
    rw [this]
    simp

theorem fixCloseBracket_closing (t top fx tg v fx' v' : List Char) (pt : Bool)
    (rest stack' : List (List Char)) (ht : isClosingTag t = true)
    (hu : unwind (closingRawValue t) rest (openRawValue top) fx v =
      .ok (fx', v', stack')) :
    fixCloseBracket ⟨fx, tg, v, pt, top :: rest⟩ t =
      .next ⟨fx' ++ (v' ++ t), [], [], false, stack'⟩ := by
  unfold fixCloseBracket
  simp only [ht, if_true]
  rw [hu]

theorem fixCloseBracket_plain_close (n0 : List Char) (ns : List (List Char))
    (fx v : List Char) (h0 : plainName n0 = true)
    (hns : ∀ n ∈ ns, plainName n = true ∧ n ≠ n0) :
    fixCloseBracket ⟨fx, [], v, false, (ns.map openTagOf).reverse ++ [openTagOf n0]⟩
        (closeTagOf n0) =
      .next ⟨fx ++ v ++ (ns.reverse.map closeTagOf).flatten ++ closeTagOf n0,
        [], [], false, []⟩ := by
  have hl0 : n0.length < SIZE_MOD := lt_trans (plainName_spec n0 h0).2 npos_lt
  have hraw : closingRawValue (closeTagOf n0) = n0 := closingRawValue_closeTagOf n0 hl0
  rw [← List.map_reverse]
  cases hr : ns.reverse with
  | nil =>
    have hu : unwind (closingRawValue (closeTagOf n0)) []
        (openRawValue (openTagOf n0)) fx v = .ok (fx, v, []) := by
      rw [hraw, openRawValue_openTagOf n0 hl0]
      simp only [unwind, ne_eq, not_true_eq_false, if_false]
    simp only [List.map_nil, List.nil_append, List.flatten_nil, List.append_nil]
    rw [fixCloseBracket_closing _ _ _ _ _ _ _ _ _ _ (isClosingTag_closeTagOf n0) hu]
    simp only [List.append_assoc]
  | cons nk ms =>
    have hmem : ∀ m ∈ nk :: ms, m ∈ ns := by
      intro m hm
      rw [← hr] at hm
      exact List.mem_reverse.1 hm
    have hk := hns nk (hmem nk (List.mem_cons_self _ _))
    have hlk : nk.length < SIZE_MOD := lt_trans (plainName_spec nk hk.1).2 npos_lt
    have hms : ∀ m ∈ ms, m.length < SIZE_MOD ∧ m ≠ n0 := by
      intro m hm
      have := hns m (hmem m (List.mem_cons_of_mem _ hm))
      exact ⟨lt_trans (plainName_spec m this.1).2 npos_lt, this.2⟩
    have hu : unwind (closingRawValue (closeTagOf n0))
        (ms.map openTagOf ++ [openTagOf n0]) (openRawValue (openTagOf nk)) fx v =
        .ok (fx ++ (v ++ closeTagOf nk) ++ (ms.map closeTagOf).flatten, [], []) := by
      rw [hraw, openRawValue_openTagOf nk hlk]
      exact unwind_plain n0 hl0 ms nk fx v hk.2 hms
    simp only [List.map_cons, List.cons_append, List.flatten_cons]
    rw [fixCloseBracket_closing _ _ _ _ _ _ _ _ _ _ (isClosingTag_closeTagOf n0) hu]
    simp only [List.append_assoc, List.nil_append]

/-- C8: for plain names `n0`, `n1..nk` (none of `n1..nk` equal to `n0`) and a
plain value `v`, `FixXML` turns `<n0><n1>...<nk>v</n0>` into
`<n0><n1>...<nk>v</nk>...</n1></n0>`: the pending value, then a synthesized
closing tag for every open tag above the match, innermost first, then the
closing tag itself. In particular `<status><value>1</status>`, which
`isXMLBalanced` rejects, becomes `<status><value>1</value></status>`. -/
theorem FixXML_unwinds_to_matching_tag (n0 : List Char) (ns : List (List Char))
    (v : List Char) (h0 : plainName n0 = true)
    (hns : ∀ n ∈ ns, plainName n = true ∧ n ≠ n0) (hv : plainValue v = true) :
    FixXML (openTagOf n0 ++ ((ns.map openTagOf).flatten ++ (v ++ closeTagOf n0))) =
        .repaired (openTagOf n0 ++ ((ns.map openTagOf).flatten ++
          (v ++ ((ns.reverse.map closeTagOf).flatten ++ closeTagOf n0)))) ∧
      FixXML "<status><value>1</status>".toList =
        .repaired "<status><value>1</value></status>".toList ∧
      isXMLBalanced "<status><value>1</status>".toList = some false := by
  refine ⟨?_, by decide, by decide⟩
  unfold FixXML
  rw [fixLoop_append]
  have hA := fixScan_openTag n0 h0 [] []
  rw [show FixState.init = ⟨[], [], [], false, []⟩ from rfl, hA]
  simp only
  rw [fixLoop_append, fixScan_openTags ns (fun n hn => (hns n hn).1)]
  simp only
  rw [fixLoop_append, fixScan_plainValue v hv]
  simp only
  have hC : closeTagOf n0 = '<' :: (('/' :: n0) ++ ['>']) := by simp [closeTagOf]
  have hbf : bracketFree ('/' :: n0) := by
    intro c hc
    rcases List.mem_cons.1 hc with rfl | hc
    · exact ⟨by decide, by decide⟩
    · exact plainName_bracketFree n0 h0 c hc
  have hscan := fixScan_tag ('/' :: n0) hbf
    ([] ++ openTagOf n0 ++ (ns.map openTagOf).flatten) v
    ((ns.map openTagOf).reverse ++ [openTagOf n0])
  rw [plainValue_trim v hv, ← hC, fixCloseBracket_plain_close n0 ns _ v h0 hns] at hscan
  have hfin := fixLoop_append (closeTagOf n0) []
    ⟨[] ++ openTagOf n0 ++ (ns.map openTagOf).flatten, [], v, false,
      (ns.map openTagOf).reverse ++ [openTagOf n0]⟩
  rw [List.append_nil, hscan] at hfin
  rw [hfin]
  simp only [fixLoop, closeOut, List.nil_append, List.append_assoc]

theorem FixXML_unwinds_to_matching_tag_witness :
    FixXML (openTagOf "status".toList ++ (([ "value".toList ].map openTagOf).flatten ++
        ("1".toList ++ closeTagOf "status".toList))) =
        .repaired (openTagOf "status".toList ++
          (([ "value".toList ].map openTagOf).flatten ++ ("1".toList ++
            (([ "value".toList ].reverse.map closeTagOf).flatten ++
              closeTagOf "status".toList)))) ∧
      FixXML "<status><value>1</status>".toList =
        .repaired "<status><value>1</value></status>".toList ∧
      isXMLBalanced "<status><value>1</status>".toList = some false :=
  FixXML_unwinds_to_matching_tag "status".toList [ "value".toList ] "1".toList
    (by decide) (by decide) (by decide)

/-! ## The balance checker on serialized trees -/

theorem balScan_blank (t : List Char) (ht : t.all isspace = true)
    (S : List (List Char)) :
    balScan t ⟨[], [], false, S⟩ = .next ⟨[], [], false, S⟩ := by
  induction t with
  | nil => rfl
  | cons c cs ih =>
    simp only [List.all_cons, Bool.and_eq_true] at ht
    have hc1 : c ≠ '>' := by
      intro e; rw [e] at ht; exact absurd ht.1 (by decide)
    have hc2 : c ≠ '<' := by
      intro e; rw [e] at ht; exact absurd ht.1 (by decide)
    have h1 : balStep c ⟨[], [], false, S⟩ = .next ⟨[], [], false, S⟩ := by
      simp [balStep, hc1, hc2, ht.1]
    simp only [balScan, h1]
    exact ih ht.2

theorem balScan_openTagOf (n : List Char) (h : plainName n = true)
    (S : List (List Char)) :
    balScan (openTagOf n) ⟨[], [], false, S⟩ =
      .next ⟨[], [], false, openTagOf n :: S⟩ := by
  rw [balScan_tag _ (TagShape_openTagOf n (plainName_bracketFree n h)),
    balCloseBracket_open _ _ (isClosingTag_openTagOf n h)
      (isSelfContainedTag_openTagOf n h)]

theorem balScan_closeTagOf (n v : List Char) (h : plainName n = true)
    (S : List (List Char)) :
    balScan (closeTagOf n) ⟨[], v, false, openTagOf n :: S⟩ =
      .next ⟨[], [], false, S⟩ := by
  have hl : n.length < SIZE_MOD := lt_trans (plainName_spec n h).2 npos_lt
  rw [balScan_tag _ (TagShape_closeTagOf n (plainName_bracketFree n h))]
  have := balCloseBracket_synth (openTagOf n) v S
  rwa [openRawValue_openTagOf n hl] at this

/-- Scanning the serialized children of an element: the state comes back with
the same stack, as long as no opening tag is met with a value pending. -/
theorem balScan_serializeAll : ∀ (cs : List XMLNode) (v0 : List Char)
    (S : List (List Char)),
    wellNestedAll cs = true → noOpenValueAll cs = true → valuesClosed cs = true →
    (v0 ≠ [] → cs.all XMLNode.isText = true) →
    ∃ v1, balScan (serializeAll cs) ⟨[], v0, false, S⟩ = .next ⟨[], v1, false, S⟩
  | [], v0, S, _, _, _, _ => ⟨v0, rfl⟩
  | .text first rest :: cs, v0, S, hw, hn, hc, hv => by
    simp only [wellNestedAll, wellNested, Bool.and_eq_true] at hw
    simp only [noOpenValueAll, noOpenValue, Bool.true_and] at hn
    simp only [valuesClosed, Bool.and_eq_true, Bool.or_eq_true] at hc
    have hbf : bracketFree (first :: rest) := by
      intro c hcm
      have := List.all_eq_true.1 hw.1 c hcm
      simpa using this
    simp only [serializeAll, serialize]
    rw [balScan_append]
    by_cases hblank : v0 = [] ∧ (first :: rest).all isspace = true
    · obtain ⟨rfl, hb⟩ := hblank
      rw [balScan_blank _ hb]
      exact balScan_serializeAll cs [] S hw.2 hn hc.2 (fun h => absurd rfl h)
    · have hall : cs.all XMLNode.isText = true := by
        by_cases h0 : v0 = []
        · rcases hc.1 with hb | hb
          · exact absurd ⟨h0, hb⟩ hblank
          · exact hb
        · have := hv h0
          simp only [List.all_cons, Bool.and_eq_true] at this
          exact this.2
      obtain ⟨v1, h1⟩ := balScan_value _ hbf v0 S
      rw [h1]
      exact balScan_serializeAll cs v1 S hw.2 hn hc.2 (fun _ => hall)
  | .element name sub :: cs, v0, S, hw, hn, hc, hv => by
    simp only [wellNestedAll, wellNested, Bool.and_eq_true] at hw
    simp only [noOpenValueAll, noOpenValue, Bool.and_eq_true] at hn
    simp only [valuesClosed] at hc
    have h0 : v0 = [] := by
      by_contra h
      have := hv h
      simp [XMLNode.isText] at this
    subst h0
    obtain ⟨v1, h1⟩ := balScan_serializeAll sub [] (openTagOf name :: S)
      hw.1.2 hn.1.2 hn.1.1 (fun h => absurd rfl h)
    simp only [serializeAll, serialize]
    rw [balScan_append, balScan_append, balScan_openTagOf name hw.1.1]
    simp only
    rw [balScan_append, h1]
    simp only
    rw [balScan_closeTagOf name v1 hw.1.1]
    exact balScan_serializeAll cs [] S hw.2 hn.2 hc (fun h => absurd rfl h)

/-- C10 as worded fails: the well-nested tree `a[ "x", b[] ]`, whose text leaf
is followed by a sibling element, serializes to `<a>x<b></b></a>`, which
`isXMLBalanced` rejects. -/
theorem isXMLBalanced_rejects_text_before_element :
    wellNested (.element "a".toList [.text 'x' [], .element "b".toList []]) = true ∧
      serialize (.element "a".toList [.text 'x' [], .element "b".toList []]) =
        "<a>x<b></b></a>".toList ∧
      isXMLBalanced
        (serialize (.element "a".toList [.text 'x' [], .element "b".toList []])) =
        some false := by
  decide

/-- C10 amended: for every well-nested document tree in which no text leaf that
holds a character other than whitespace has an element among its later
siblings, `isXMLBalanced` of the serialization returns true. -/
theorem isXMLBalanced_serialize (t : XMLNode) (hw : wellNested t = true)
    (hn : noOpenValue t = true) : isXMLBalanced (serialize t) = some true := by
  have hall := balScan_serializeAll [t] [] []
    (by simp [wellNestedAll, hw]) (by simp [noOpenValueAll, hn])
    (by cases t <;> simp [valuesClosed]) (fun h => absurd rfl h)
  obtain ⟨v1, h1⟩ := hall
  simp only [serializeAll, List.append_nil] at h1
  have := balLoop_append (serialize t) [] BalState.init
  rw [List.append_nil] at this
  unfold isXMLBalanced
  rw [this, show BalState.init = ⟨[], [], false, []⟩ from rfl, h1]
  simp [balLoop]

theorem isXMLBalanced_serialize_witness :
    serialize (.element "a".toList
        [.text ' ' [], .element "b".toList [.text 'x' " y".toList],
         .element "c".toList [], .text 'z' []]) =
        "<a> <b>x y</b><c></c>z</a>".toList ∧
      isXMLBalanced (serialize (.element "a".toList
        [.text ' ' [], .element "b".toList [.text 'x' " y".toList],
         .element "c".toList [], .text 'z' []])) = some true :=
  ⟨by decide, isXMLBalanced_serialize _ (by decide) (by decide)⟩

/-! ## Opening tags after a value, and the end of input -/

theorem fixCloseBracket_open_value (st : FixState) (tag top : List Char)
    (rest : List (List Char)) (hc : isClosingTag tag = false)
    (hs : isSelfContainedTag tag = false) (hv : st.value.length > 0)
    (hstack : st.tagStack = top :: rest) :
    fixCloseBracket st tag =
      .next ⟨st.fixedXML ++ (st.value ++ closeTagOf (openRawValue top) ++ tag),
        [], [], false, tag :: rest⟩ := by
  unfold fixCloseBracket
  simp only [hc, hs, Bool.false_eq_true, if_false, hv, if_true, hstack]

theorem closeOut_eq (stack : List (List Char)) (fx : List Char) :
    closeOut stack fx =
      fx ++ (stack.map (fun p => closeTagOf (openRawValue p))).flatten := by
  induction stack generalizing fx with
  | nil => simp [closeOut]
  | cons p ps ih => simp [closeOut, ih]

theorem fixStep_value_char (c : Char) (h1 : c ≠ '<') (h2 : c ≠ '>')
    (fx v0 : List Char) (S : List (List Char)) :
    ∃ v1, fixStep c ⟨fx, [], v0, false, S⟩ = .next ⟨fx, [], v1, false, S⟩ := by
  simp only [fixStep, h1, h2, if_false, Bool.false_eq_true]
  split_ifs <;> exact ⟨_, rfl⟩

theorem fixScan_bracketFree (v : List Char) (hv : bracketFree v)
    (fx v0 : List Char) (S : List (List Char)) :
    ∃ v1, fixScan v ⟨fx, [], v0, false, S⟩ = .next ⟨fx, [], v1, false, S⟩ := by
  induction v generalizing v0 with
  | nil => exact ⟨v0, rfl⟩
  | cons c cs ih =>
    have hc := hv c (List.mem_cons_self _ _)
    have hcs : bracketFree cs := fun d hd => hv d (List.mem_cons_of_mem _ hd)
    obtain ⟨v1, h1⟩ := fixStep_value_char c hc.1 hc.2 fx v0 S
    obtain ⟨v2, h2⟩ := ih hcs v1
    exact ⟨v2, by simp only [fixScan, h1, h2]⟩

/-- C16: an opening tag met while the pending value is non-empty and the stack
is non-empty pops the top tag `p`, appends the value, `</p>` and the new tag
to the output and pushes the new tag; so for plain names `a`, `b` and a plain
non-empty value `v`, `FixXML` turns `<a>v<b>` into `<a>v</a><b></b>`. -/
theorem FixXML_open_tag_after_value (a b v : List Char)
    (ha : plainName a = true) (hb : plainName b = true)
    (hv : plainValue v = true) (hne : v ≠ []) :
    (∀ (st : FixState) (tag top : List Char) (rest : List (List Char)),
        isClosingTag tag = false → isSelfContainedTag tag = false →
        st.value.length > 0 → st.tagStack = top :: rest →
        fixCloseBracket st tag =
          .next ⟨st.fixedXML ++ (st.value ++ closeTagOf (openRawValue top) ++ tag),
            [], [], false, tag :: rest⟩) ∧
      FixXML (openTagOf a ++ (v ++ openTagOf b)) =
        .repaired (openTagOf a ++ (v ++ (closeTagOf a ++ (openTagOf b ++ closeTagOf b)))) := by
  refine ⟨fixCloseBracket_open_value, ?_⟩
  have hla : a.length < SIZE_MOD := lt_trans (plainName_spec a ha).2 npos_lt
  have hlb : b.length < SIZE_MOD := lt_trans (plainName_spec b hb).2 npos_lt
  have hlen : v.length > 0 := List.length_pos.2 hne
  unfold FixXML
  rw [fixLoop_append, show FixState.init = ⟨[], [], [], false, []⟩ from rfl,
    fixScan_openTag a ha [] []]
  simp only
  rw [fixLoop_append, fixScan_plainValue v hv]
  simp only
  have hscan := fixScan_tag b (plainName_bracketFree b hb) ([] ++ openTagOf a) v
    [openTagOf a]
  rw [plainValue_trim v hv] at hscan
  have hstep := fixCloseBracket_open_value ⟨[] ++ openTagOf a, [], v, false, [openTagOf a]⟩
    (openTagOf b) (openTagOf a) [] (isClosingTag_openTagOf b hb)
    (isSelfContainedTag_openTagOf b hb) hlen rfl
  have hfin := fixLoop_append (openTagOf b) []
    ⟨[] ++ openTagOf a, [], v, false, [openTagOf a]⟩
  unfold openTagOf at hscan hstep hfin
  rw [List.append_nil, hscan, hstep] at hfin
  unfold openTagOf
  rw [hfin]
  have h1 := openRawValue_openTagOf a hla
  have h2 := openRawValue_openTagOf b hlb
  unfold openTagOf at h1 h2
  simp only [fixLoop, closeOut, h1, h2, List.nil_append, List.append_assoc]

theorem FixXML_open_tag_after_value_witness :
    (∀ (st : FixState) (tag top : List Char) (rest : List (List Char)),
        isClosingTag tag = false → isSelfContainedTag tag = false →
        st.value.length > 0 → st.tagStack = top :: rest →
        fixCloseBracket st tag =
          .next ⟨st.fixedXML ++ (st.value ++ closeTagOf (openRawValue top) ++ tag),
            [], [], false, tag :: rest⟩) ∧
      FixXML (openTagOf "NAME".toList ++ ("Joe  Doe".toList ++ openTagOf "MEMO".toList)) =
        .repaired (openTagOf "NAME".toList ++ ("Joe  Doe".toList ++
          (closeTagOf "NAME".toList ++
            (openTagOf "MEMO".toList ++ closeTagOf "MEMO".toList)))) :=
  FixXML_open_tag_after_value "NAME".toList "MEMO".toList "Joe  Doe".toList
    (by decide) (by decide) (by decide) (by decide)

/-- C17: at the end of input `FixXML` appends one synthesized closing tag for
each tag still on the stack, innermost first, and nothing else; so for plain
names `n1..nk` and a trailing text `v` free of `<` and `>`, it turns
`<n1>...<nk>v` into `<n1>...<nk></nk>...</n1>`: the trailing text is dropped. -/
theorem FixXML_closes_open_tags_at_end (ns : List (List Char)) (v : List Char)
    (hns : ∀ n ∈ ns, plainName n = true) (hv : bracketFree v) :
    (∀ st : FixState, fixLoop [] st =
        .repaired (st.fixedXML ++
          (st.tagStack.map (fun p => closeTagOf (openRawValue p))).flatten)) ∧
      FixXML ((ns.map openTagOf).flatten ++ v) =
        .repaired ((ns.map openTagOf).flatten ++ (ns.reverse.map closeTagOf).flatten) := by
  refine ⟨fun st => by simp only [fixLoop, closeOut_eq], ?_⟩
  unfold FixXML
  rw [fixLoop_append, show FixState.init = ⟨[], [], [], false, []⟩ from rfl,
    fixScan_openTags ns hns [] []]
  simp only
  obtain ⟨v1, h1⟩ := fixScan_bracketFree v hv ([] ++ (ns.map openTagOf).flatten) []
    ((ns.map openTagOf).reverse ++ [])
  have hfin := fixLoop_append v []
    ⟨[] ++ (ns.map openTagOf).flatten, [], [], false, (ns.map openTagOf).reverse ++ []⟩
  rw [List.append_nil, h1] at hfin
  rw [hfin]
  have hmap : ((ns.map openTagOf).reverse).map (fun p => closeTagOf (openRawValue p)) =
      ns.reverse.map closeTagOf := by
    rw [← List.map_reverse, List.map_map]
    apply List.map_congr_left
    intro n hn
    have := hns n (List.mem_reverse.1 hn)
    simp only [Function.comp,
      openRawValue_openTagOf n (lt_trans (plainName_spec n this).2 npos_lt)]
  simp only [fixLoop, closeOut_eq, List.nil_append, List.append_nil, hmap]

theorem FixXML_closes_open_tags_at_end_witness :
    (∀ st : FixState, fixLoop [] st =
        .repaired (st.fixedXML ++
          (st.tagStack.map (fun p => closeTagOf (openRawValue p))).flatten)) ∧
      FixXML (([ "OFX".toList, "BANKMSGSRSV1".toList ].map openTagOf).flatten ++
          " some text \n".toList) =
        .repaired (([ "OFX".toList, "BANKMSGSRSV1".toList ].map openTagOf).flatten ++
          ([ "OFX".toList, "BANKMSGSRSV1".toList ].reverse.map closeTagOf).flatten) :=
  FixXML_closes_open_tags_at_end [ "OFX".toList, "BANKMSGSRSV1".toList ]
    " some text \n".toList (by decide) (by decide)

/-! ## The scanner assertion -/

theorem fixCloseBracket_ne_assert (st : FixState) (t : List Char) :
    fixCloseBracket st t ≠ .done .assertFailure := by
  unfold fixCloseBracket
  intro h
  repeat' split at h
  all_goals simp at h

theorem fixCloseBracket_next_tag (st st' : FixState) (t : List Char)
    (h : fixCloseBracket st t = .next st') : st'.tag = [] ∧ st'.processTag = false := by
  unfold fixCloseBracket at h
  repeat' split at h
  all_goals simp only [Step.next.injEq, reduceCtorEq] at h
  all_goals subst h
  all_goals exact ⟨rfl, rfl⟩

theorem fixStep_assert_iff (c : Char) (st : FixState) :
    fixStep c st = .done .assertFailure ↔ c = '<' ∧ st.tag ≠ [] := by
  unfold fixStep
  by_cases h1 : c = '>'
  · subst h1
    simp only [if_true]
    constructor
    · intro h; exact absurd h (fixCloseBracket_ne_assert _ _)
    · intro h; exact absurd h.1 (by decide)
  · simp only [h1, if_false]
    by_cases h2 : c = '<'
    · subst h2
      simp only [if_true, true_and]
      by_cases h3 : st.tag.length = 0
      · simp only [h3, if_true]
        constructor
        · intro h; cases h
        · intro h; exact absurd (List.length_eq_zero.1 h3) h
      · simp only [h3, if_false, true_iff]
        intro h; exact h3 (by rw [h]; rfl)
    · simp only [h2, if_false, false_and, iff_false]
      intro h
      repeat' split at h
      all_goals cases h

theorem fixLoop_assert_iff (s : List Char) : ∀ st : FixState,
    fixLoop s st = .assertFailure ↔
      ∃ pre post st', s = pre ++ '<' :: post ∧ fixScan pre st = .next st' ∧
        st'.tag ≠ [] := by
  induction s with
  | nil =>
    intro st
    simp only [fixLoop]
    constructor
    · intro h; cases h
    · rintro ⟨pre, post, st', h, _, _⟩
      cases pre <;> cases h
  | cons c cs ih =>
    intro st
    simp only [fixLoop]
    constructor
    · intro h
      cases hs : fixStep c st with
      | next st1 =>
        rw [hs] at h
        obtain ⟨pre, post, st', h1, h2, h3⟩ := (ih st1).1 h
        refine ⟨c :: pre, post, st', by rw [h1]; rfl, ?_, h3⟩
        simp only [fixScan, hs, h2]
      | done r =>
        rw [hs] at h
        simp only at h
        subst h
        obtain ⟨rfl, ht⟩ := (fixStep_assert_iff c st).1 hs
        exact ⟨[], cs, st, rfl, rfl, ht⟩
    · rintro ⟨pre, post, st', h1, h2, h3⟩
      cases pre with
      | nil =>
        simp only [List.nil_append, List.cons.injEq] at h1
        obtain ⟨rfl, rfl⟩ := h1
        simp only [fixScan, Step.next.injEq] at h2
        subst h2
        rw [(fixStep_assert_iff '<' st).2 ⟨rfl, h3⟩]
      | cons d pre =>
        simp only [List.cons_append, List.cons.injEq] at h1
        obtain ⟨rfl, rfl⟩ := h1
        simp only [fixScan] at h2
        cases hs : fixStep c st with
        | next st1 =>
          rw [hs] at h2
          simp only at h2 ⊢
          exact (ih st1).2 ⟨pre, post, st', rfl, h2, h3⟩
        | done r =>
          rw [hs] at h2
          cases h2

theorem balCloseBracket_ne_assert (st : BalState) (t : List Char) :
    balCloseBracket st t ≠ .done none := by
  unfold balCloseBracket
  intro h
  repeat' split at h
  all_goals simp at h

theorem balCloseBracket_next_tag (st st' : BalState) (t : List Char)
    (h : balCloseBracket st t = .next st') : st'.tag = [] ∧ st'.processTag = false := by
  unfold balCloseBracket at h
  repeat' split at h
  all_goals simp only [Step.next.injEq, reduceCtorEq] at h
  all_goals subst h
  all_goals exact ⟨rfl, rfl⟩

theorem balStep_assert_iff (c : Char) (st : BalState) :
    balStep c st = .done none ↔ c = '<' ∧ st.tag ≠ [] := by
  unfold balStep
  by_cases h1 : c = '>'
  · subst h1
    simp only [if_true]
    constructor
    · intro h; exact absurd h (balCloseBracket_ne_assert _ _)
    · intro h; exact absurd h.1 (by decide)
  · simp only [h1, if_false]
    by_cases h2 : c = '<'
    · subst h2
      simp only [if_true, true_and]
      by_cases h3 : st.tag.length = 0
      · simp only [h3, if_true]
        constructor
        · intro h; cases h
        · intro h; exact absurd (List.length_eq_zero.1 h3) h
      · simp only [h3, if_false, true_iff]
        intro h; exact h3 (by rw [h]; rfl)
    · simp only [h2, if_false, false_and, iff_false]
      intro h
      repeat' split at h
      all_goals cases h

theorem balLoop_assert_iff (s : List Char) : ∀ st : BalState,
    balLoop s st = none ↔
      ∃ pre post st', s = pre ++ '<' :: post ∧ balScan pre st = .next st' ∧
        st'.tag ≠ [] := by
  induction s with
  | nil =>
    intro st
    simp only [balLoop]
    constructor
    · intro h; cases h
    · rintro ⟨pre, post, st', h, _, _⟩
      cases pre <;> cases h
  | cons c cs ih =>
    intro st
    simp only [balLoop]
    constructor
    · intro h
      cases hs : balStep c st with
      | next st1 =>
        rw [hs] at h
        obtain ⟨pre, post, st', h1, h2, h3⟩ := (ih st1).1 h
        refine ⟨c :: pre, post, st', by rw [h1]; rfl, ?_, h3⟩
        simp only [balScan, hs, h2]
      | done r =>
        rw [hs] at h
        simp only at h
        subst h
        obtain ⟨rfl, ht⟩ := (balStep_assert_iff c st).1 hs
        exact ⟨[], cs, st, rfl, rfl, ht⟩
    · rintro ⟨pre, post, st', h1, h2, h3⟩
      cases pre with
      | nil =>
        simp only [List.nil_append, List.cons.injEq] at h1
        obtain ⟨rfl, rfl⟩ := h1
        simp only [balScan, Step.next.injEq] at h2
        subst h2
        rw [(balStep_assert_iff '<' st).2 ⟨rfl, h3⟩]
      | cons d pre =>
        simp only [List.cons_append, List.cons.injEq] at h1
        obtain ⟨rfl, rfl⟩ := h1
        simp only [balScan] at h2
        cases hs : balStep c st with
        | next st1 =>
          rw [hs] at h2
          simp only at h2 ⊢
          exact (ih st1).2 ⟨pre, post, st', rfl, h2, h3⟩
        | done r =>
          rw [hs] at h2
          cases h2

theorem fixStep_capturing (c : Char) (st st' : FixState)
    (hinv : st.processTag = true ↔ st.tag ≠ [])
    (h : fixStep c st = .next st') :
    (st'.processTag = true ↔ st'.tag ≠ []) ∧
      st'.processTag = (if c = '<' then true else if c = '>' then false
        else st.processTag) := by
  unfold fixStep at h
  by_cases h1 : c = '>'
  · subst h1
    simp only [if_true] at h
    obtain ⟨ht, hp⟩ := fixCloseBracket_next_tag _ _ _ h
    simp [ht, hp]
  · simp only [h1, if_false] at h ⊢
    by_cases h2 : c = '<'
    · subst h2
      simp only [if_true] at h ⊢
      split_ifs at h
      all_goals simp only [Step.next.injEq] at h
      all_goals subst h
      all_goals simp
    · simp only [h2, if_false] at h ⊢
      split_ifs at h with hp
      · simp only [Step.next.injEq] at h
        subst h
        simp [hp]
      all_goals simp only [Step.next.injEq] at h
      all_goals subst h
      all_goals exact ⟨hinv, rfl⟩

theorem fixLoop_no_assert (s : List Char) : ∀ st : FixState,
    (st.processTag = true ↔ st.tag ≠ []) →
    bracketsAlternate st.processTag s = true → fixLoop s st ≠ .assertFailure := by
  induction s with
  | nil =>
    intro st _ _ h
    simp [fixLoop] at h
  | cons c cs ih =>
    intro st hinv hb
    simp only [fixLoop]
    cases hs : fixStep c st with
    | next st1 =>
      simp only
      obtain ⟨hinv1, hp1⟩ := fixStep_capturing c st st1 hinv hs
      refine ih st1 hinv1 ?_
      rw [hp1]
      unfold bracketsAlternate at hb
      split_ifs at hb ⊢ with h1 h2
      · simp only [Bool.and_eq_true] at hb; exact hb.2
      · exact hb
      · exact hb
    | done r =>
      simp only
      intro hr
      subst hr
      obtain ⟨rfl, ht⟩ := (fixStep_assert_iff c st).1 hs
      unfold bracketsAlternate at hb
      simp only [if_true, Bool.and_eq_true, Bool.not_eq_true'] at hb
      exact ht (by
        by_contra hne
        have := hinv.2 hne
        rw [hb.1] at this
        cases this)

theorem balStep_capturing (c : Char) (st st' : BalState)
    (hinv : st.processTag = true ↔ st.tag ≠ [])
    (h : balStep c st = .next st') :
    (st'.processTag = true ↔ st'.tag ≠ []) ∧
      st'.processTag = (if c = '<' then true else if c = '>' then false
        else st.processTag) := by
  unfold balStep at h
  by_cases h1 : c = '>'
  · subst h1
    simp only [if_true] at h
    obtain ⟨ht, hp⟩ := balCloseBracket_next_tag _ _ _ h
    simp [ht, hp]
  · simp only [h1, if_false] at h ⊢
    by_cases h2 : c = '<'
    · subst h2
      simp only [if_true] at h ⊢
      split_ifs at h
      all_goals simp only [Step.next.injEq] at h
      all_goals subst h
      all_goals simp
    · simp only [h2, if_false] at h ⊢
      split_ifs at h with hp
      · simp only [Step.next.injEq] at h
        subst h
        simp [hp]
      all_goals simp only [Step.next.injEq] at h
      all_goals subst h
      all_goals exact ⟨hinv, rfl⟩

theorem balLoop_no_assert (s : List Char) : ∀ st : BalState,
    (st.processTag = true ↔ st.tag ≠ []) →
    bracketsAlternate st.processTag s = true → balLoop s st ≠ none := by
  induction s with
  | nil =>
    intro st _ _ h
    simp [balLoop] at h
  | cons c cs ih =>
    intro st hinv hb
    simp only [balLoop]
    cases hs : balStep c st with
    | next st1 =>
      simp only
      obtain ⟨hinv1, hp1⟩ := balStep_capturing c st st1 hinv hs
      refine ih st1 hinv1 ?_
      rw [hp1]
      unfold bracketsAlternate at hb
      split_ifs at hb ⊢ with h1 h2
      · simp only [Bool.and_eq_true] at hb; exact hb.2
      · exact hb
      · exact hb
    | done r =>
      simp only
      intro hr
      subst hr
      obtain ⟨rfl, ht⟩ := (balStep_assert_iff c st).1 hs
      unfold bracketsAlternate at hb
      simp only [if_true, Bool.and_eq_true, Bool.not_eq_true'] at hb
      exact ht (by
        by_contra hne
        have := hinv.2 hne
        rw [hb.1] at this
        cases this)

/-- C19: in `FixXML` and in `isXMLBalanced` the assertion fails exactly when
the scan reads a `<` while a tag is still being captured (`tag` not empty), as
on `<a<b>`; on every text in which each `<` is followed by a `>` before the
next `<` the assertion holds throughout and the function returns an ordinary
result. -/
theorem scanner_assertion :
    (∀ s : List Char, FixXML s = .assertFailure ↔
        ∃ pre post st, s = pre ++ '<' :: post ∧
          fixScan pre FixState.init = .next st ∧ st.tag ≠ []) ∧
      (∀ s : List Char, isXMLBalanced s = none ↔
        ∃ pre post st, s = pre ++ '<' :: post ∧
          balScan pre BalState.init = .next st ∧ st.tag ≠ []) ∧
      (∀ s : List Char, bracketsAlternate false s = true →
        (∃ t, FixXML s = .diagnostic t ∨ FixXML s = .repaired t) ∧
          ∃ b, isXMLBalanced s = some b) ∧
      FixXML "<a<b>".toList = .assertFailure ∧
      isXMLBalanced "<a<b>".toList = none := by
  refine ⟨fun s => fixLoop_assert_iff s _, fun s => balLoop_assert_iff s _, ?_,
    by decide, by decide⟩
  intro s hs
  have h1 := fixLoop_no_assert s FixState.init (by simp [FixState.init]) hs
  have h2 := balLoop_no_assert s BalState.init (by simp [BalState.init]) hs
  constructor
  · unfold FixXML
    cases hf : fixLoop s FixState.init with
    | assertFailure => exact absurd hf h1
    | diagnostic t => exact ⟨t, Or.inl rfl⟩
    | repaired t => exact ⟨t, Or.inr rfl⟩
  · unfold isXMLBalanced
    cases hb : balLoop s BalState.init with
    | none => exact absurd hb h2
    | some b => exact ⟨b, rfl⟩

/-! ## The classification of a captured tag -/

theorem find_beq_zero (s pat : List Char) (hp : pat ≠ []) :
    (find s pat == 0) = pat.isPrefixOf s := by
  unfold find
  cases s with
  | nil =>
    cases pat with
    | nil => exact absurd rfl hp
    | cons a as => simp [findFrom, List.isPrefixOf, npos, SIZE_MOD]
  | cons c cs =>
    unfold findFrom
    by_cases h : pat.isPrefixOf (c :: cs) = true
    · simp [h]
    · have hne := findFrom_succ_ne_zero pat cs 0
      simp only [Nat.zero_add] at hne
      simp [h, hne]

theorem isClosingTag_eq (tag : List Char) :
    isClosingTag tag = "</".toList.isPrefixOf tag :=
  find_beq_zero tag _ (by decide)

theorem findFrom_slash_gt (q : List Char) (hq : '>' ∉ q) : ∀ i : Nat,
    findFrom ['/', '>'] (q ++ ['>']) i =
      if q.getLast? = some '/' then i + (q.length - 1) else npos := by
  induction q with
  | nil =>
    intro i
    simp [findFrom, List.isPrefixOf]
  | cons c cs ih =>
    intro i
    have hcs : '>' ∉ cs := fun h => hq (List.mem_cons_of_mem _ h)
    cases cs with
    | nil =>
      by_cases hc : c = '/'
      · subst hc
        simp [findFrom, List.isPrefixOf]
      · have hc' : ¬ ('/' = c) := fun e => hc e.symm
        simp [findFrom, List.isPrefixOf, hc, hc']
    | cons d ds =>
      have hd : d ≠ '>' := fun e => hq (by simp [e])
      have hpre : List.isPrefixOf ['/', '>'] (c :: d :: ds ++ ['>']) = false := by
        have hd' : ¬ ('>' = d) := fun e => hd e.symm
        simp [List.isPrefixOf, hd']
      have := ih hcs (i + 1)
      simp only [List.cons_append] at this hpre ⊢
      unfold findFrom
      rw [hpre]
      simp only [Bool.false_eq_true, if_false]
      rw [this]
      simp only [List.getLast?_cons_cons, List.length_cons]
      split_ifs
      · omega
      · rfl

theorem isSuffixOf_slash_gt (q : List Char) :
    List.isSuffixOf ['/', '>'] (q ++ ['>']) = decide (q.getLast? = some '/') := by
  unfold List.isSuffixOf
  rw [List.reverse_append]
  cases hr : q.reverse with
  | nil =>
    have : q = [] := by simpa using hr
    subst this
    simp [List.isPrefixOf]
  | cons a r =>
    have hq : q = r.reverse ++ [a] := by
      have := congrArg List.reverse hr
      simpa using this
    subst hq
    by_cases ha : a = '/'
    · subst ha
      simp [List.isPrefixOf]
    · have ha' : ¬ ('/' = a) := fun e => ha e.symm
      simp [List.isPrefixOf, ha, ha']

theorem isSelfContainedTag_eq (body : List Char) (hb : bracketFree body)
    (hl : body.length + 2 < npos) :
    isSelfContainedTag ('<' :: (body ++ ['>'])) =
      ("/>".toList.isSuffixOf ('<' :: (body ++ ['>'])) ||
        "<?".toList.isPrefixOf ('<' :: (body ++ ['>']))) := by
  have hq : '>' ∉ '<' :: body := by
    intro h
    rcases List.mem_cons.1 h with h | h
    · exact absurd h (by decide)
    · exact (hb _ h).2 rfl
  have hlen : ('<' :: (body ++ ['>'])).length = body.length + 2 := by simp
  have hsub : sizeSub (body.length + 2) 2 = body.length :=
    sizeSub_add_self _ _ (by have := npos_lt; omega)
  have hfind := findFrom_slash_gt ('<' :: body) hq 0
  have hsuf := isSuffixOf_slash_gt ('<' :: body)
  simp only [List.cons_append] at hfind hsuf
  have h1 : (find ('<' :: (body ++ ['>'])) "/>".toList == body.length) =
      "/>".toList.isSuffixOf ('<' :: (body ++ ['>'])) := by
    unfold find
    rw [show "/>".toList = ['/', '>'] from rfl, hfind, hsuf]
    by_cases hlast : ('<' :: body).getLast? = some '/'
    · simp [hlast]
    · simp only [hlast, if_false, decide_False, beq_eq_false_iff_ne, ne_eq]
      intro h
      rw [h] at hl
      omega
  unfold isSelfContainedTag
  rw [find_beq_zero _ _ (by decide), hlen, hsub, h1]

theorem unwind_suffix (tagRaw : List Char) (rest : List (List Char)) :
    ∀ (topRaw fx v fx' v' : List Char) (stack' : List (List Char)),
      unwind tagRaw rest topRaw fx v = .ok (fx', v', stack') →
      ∃ popped, rest = popped ++ stack' := by
  induction rest with
  | nil =>
    intro topRaw fx v fx' v' stack' h
    unfold unwind at h
    split_ifs at h
    simp only [Except.ok.injEq, Prod.mk.injEq] at h
    exact ⟨[], by simp [h.2.2]⟩
  | cons top rest ih =>
    intro topRaw fx v fx' v' stack' h
    unfold unwind at h
    split_ifs at h
    · obtain ⟨popped, hp⟩ := ih _ _ _ _ _ _ h
      exact ⟨top :: popped, by simp [hp]⟩
    · simp only [Except.ok.injEq, Prod.mk.injEq] at h
      exact ⟨[], by simp [h.2.2]⟩

/-- C20: a tag span captured from `<` to `>` is classified by the same two tests
in `FixXML` and in `isXMLBalanced`, and the tests come down to the rule of the
specification, in its order: a span beginning with `</` takes the closing-tag
branch (also when it ends with `/>`); otherwise a span ending with `/>` or
beginning with `<?` is written or skipped with no effect on the stack;
otherwise the span is an opening tag, which is pushed on the stack whenever the
scan goes on. -/
theorem tag_classification (tag body : List Char) (hb : bracketFree body)
    (hl : body.length + 2 < npos) (htag : tag = '<' :: (body ++ ['>'])) :
    isClosingTag tag = "</".toList.isPrefixOf tag ∧
      isSelfContainedTag tag =
        ("/>".toList.isSuffixOf tag || "<?".toList.isPrefixOf tag) ∧
      (∀ (fst fst' : FixState) (bst bst' : BalState),
        match specClassify tag with
        | .CloseTag _ =>
          (balCloseBracket bst tag = .next bst' → bst'.tagStack = bst.tagStack.tail) ∧
          (fixCloseBracket fst tag = .next fst' →
            ∃ popped, popped ≠ [] ∧ fst.tagStack = popped ++ fst'.tagStack)
        | .SelfClosingOrDeclaration _ =>
          balCloseBracket bst tag = .next ⟨[], [], false, bst.tagStack⟩ ∧
          fixCloseBracket fst tag =
            .next ⟨fst.fixedXML ++ (fst.value ++ tag), [], [], false, fst.tagStack⟩
        | .OpenTag _ =>
          (balCloseBracket bst tag = .next bst' → bst'.tagStack = tag :: bst.tagStack) ∧
          (fixCloseBracket fst tag = .next fst' →
            fst'.tagStack = tag ::
              (if fst.value.length > 0 then fst.tagStack.tail else fst.tagStack))
        | .Value _ => False) ∧
      specClassify "</a/>".toList = .CloseTag "a/".toList ∧
      isClosingTag "</a/>".toList = true := by
  have hc := isClosingTag_eq tag
  have hs : isSelfContainedTag tag =
      ("/>".toList.isSuffixOf tag || "<?".toList.isPrefixOf tag) := by
    rw [htag]; exact isSelfContainedTag_eq body hb hl
  refine ⟨hc, hs, ?_, by decide, by decide⟩
  intro fst fst' bst bst'
  unfold specClassify
  by_cases h1 : "</".toList.isPrefixOf tag = true
  · have hc1 : isClosingTag tag = true := by rw [hc, h1]
    simp only [h1, if_true]
    constructor
    · intro h
      unfold balCloseBracket at h
      simp only [hc1, if_true] at h
      split at h
      · cases h
      · rename_i top rest heq
        split_ifs at h
        simp only [Step.next.injEq] at h
        subst h
        rw [heq]
        rfl
    · intro h
      unfold fixCloseBracket at h
      simp only [hc1, if_true] at h
      split at h
      · cases h
      · rename_i top rest heq
        split at h
        · cases h
        · rename_i fx' v' stack' hu
          simp only [Step.next.injEq] at h
          subst h
          obtain ⟨popped, hp⟩ := unwind_suffix _ _ _ _ _ _ _ _ hu
          exact ⟨top :: popped, by simp, by rw [heq, hp]; rfl⟩
  · have hc1 : isClosingTag tag = false := by
      rw [hc]; exact Bool.eq_false_iff.2 h1
    simp only [h1, Bool.false_eq_true, if_false]
    by_cases h2 : ("/>".toList.isSuffixOf tag || "<?".toList.isPrefixOf tag) = true
    · have hs1 : isSelfContainedTag tag = true := by rw [hs, h2]
      simp only [h2, if_true]
      constructor
      · unfold balCloseBracket
        simp only [hc1, hs1, Bool.false_eq_true, if_false, if_true]
      · unfold fixCloseBracket
        simp only [hc1, hs1, Bool.false_eq_true, if_false, if_true]
    · have hs1 : isSelfContainedTag tag = false := by
        rw [hs]; exact Bool.eq_false_iff.2 h2
      simp only [h2, Bool.false_eq_true, if_false]
      constructor
      · intro h
        unfold balCloseBracket at h
        simp only [hc1, hs1, Bool.false_eq_true, if_false] at h
        split_ifs at h
        simp only [Step.next.injEq] at h
        subst h
        rfl
      · intro h
        unfold fixCloseBracket at h
        simp only [hc1, hs1, Bool.false_eq_true, if_false] at h
        split_ifs at h with hv
        · split at h
          · cases h
          · rename_i top rest heq
            simp only [Step.next.injEq] at h
            subst h
            simp only [hv, if_true, heq, List.tail_cons]
        · simp only [Step.next.injEq] at h
          subst h
          simp only [hv, if_false]

theorem tag_classification_witness :
    isClosingTag "<BR/>".toList = "</".toList.isPrefixOf "<BR/>".toList ∧
      isSelfContainedTag "<BR/>".toList =
        ("/>".toList.isSuffixOf "<BR/>".toList ||
          "<?".toList.isPrefixOf "<BR/>".toList) ∧
      (∀ (fst fst' : FixState) (bst bst' : BalState),
        match specClassify "<BR/>".toList with
        | .CloseTag _ =>
          (balCloseBracket bst "<BR/>".toList = .next bst' →
            bst'.tagStack = bst.tagStack.tail) ∧
          (fixCloseBracket fst "<BR/>".toList = .next fst' →
            ∃ popped, popped ≠ [] ∧ fst.tagStack = popped ++ fst'.tagStack)
        | .SelfClosingOrDeclaration _ =>
          balCloseBracket bst "<BR/>".toList = .next ⟨[], [], false, bst.tagStack⟩ ∧
          fixCloseBracket fst "<BR/>".toList =
            .next ⟨fst.fixedXML ++ (fst.value ++ "<BR/>".toList), [], [], false,
              fst.tagStack⟩
        | .OpenTag _ =>
          (balCloseBracket bst "<BR/>".toList = .next bst' →
            bst'.tagStack = "<BR/>".toList :: bst.tagStack) ∧
          (fixCloseBracket fst "<BR/>".toList = .next fst' →
            fst'.tagStack = "<BR/>".toList ::
              (if fst.value.length > 0 then fst.tagStack.tail else fst.tagStack))
        | .Value _ => False) ∧
      specClassify "</a/>".toList = .CloseTag "a/".toList ∧
      isClosingTag "</a/>".toList = true :=
  tag_classification "<BR/>".toList "BR/".toList (by decide) (by decide) rfl

/-! ## When `FixXML` gives up -/

theorem unwind_error_iff (tagRaw : List Char) (rest : List (List Char)) :
    ∀ (topRaw fx v : List Char),
      (∃ fx', unwind tagRaw rest topRaw fx v = .error fx') ↔
        (topRaw ≠ tagRaw ∧ ∀ p ∈ rest, openRawValue p ≠ tagRaw) := by
  induction rest with
  | nil =>
    intro topRaw fx v
    unfold unwind
    by_cases h : topRaw = tagRaw
    · simp [h]
    · simp [h]
  | cons top rest ih =>
    intro topRaw fx v
    unfold unwind
    by_cases h : topRaw = tagRaw
    · simp [h]
    · simp only [ne_eq, h, not_false_eq_true, if_true, true_and, List.mem_cons,
        forall_eq_or_imp]
      exact ih _ _ _

theorem unwind_error_prefix (tagRaw : List Char) (rest : List (List Char)) :
    ∀ (topRaw fx v fx' : List Char),
      unwind tagRaw rest topRaw fx v = .error fx' → ∃ extra, fx' = fx ++ extra := by
  induction rest with
  | nil =>
    intro topRaw fx v fx' h
    unfold unwind at h
    split_ifs at h
    simp only [Except.error.injEq] at h
    exact ⟨[], by simp [h]⟩
  | cons top rest ih =>
    intro topRaw fx v fx' h
    unfold unwind at h
    split_ifs at h
    obtain ⟨extra, he⟩ := ih _ _ _ _ h
    exact ⟨(v ++ closeTagOf topRaw) ++ extra, by rw [he]; simp⟩

theorem fixCloseBracket_diagnostic_iff (st : FixState) (tag : List Char) :
    (∃ t, fixCloseBracket st tag = .done (.diagnostic t)) ↔ unfixableAt st tag := by
  unfold fixCloseBracket unfixableAt
  by_cases hc : isClosingTag tag = true
  · simp only [hc, if_true, true_and, Bool.true_eq_false, false_and, or_false]
    cases hst : st.tagStack with
    | nil => simp
    | cons top rest =>
      simp only [List.mem_cons, forall_eq_or_imp]
      rw [← unwind_error_iff (closingRawValue tag) rest (openRawValue top)
        st.fixedXML st.value]
      constructor
      · rintro ⟨t, ht⟩
        cases hu : unwind (closingRawValue tag) rest (openRawValue top)
            st.fixedXML st.value with
        | error fx' => exact ⟨fx', rfl⟩
        | ok r => rw [hu] at ht; cases ht
      · rintro ⟨fx', hu⟩
        rw [hu]
        exact ⟨_, rfl⟩
  · have hc' : isClosingTag tag = false := Bool.eq_false_iff.2 hc
    simp only [hc', Bool.false_eq_true, if_false, false_and, false_or, true_and]
    by_cases hs : isSelfContainedTag tag = true
    · simp [hs]
    · have hs' : isSelfContainedTag tag = false := Bool.eq_false_iff.2 hs
      simp only [hs', Bool.false_eq_true, if_false, true_and]
      by_cases hv : st.value.length > 0
      · have hne : st.value ≠ [] := List.length_pos.1 hv
        simp only [hv, if_true, ne_eq, hne, not_false_eq_true, true_and]
        cases hst : st.tagStack with
        | nil => simp
        | cons top rest => simp
      · have he : st.value = [] := by
          cases hval : st.value with
          | nil => rfl
          | cons a l => rw [hval] at hv; simp at hv
        simp [hv, he]

theorem fixCloseBracket_diagnostic_text (st : FixState) (tag t : List Char)
    (h : fixCloseBracket st tag = .done (.diagnostic t)) :
    ∃ msg extra, msg ∈ diagnosticMessages ∧ t = msg ++ (st.fixedXML ++ extra) := by
  unfold fixCloseBracket at h
  by_cases hc : isClosingTag tag = true
  · simp only [hc, if_true] at h
    split at h
    · simp only [Step.done.injEq, FixOutcome.diagnostic.injEq] at h
      exact ⟨MSG_NO_TAG_FOR_CLOSING, [], by simp [diagnosticMessages],
        by rw [← h]; simp⟩
    · split at h
      · rename_i fx' hu
        simp only [Step.done.injEq, FixOutcome.diagnostic.injEq] at h
        obtain ⟨extra, he⟩ := unwind_error_prefix _ _ _ _ _ _ hu
        exact ⟨MSG_RAN_INTO_ISSUES, extra, by simp [diagnosticMessages],
          by rw [← h, he]⟩
      · cases h
  · have hc' : isClosingTag tag = false := Bool.eq_false_iff.2 hc
    simp only [hc', Bool.false_eq_true, if_false] at h
    by_cases hs : isSelfContainedTag tag = true
    · simp only [hs, if_true] at h
      cases h
    · have hs' : isSelfContainedTag tag = false := Bool.eq_false_iff.2 hs
      simp only [hs', Bool.false_eq_true, if_false] at h
      by_cases hv : st.value.length > 0
      · simp only [hv, if_true] at h
        split at h
        · simp only [Step.done.injEq, FixOutcome.diagnostic.injEq] at h
          exact ⟨MSG_NO_TAG_FOR_VALUE, [], by simp [diagnosticMessages],
            by rw [← h]; simp⟩
        · cases h
      · simp only [hv, if_false] at h
        cases h

theorem fixStep_diagnostic (c : Char) (st : FixState) (t : List Char)
    (h : fixStep c st = .done (.diagnostic t)) :
    c = '>' ∧ fixCloseBracket st (st.tag ++ ['>']) = .done (.diagnostic t) := by
  unfold fixStep at h
  by_cases h1 : c = '>'
  · subst h1
    simp only [if_true] at h
    exact ⟨rfl, h⟩
  · simp only [h1, if_false] at h
    repeat' split at h
    all_goals cases h

theorem fixLoop_diagnostic_iff (s : List Char) : ∀ (st0 : FixState) (t : List Char),
    fixLoop s st0 = .diagnostic t ↔
      ∃ st, reachesUnfixableFrom st0 s st ∧
        fixCloseBracket st (st.tag ++ ['>']) = .done (.diagnostic t) := by
  induction s with
  | nil =>
    intro st0 t
    simp only [fixLoop]
    constructor
    · intro h; cases h
    · rintro ⟨st, ⟨pre, post, h, _, _⟩, _⟩
      cases pre <;> cases h
  | cons c cs ih =>
    intro st0 t
    simp only [fixLoop]
    constructor
    · intro h
      cases hs : fixStep c st0 with
      | next st1 =>
        rw [hs] at h
        obtain ⟨st, ⟨pre, post, h1, h2, h3⟩, h4⟩ := (ih st1 t).1 h
        refine ⟨st, ⟨c :: pre, post, by rw [h1]; rfl, ?_, h3⟩, h4⟩
        simp only [fixScan, hs, h2]
      | done r =>
        rw [hs] at h
        simp only at h
        subst h
        obtain ⟨rfl, hd⟩ := fixStep_diagnostic c st0 t hs
        exact ⟨st0, ⟨[], cs, rfl, rfl,
          (fixCloseBracket_diagnostic_iff _ _).1 ⟨t, hd⟩⟩, hd⟩
    · rintro ⟨st, ⟨pre, post, h1, h2, h3⟩, h4⟩
      cases pre with
      | nil =>
        simp only [List.nil_append, List.cons.injEq] at h1
        obtain ⟨rfl, rfl⟩ := h1
        simp only [fixScan, Step.next.injEq] at h2
        subst h2
        simp only [fixStep, if_true, h4]
      | cons d pre =>
        simp only [List.cons_append, List.cons.injEq] at h1
        obtain ⟨rfl, rfl⟩ := h1
        simp only [fixScan] at h2
        cases hs : fixStep c st0 with
        | next st1 =>
          rw [hs] at h2
          simp only at h2 ⊢
          exact (ih st1 t).2 ⟨st, ⟨pre, post, rfl, h2, h3⟩, h4⟩
        | done r =>
          rw [hs] at h2
          cases h2

theorem FixXML_diagnostic_of_reaches (s : List Char) (st : FixState)
    (h : reachesUnfixableFrom FixState.init s st) : ∃ t, FixXML s = .diagnostic t := by
  obtain ⟨pre, post, h1, h2, h3⟩ := h
  obtain ⟨t, ht⟩ := (fixCloseBracket_diagnostic_iff _ _).2 h3
  exact ⟨t, (fixLoop_diagnostic_iff s FixState.init t).2 ⟨st, ⟨pre, post, h1, h2, h3⟩, ht⟩⟩

/-- C18 as worded fails: on `<a<b>` the scan reaches no tag it cannot repair
(it reaches no `>` at all), yet `FixXML` returns no repaired document: the
assertion fails. -/
theorem FixXML_neither_diagnostic_nor_repaired :
    (¬ ∃ st, reachesUnfixableFrom FixState.init "<a<b>".toList st) ∧
      FixXML "<a<b>".toList = .assertFailure ∧
      ¬ ∃ out, FixXML "<a<b>".toList = .repaired out := by
  have hf : FixXML "<a<b>".toList = .assertFailure := by decide
  refine ⟨?_, hf, ?_⟩
  · rintro ⟨st, h⟩
    obtain ⟨t, ht⟩ := FixXML_diagnostic_of_reaches _ st h
    rw [hf] at ht
    cases ht
  · rintro ⟨out, h⟩
    rw [hf] at h
    cases h

/-- C18 amended: `FixXML` returns a diagnostic result if and only if, before
any failed assertion, the scan reaches a closing tag whose name is the name of
no tag on the stack, or an opening tag while the pending value is non-empty and
the stack is empty; the result is then one of the three messages followed by
the output accumulated so far; on every other input on which the assertion does
not fail it returns a repaired document. -/
theorem FixXML_diagnostic_iff (s : List Char) :
    ((∃ t, FixXML s = .diagnostic t) ↔
        ∃ st, reachesUnfixableFrom FixState.init s st) ∧
      (∀ t, FixXML s = .diagnostic t →
        ∃ st msg extra, reachesUnfixableFrom FixState.init s st ∧
          msg ∈ diagnosticMessages ∧ t = msg ++ (st.fixedXML ++ extra)) ∧
      ((¬ ∃ st, reachesUnfixableFrom FixState.init s st) →
        FixXML s ≠ .assertFailure → ∃ out, FixXML s = .repaired out) := by
  have hdiag : ∀ t, FixXML s = .diagnostic t →
      ∃ st msg extra, reachesUnfixableFrom FixState.init s st ∧
        msg ∈ diagnosticMessages ∧ t = msg ++ (st.fixedXML ++ extra) := by
    intro t ht
    obtain ⟨st, hr, hd⟩ := (fixLoop_diagnostic_iff s FixState.init t).1 ht
    obtain ⟨msg, extra, hm, he⟩ := fixCloseBracket_diagnostic_text _ _ _ hd
    exact ⟨st, msg, extra, hr, hm, he⟩
  refine ⟨⟨?_, ?_⟩, hdiag, ?_⟩
  · rintro ⟨t, ht⟩
    obtain ⟨st, _, _, hr, _, _⟩ := hdiag t ht
    exact ⟨st, hr⟩
  · rintro ⟨st, hr⟩
    exact FixXML_diagnostic_of_reaches s st hr
  · intro hno hna
    cases hf : FixXML s with
    | assertFailure => exact absurd hf hna
    | diagnostic t =>
      obtain ⟨st, _, _, hr, _, _⟩ := hdiag t hf
      exact absurd ⟨st, hr⟩ hno
    | repaired out => exact ⟨out, rfl⟩

/-! ## The messages of a conversion -/

theorem pruneStatementType_messages (d : Bool) (state : List Message × List XMLNode)
    (type : List Char) :
    ∃ tail, (pruneStatementType d state type).1 = state.1 ++ tail ∧
      ∀ m ∈ tail, m = .mappingMissing type ∨ ∃ seg, m = .notModifying type seg := by
  unfold pruneStatementType
  split_ifs
  · exact ⟨[.mappingMissing type], rfl, by simp⟩
  · split
    · rename_i seg _
      exact ⟨[.notModifying type seg], rfl, by simp⟩
    · exact ⟨[], by simp, by simp⟩

theorem foldl_pruneStatementType_messages (d : Bool) (types : List (List Char)) :
    ∀ state : List Message × List XMLNode,
      ∃ tail, (types.foldl (pruneStatementType d) state).1 = state.1 ++ tail ∧
        ∀ m ∈ tail, ∃ type, m = .mappingMissing type ∨ ∃ seg, m = .notModifying type seg := by
  induction types with
  | nil =>
    intro state
    exact ⟨[], by simp, by simp⟩
  | cons type types ih =>
    intro state
    obtain ⟨t1, h1, h1'⟩ := pruneStatementType_messages d state type
    obtain ⟨t2, h2, h2'⟩ := ih (pruneStatementType d state type)
    refine ⟨t1 ++ t2, ?_, ?_⟩
    · simp only [List.foldl_cons, h2, h1, List.append_assoc]
    · intro m hm
      rcases List.mem_append.1 hm with hm | hm
      · exact ⟨type, h1' m hm⟩
      · exact h2' m hm

theorem normalizeLineEndings_before_lf (x : List Char) :
    ∀ pre rest : List Char, normalizeLineEndings x = pre ++ '\n' :: rest →
      pre.getLast? = some '\r' := by
  induction x with
  | nil =>
    intro pre rest h
    cases pre <;> simp [normalizeLineEndings] at h
  | cons c cs ih =>
    intro pre rest h
    unfold normalizeLineEndings at h
    by_cases hc : c = '\n'
    · simp only [hc, if_true] at h
      cases pre with
      | nil => simp at h
      | cons p0 pre =>
        cases pre with
        | nil =>
          simp only [List.cons_append, List.nil_append, List.cons.injEq] at h
          simp [← h.1]
        | cons p1 pre =>
          simp only [List.cons_append, List.cons.injEq] at h
          have := ih pre rest h.2.2
          cases pre with
          | nil => simp at this
          | cons p2 pre => simpa using this
    · simp only [hc, if_false] at h
      cases pre with
      | nil =>
        simp only [List.nil_append, List.cons.injEq] at h
        exact absurd h.1 hc
      | cons p0 pre =>
        simp only [List.cons_append, List.cons.injEq] at h
        have := ih pre rest h.2
        cases pre with
        | nil => simp at this
        | cons p1 pre => simpa using this

theorem normalizeLineEndings_ne_polishedText (x s : List Char) :
    normalizeLineEndings x ≠ polishedText s := by
  intro h
  have := normalizeLineEndings_before_lf x XML_HEADER _ h
  revert this
  decide

theorem convertParsed_succeeded (lib : XMLLibrary) (d : Bool) (s inxml : List Char)
    (msgs : List Message) (doc : List XMLNode) (text : List Char)
    (h : (convertParsed lib d s inxml msgs doc).result = .succeeded text) :
    (∃ x, text = normalizeLineEndings x) ∧
      (Message.nothingChanged ∈ (convertParsed lib d s inxml msgs doc).messages ↔
        (Message.nothingChanged ∈ msgs ∨ s = text)) := by
  unfold convertParsed at h ⊢
  split at h
  · cases h
  · rename_i c hroot
    simp only [hroot]
    by_cases h1 : (statementTypes doc).length = 0
    · simp only [h1, if_true] at h
      cases h
    · simp only [h1, if_false, ConvertResult.succeeded.injEq] at h ⊢
      obtain ⟨tail, ht, ht'⟩ :=
        foldl_pruneStatementType_messages d (statementTypes doc) (msgs, doc)
      have htail : Message.nothingChanged ∉ tail := by
        intro hm
        obtain ⟨type, h | ⟨seg, h⟩⟩ := ht' _ hm <;> cases h
      refine ⟨⟨_, h.symm⟩, ?_⟩
      rw [h, ht]
      by_cases h2 : s = text
      · simp [h2]
      · simp [h2, htail]

theorem repairAndConvert_succeeded (lib : XMLLibrary) (d : Bool)
    (s polished text : List Char) (notice : Message)
    (h : (repairAndConvert lib d s polished notice).result = .succeeded text) :
    ∃ inxml doc, repairAndConvert lib d s polished notice =
      convertParsed lib d s inxml [notice] doc := by
  unfold repairAndConvert at h ⊢
  cases hf : (FixXML polished).text with
  | none => rw [hf] at h; cases h
  | some fixedXML =>
    rw [hf] at h
    simp only at h ⊢
    by_cases he : (lib.Parse fixedXML).1 ≠ 0
    · rw [if_pos he] at h; cases h
    · rw [if_neg he]
      exact ⟨_, _, rfl⟩

theorem ConvertInputToOFX_succeeded (lib : XMLLibrary) (d : Bool) (s text : List Char)
    (h : (ConvertInputToOFX lib d s).result = .succeeded text) :
    ∃ inxml msgs doc, Message.nothingChanged ∉ msgs ∧
      ConvertInputToOFX lib d s = convertParsed lib d s inxml msgs doc := by
  unfold ConvertInputToOFX at h ⊢
  by_cases h14 : (lib.Parse (polishedText s)).1 = 14
  · rw [if_pos h14] at h ⊢
    obtain ⟨inxml, doc, hr⟩ := repairAndConvert_succeeded _ _ _ _ _ _ h
    exact ⟨inxml, _, doc, by simp, hr⟩
  · rw [if_neg h14] at h ⊢
    by_cases h0 : (lib.Parse (polishedText s)).1 = 0
    · rw [if_pos h0] at h ⊢
      cases hb : isXMLBalanced (polishedText s) with
      | none => rw [hb] at h; cases h
      | some b =>
        rw [hb] at h
        cases b with
        | false =>
          obtain ⟨inxml, doc, hr⟩ := repairAndConvert_succeeded _ _ _ _ _ _ h
          exact ⟨inxml, _, doc, by simp, hr⟩
        | true => exact ⟨_, [], _, by simp, rfl⟩
    · rw [if_neg h0] at h
      cases h

set_option maxRecDepth 100000 in
/-- C14 as worded fails: converting again the text a conversion wrote (the
printed document with a carriage return before every line feed) reports that
nothing changed although the output differs from the trimmed input; and no
output is ever identical to the trimmed input, in which a bare line feed
follows the first header. -/
theorem nothingChanged_compares_raw_input :
    (ConvertInputToOFX exampleLibrary true exampleOutput).result =
        .succeeded exampleOutput ∧
      Message.nothingChanged ∈
        (ConvertInputToOFX exampleLibrary true exampleOutput).messages ∧
      exampleOutput ≠ polishedText exampleOutput ∧
      ∀ (lib : XMLLibrary) (d : Bool) (s text : List Char),
        (ConvertInputToOFX lib d s).result = .succeeded text → text ≠ polishedText s := by
  have hall : ∀ (lib : XMLLibrary) (d : Bool) (s text : List Char),
      (ConvertInputToOFX lib d s).result = .succeeded text → text ≠ polishedText s := by
    intro lib d s text h
    obtain ⟨inxml, msgs, doc, _, hc⟩ := ConvertInputToOFX_succeeded lib d s text h
    rw [hc] at h
    obtain ⟨⟨x, hx⟩, _⟩ := convertParsed_succeeded lib d s inxml msgs doc text h
    rw [hx]
    exact normalizeLineEndings_ne_polishedText x s
  have hrun : ConvertInputToOFX exampleLibrary true exampleOutput =
      ⟨[.notModifying "BANKMSGSRSV1".toList "STMTTRNRS".toList, .nothingChanged],
        .succeeded exampleOutput⟩ := by
    decide
  refine ⟨by rw [hrun], by rw [hrun]; simp, ?_, hall⟩
  exact hall exampleLibrary true exampleOutput exampleOutput (by rw [hrun])

/-- C14 amended: on every successful conversion the notice that nothing
changed is reported exactly when the serialized, line-ending-normalised output
is textually identical to the text `s` of the input window, as it was before
anything was discarded or prepended. -/
theorem nothingChanged_iff (lib : XMLLibrary) (d : Bool) (s text : List Char)
    (h : (ConvertInputToOFX lib d s).result = .succeeded text) :
    Message.nothingChanged ∈ (ConvertInputToOFX lib d s).messages ↔ s = text := by
  obtain ⟨inxml, msgs, doc, hm, hc⟩ := ConvertInputToOFX_succeeded lib d s text h
  rw [hc] at h ⊢
  rw [(convertParsed_succeeded lib d s inxml msgs doc text h).2]
  simp [hm]

set_option maxRecDepth 100000 in
theorem nothingChanged_iff_witness :
    (ConvertInputToOFX exampleLibrary true "junk\n<OFX><BANKMSGSRSV1/></OFX>".toList).result =
        .succeeded exampleOutput ∧
      (Message.nothingChanged ∈
          (ConvertInputToOFX exampleLibrary true
            "junk\n<OFX><BANKMSGSRSV1/></OFX>".toList).messages ↔
        "junk\n<OFX><BANKMSGSRSV1/></OFX>".toList = exampleOutput) :=
  ⟨by decide, nothingChanged_iff exampleLibrary true
    "junk\n<OFX><BANKMSGSRSV1/></OFX>".toList exampleOutput (by decide)⟩

/-! ## A diagnostic result of the repair in the conversion -/

theorem isPrefixOf_append_lf (r : List Char) : ∀ (pat a : List Char), '\n' ∉ pat →
    pat.isPrefixOf (a ++ '\n' :: r) = pat.isPrefixOf a := by
  intro pat
  induction pat with
  | nil => intro a _; simp
  | cons p ps ih =>
    intro a hp
    have hp1 : p ≠ '\n' := fun h => hp (by simp [h])
    have hp2 : '\n' ∉ ps := fun h => hp (by simp [h])
    cases a with
    | nil => simp [List.isPrefixOf, hp1]
    | cons c a =>
      have h := ih a hp2
      simp only [List.cons_append, List.isPrefixOf]
      change (p == c && ps.isPrefixOf (a ++ '\n' :: r)) = _
      rw [h]

theorem suffixFromFirst_append_lf (pat r : List Char) (hne : pat ≠ []) (hp : '\n' ∉ pat) :
    ∀ a : List Char, suffixFromFirst pat (a ++ '\n' :: r) =
      if suffixFromFirst pat a = [] then suffixFromFirst pat r
      else suffixFromFirst pat a ++ '\n' :: r := by
  intro a
  induction a with
  | nil =>
    have h := isPrefixOf_append_lf r pat [] hp
    have h0 : pat.isPrefixOf ([] : List Char) = false := by
      cases pat with
      | nil => exact absurd rfl hne
      | cons p ps => rfl
    rw [h0] at h
    simp only [List.nil_append] at h
    simp [suffixFromFirst, h]
  | cons c a ih =>
    have h := isPrefixOf_append_lf r pat (c :: a) hp
    simp only [List.cons_append] at h ⊢
    by_cases hc : pat.isPrefixOf (c :: a) = true
    · rw [hc] at h
      simp [suffixFromFirst, h, hc]
    · have hc2 : pat.isPrefixOf (c :: a) = false := Bool.eq_false_iff.2 hc
      rw [hc2] at h
      simp only [suffixFromFirst, h, hc2, Bool.false_eq_true, if_false]
      exact ih

theorem suffixFromFirst_suffix (pat : List Char) :
    ∀ l : List Char, suffixFromFirst pat l <:+ l := by
  intro l
  induction l with
  | nil => simp [suffixFromFirst]
  | cons c cs ih =>
    simp only [suffixFromFirst]
    split_ifs
    · exact List.suffix_refl _
    · exact ih.trans (List.suffix_cons c cs)

theorem suffixFromFirst_ne_nil_of_infix (pat : List Char) (hne : pat ≠ []) :
    ∀ l : List Char, pat <:+: l → suffixFromFirst pat l ≠ [] := by
  intro l
  induction l with
  | nil =>
    intro h
    exact absurd (List.infix_nil.1 h) hne
  | cons c cs ih =>
    intro h
    simp only [suffixFromFirst]
    split_ifs with hpre
    · simp
    · rcases List.infix_cons_iff.1 h with h1 | h1
      · exact absurd (List.isPrefixOf_iff_prefix.2 h1) hpre
      · exact ih h1

theorem findFrom_suffixFromFirst (pat : List Char) (hne : pat ≠ []) :
    ∀ (l : List Char) (k : Nat),
      (suffixFromFirst pat l = [] → findFrom pat l k = npos) ∧
      (suffixFromFirst pat l ≠ [] →
        ∃ i, findFrom pat l k = k + i ∧ i ≤ l.length ∧ l.drop i = suffixFromFirst pat l) := by
  intro l
  induction l with
  | nil =>
    intro k
    have h0 : pat.isEmpty = false := by
      cases pat with
      | nil => exact absurd rfl hne
      | cons p ps => rfl
    simp [suffixFromFirst, findFrom, h0]
  | cons c cs ih =>
    intro k
    by_cases hc : pat.isPrefixOf (c :: cs) = true
    · have e1 : suffixFromFirst pat (c :: cs) = c :: cs := by
        simp only [suffixFromFirst, hc, if_true]
      have e2 : findFrom pat (c :: cs) k = k := by
        simp only [findFrom, hc, if_true]
      rw [e1, e2]
      exact ⟨fun h => List.noConfusion h, fun _ => ⟨0, rfl, Nat.zero_le _, rfl⟩⟩
    · have hc2 : pat.isPrefixOf (c :: cs) = false := Bool.eq_false_iff.2 hc
      have e1 : suffixFromFirst pat (c :: cs) = suffixFromFirst pat cs := by
        simp only [suffixFromFirst, hc2, Bool.false_eq_true, if_false]
      have e2 : findFrom pat (c :: cs) k = findFrom pat cs (k + 1) := by
        simp only [findFrom, hc2, Bool.false_eq_true, if_false]
      rw [e1, e2]
      refine ⟨fun h => (ih (k + 1)).1 h, fun h => ?_⟩
      obtain ⟨i, h1, h2, h3⟩ := (ih (k + 1)).2 h
      exact ⟨i + 1, by rw [h1]; omega, by simp only [List.length_cons]; omega, by simpa using h3⟩

theorem trimLines_cons (line : List Char) (rest : List (List Char))
    (hlen : line.length < npos) :
    trimLines (line :: rest) =
      if suffixFromFirst OFX_MARKER line = [] then trimLines rest
      else suffixFromFirst OFX_MARKER line ++ (rest.map (fun l => l ++ ['\n'])).flatten := by
  have hne : OFX_MARKER ≠ [] := by decide
  have hf := findFrom_suffixFromFirst OFX_MARKER hne line 0
  by_cases h : suffixFromFirst OFX_MARKER line = []
  · have h1 : find line "<OFX>".toList = npos := hf.1 h
    rw [if_pos h]
    simp only [trimLines]
    rw [if_neg (not_not.2 h1)]
  · obtain ⟨i, h1, h2, h3⟩ := hf.2 h
    have h1b : find line "<OFX>".toList = i := by
      have : find line "<OFX>".toList = 0 + i := h1
      omega
    rw [if_neg h]
    simp only [trimLines]
    rw [if_pos (by rw [h1b]; omega), h1b]
    unfold substr
    rw [h3, List.take_of_length_le]
    have := (suffixFromFirst_suffix OFX_MARKER line).length_le
    omega

theorem getlines_no_lf : ∀ (a line : List Char), '\n' ∉ a →
    getlines a line = if line ++ a = [] then [] else [line ++ a] := by
  intro a
  induction a with
  | nil => intro line _; simp [getlines]
  | cons c cs ih =>
    intro line h
    have h1 : c ≠ '\n' := fun e => h (by simp [e])
    have h2 : '\n' ∉ cs := fun e => h (by simp [e])
    simp only [getlines, if_neg h1]
    rw [ih _ h2]
    simp

theorem getlines_append_lf (r : List Char) : ∀ (a line : List Char), '\n' ∉ a →
    getlines (a ++ '\n' :: r) line = (line ++ a) :: getlines r [] := by
  intro a
  induction a with
  | nil => intro line _; simp [getlines]
  | cons c cs ih =>
    intro line h
    have h1 : c ≠ '\n' := fun e => h (by simp [e])
    have h2 : '\n' ∉ cs := fun e => h (by simp [e])
    simp only [List.cons_append, getlines, if_neg h1]
    change getlines (cs ++ '\n' :: r) (line ++ [c]) = _
    rw [ih _ h2]
    simp

theorem getlines_flatten : ∀ (cs line : List Char),
    ((getlines cs line).map (fun l => l ++ ['\n'])).flatten =
      if cs = [] then (if line = [] then [] else line ++ ['\n'])
      else line ++ endWithLineFeed cs := by
  intro cs
  induction cs with
  | nil =>
    intro line
    by_cases h : line = [] <;> simp [getlines, h]
  | cons c cs ih =>
    intro line
    simp only [getlines, reduceCtorEq, if_false]
    by_cases hc : c = '\n'
    · subst hc
      simp only [if_true, List.map_cons, List.flatten_cons]
      rw [ih []]
      cases cs with
      | nil => simp [endWithLineFeed]
      | cons d ds => simp [endWithLineFeed]
    · simp only [if_neg hc]
      rw [ih (line ++ [c])]
      cases cs with
      | nil => simp [endWithLineFeed, hc]
      | cons d ds => simp [endWithLineFeed]

theorem split_at_lf : ∀ s : List Char,
    '\n' ∉ s ∨ ∃ a r, s = a ++ '\n' :: r ∧ '\n' ∉ a := by
  intro s
  induction s with
  | nil => left; simp
  | cons c cs ih =>
    by_cases hc : c = '\n'
    · right
      exact ⟨[], cs, by simp [hc], by simp⟩
    · rcases ih with h | ⟨a, r, h1, h2⟩
      · left
        simp [h, Ne.symm hc]
      · right
        exact ⟨c :: a, r, by simp [h1], by simp [h2, Ne.symm hc]⟩

theorem takeWhile_no_lf : ∀ x : List Char, '\n' ∉ x →
    x.takeWhile (fun c => c != '\n') = x ∧ x.dropWhile (fun c => c != '\n') = [] := by
  intro x
  induction x with
  | nil => intro _; simp
  | cons c cs ih =>
    intro h
    have h1 : c ≠ '\n' := fun e => h (by simp [e])
    have h2 : '\n' ∉ cs := fun e => h (by simp [e])
    have h1b : (c != '\n') = true := by simp [h1]
    simp [List.takeWhile, List.dropWhile, h1b, ih h2]

theorem takeWhile_append_lf (r : List Char) : ∀ x : List Char, '\n' ∉ x →
    (x ++ '\n' :: r).takeWhile (fun c => c != '\n') = x ∧
      (x ++ '\n' :: r).dropWhile (fun c => c != '\n') = '\n' :: r := by
  intro x
  induction x with
  | nil => intro _; simp [List.takeWhile, List.dropWhile]
  | cons c cs ih =>
    intro h
    have h1 : c ≠ '\n' := fun e => h (by simp [e])
    have h2 : '\n' ∉ cs := fun e => h (by simp [e])
    have h1b : (c != '\n') = true := by simp [h1]
    simp [List.takeWhile, List.dropWhile, h1b, ih h2]

theorem trimLines_getlines : ∀ (n : Nat) (s : List Char), s.length ≤ n →
    s.length < npos → suffixFromFirst OFX_MARKER s ≠ [] →
    trimLines (getlines s []) = trimmedBody s := by
  have hne : OFX_MARKER ≠ [] := by decide
  have hp : '\n' ∉ OFX_MARKER := by decide
  intro n
  induction n with
  | zero =>
    intro s hn _ hs
    have : s = [] := List.length_eq_zero.1 (Nat.le_zero.1 hn)
    subst this
    exact absurd rfl hs
  | succ n ih =>
    intro s hn hlen hs
    rcases split_at_lf s with h | ⟨a, r, rfl, ha⟩
    · have hsne : s ≠ [] := by
        intro e
        subst e
        exact hs rfl
      rw [getlines_no_lf s [] h]
      simp only [List.nil_append, if_neg hsne]
      rw [trimLines_cons s [] hlen, if_neg hs]
      have hsuf : '\n' ∉ suffixFromFirst OFX_MARKER s :=
        fun e => h ((suffixFromFirst_suffix OFX_MARKER s).subset e)
      unfold trimmedBody
      rw [(takeWhile_no_lf _ hsuf).1, (takeWhile_no_lf _ hsuf).2]
      simp [endWithLineFeed]
    · have hla : a.length < npos := by
        simp only [List.length_append, List.length_cons] at hlen
        omega
      have hlr : r.length ≤ n ∧ r.length < npos := by
        simp only [List.length_append, List.length_cons] at hlen hn
        omega
      rw [getlines_append_lf r a [] ha]
      simp only [List.nil_append]
      rw [trimLines_cons a _ hla]
      have hsplit := suffixFromFirst_append_lf OFX_MARKER r hne hp a
      by_cases h : suffixFromFirst OFX_MARKER a = []
      · rw [if_pos h] at hsplit ⊢
        rw [hsplit] at hs
        rw [ih r hlr.1 hlr.2 hs]
        unfold trimmedBody
        rw [hsplit]
      · rw [if_neg h] at hsplit ⊢
        have hsuf : '\n' ∉ suffixFromFirst OFX_MARKER a :=
          fun e => ha ((suffixFromFirst_suffix OFX_MARKER a).subset e)
        unfold trimmedBody
        rw [hsplit, (takeWhile_append_lf r _ hsuf).1, (takeWhile_append_lf r _ hsuf).2,
          getlines_flatten r []]
        cases r with
        | nil => simp [endWithLineFeed]
        | cons d ds => simp

theorem suffixFromFirst_prefix (pat : List Char) :
    ∀ l : List Char, suffixFromFirst pat l ≠ [] → pat <+: suffixFromFirst pat l := by
  intro l
  induction l with
  | nil => intro h; exact absurd rfl h
  | cons c cs ih =>
    intro h
    by_cases hc : pat.isPrefixOf (c :: cs) = true
    · have e1 : suffixFromFirst pat (c :: cs) = c :: cs := by
        simp only [suffixFromFirst, hc, if_true]
      rw [e1]
      exact List.isPrefixOf_iff_prefix.1 hc
    · have hc2 : pat.isPrefixOf (c :: cs) = false := Bool.eq_false_iff.2 hc
      have e1 : suffixFromFirst pat (c :: cs) = suffixFromFirst pat cs := by
        simp only [suffixFromFirst, hc2, Bool.false_eq_true, if_false]
      rw [e1] at h ⊢
      exact ih h

set_option maxRecDepth 100000 in
/-- C15 as stated fails: for the raw input `<OFX>`, line feed, `</OFX>` the
suffix from the first `<OFX>` is the whole input, and the trimmed text is the
two headers followed by `<OFX></OFX>` and a line feed, not by that suffix: the
line feed after `<OFX>` is gone and one is added at the end. -/
theorem polishedText_not_verbatim :
    suffixFromFirst OFX_MARKER "<OFX>\n</OFX>".toList = "<OFX>\n</OFX>".toList ∧
      polishedText "<OFX>\n</OFX>".toList =
        XML_HEADER ++ '\n' :: (XML_OFX_HEADER ++ '\n' :: "<OFX></OFX>\n".toList) ∧
      polishedText "<OFX>\n</OFX>".toList ≠
        XML_HEADER ++ '\n' :: (XML_OFX_HEADER ++ '\n' ::
          suffixFromFirst OFX_MARKER "<OFX>\n</OFX>".toList) := by
  decide

/-- C15 amended: for every raw input that contains the root marker `<OFX>`,
the trimmed text is the XML declaration, a line feed, the OFX header, a line
feed, and then the suffix of the raw input that starts at the first `<OFX>`
with the line feed that ends the marker's line taken out and with what follows
that line ended by a line feed (`trimmedBody`); that suffix is a suffix of the
input and begins with the marker, so everything before the marker is
discarded. -/
theorem polishedText_trimmed (s : List Char) (hlen : s.length < npos)
    (h : OFX_MARKER <:+: s) :
    polishedText s = XML_HEADER ++ '\n' :: (XML_OFX_HEADER ++ '\n' :: trimmedBody s) ∧
      suffixFromFirst OFX_MARKER s <:+ s ∧
      OFX_MARKER <+: suffixFromFirst OFX_MARKER s := by
  have hs : suffixFromFirst OFX_MARKER s ≠ [] :=
    suffixFromFirst_ne_nil_of_infix OFX_MARKER (by decide) s h
  refine ⟨?_, suffixFromFirst_suffix OFX_MARKER s, suffixFromFirst_prefix OFX_MARKER s hs⟩
  unfold polishedText
  rw [trimLines_getlines s.length s (Nat.le_refl _) hlen hs]

set_option maxRecDepth 100000 in
theorem polishedText_trimmed_witness :
    trimmedBody "junk\nOFXHEADER:100 <OFX>\n<A>\n</A></OFX>".toList =
        "<OFX><A>\n</A></OFX>\n".toList ∧
      (polishedText "junk\nOFXHEADER:100 <OFX>\n<A>\n</A></OFX>".toList =
          XML_HEADER ++ '\n' :: (XML_OFX_HEADER ++ '\n' ::
            trimmedBody "junk\nOFXHEADER:100 <OFX>\n<A>\n</A></OFX>".toList) ∧
        suffixFromFirst OFX_MARKER "junk\nOFXHEADER:100 <OFX>\n<A>\n</A></OFX>".toList <:+
          "junk\nOFXHEADER:100 <OFX>\n<A>\n</A></OFX>".toList ∧
        OFX_MARKER <+:
          suffixFromFirst OFX_MARKER "junk\nOFXHEADER:100 <OFX>\n<A>\n</A></OFX>".toList) :=
  ⟨by decide, polishedText_trimmed "junk\nOFXHEADER:100 <OFX>\n<A>\n</A></OFX>".toList
    (by decide) ⟨"junk\nOFXHEADER:100 ".toList, "\n<A>\n</A></OFX>".toList, by decide⟩⟩

/-! ## The path loop -/

theorem isElementNamed_element (c : XMLNode) (a : List Char)
    (h : c.isElementNamed a = true) : ∃ ch, c = .element a ch := by
  cases c with
  | element n ch =>
    simp only [XMLNode.isElementNamed, beq_iff_eq] at h
    exact ⟨ch, by rw [h]⟩
  | text f r => simp [XMLNode.isElementNamed] at h

theorem FirstChildElement_mapFirst_same (a : List Char) (f : XMLNode → XMLNode)
    (hf : ∀ ch, ∃ ch', f (.element a ch) = .element a ch') :
    ∀ t, FirstChildElement (mapFirstChildElement a f t) a =
      (FirstChildElement t a).map f := by
  intro t
  induction t with
  | nil => rfl
  | cons c cs ih =>
    unfold FirstChildElement at ih ⊢
    by_cases hc : c.isElementNamed a = true
    · obtain ⟨ch, rfl⟩ := isElementNamed_element c a hc
      obtain ⟨ch', hch⟩ := hf ch
      have h2 : (f (.element a ch)).isElementNamed a = true := by
        rw [hch]
        simp [XMLNode.isElementNamed]
      simp only [mapFirstChildElement, hc, if_true, List.find?_cons, h2, Option.map_some']
    · have hc2 : c.isElementNamed a = false := Bool.eq_false_iff.2 hc
      simp only [mapFirstChildElement, hc2, Bool.false_eq_true, if_false, List.find?_cons]
      exact ih

theorem FirstChildElement_mapFirst_other (a b : List Char) (hab : a ≠ b)
    (f : XMLNode → XMLNode) (hf : ∀ ch, ∃ ch', f (.element a ch) = .element a ch') :
    ∀ t, FirstChildElement (mapFirstChildElement a f t) b = FirstChildElement t b := by
  intro t
  induction t with
  | nil => rfl
  | cons c cs ih =>
    unfold FirstChildElement at ih ⊢
    by_cases hc : c.isElementNamed a = true
    · obtain ⟨ch, rfl⟩ := isElementNamed_element c a hc
      obtain ⟨ch', hch⟩ := hf ch
      have hne : (a == b) = false := by simpa using hab
      have e : mapFirstChildElement a f (XMLNode.element a ch :: cs) =
          XMLNode.element a ch' :: cs := by
        simp only [mapFirstChildElement, hc, if_true, hch]
      rw [e]
      simp only [List.find?_cons, XMLNode.isElementNamed, hne]
    · have hc2 : c.isElementNamed a = false := Bool.eq_false_iff.2 hc
      simp only [mapFirstChildElement, hc2, Bool.false_eq_true, if_false, List.find?_cons]
      rw [ih]

theorem resolvePath_congr (b : List Char) (q : List (List Char)) (x y : List XMLNode)
    (h : FirstChildElement x b = FirstChildElement y b) :
    resolvePath (b :: q) x = resolvePath (b :: q) y := by
  cases q <;> simp only [resolvePath, h]

theorem firstMissing_congr (b : List Char) (q : List (List Char)) (x y : List XMLNode)
    (h : FirstChildElement x b = FirstChildElement y b) :
    firstMissing (b :: q) x = firstMissing (b :: q) y := by
  simp only [firstMissing, h]

theorem resolvePath_pruneAlongPath (d : Bool) : ∀ (p : List (List Char)) (t : List XMLNode),
    resolvePath p (pruneAlongPath d p t) = (resolvePath p t).map (PruneSTMTTRN d) := by
  intro p
  induction p with
  | nil => intro t; rfl
  | cons a r ih =>
    intro t
    cases r with
    | nil =>
      simp only [resolvePath, pruneAlongPath]
      exact FirstChildElement_mapFirst_same a _ (fun ch => ⟨_, rfl⟩) t
    | cons b r =>
      simp only [resolvePath, pruneAlongPath]
      rw [FirstChildElement_mapFirst_same a _ (fun ch => ⟨_, rfl⟩) t]
      cases FirstChildElement t a with
      | none => rfl
      | some c =>
        simp only [Option.map_some', XMLNode.children]
        exact ih c.children

theorem FirstChildElement_pruneAlongPath_other (d : Bool) (b b' : List Char) (hb : b ≠ b')
    (r : List (List Char)) (cs : List XMLNode) :
    FirstChildElement (pruneAlongPath d (b :: r) cs) b' = FirstChildElement cs b' := by
  cases r with
  | nil =>
    simp only [pruneAlongPath]
    exact FirstChildElement_mapFirst_other b b' hb _ (fun ch => ⟨_, rfl⟩) cs
  | cons c r =>
    simp only [pruneAlongPath]
    exact FirstChildElement_mapFirst_other b b' hb _ (fun ch => ⟨_, rfl⟩) cs

theorem resolvePath_cons_cons (a b : List Char) (q : List (List Char)) (x : List XMLNode) :
    resolvePath (a :: b :: q) x =
      (FirstChildElement x a).elim none (fun c => resolvePath (b :: q) c.children) := by
  simp only [resolvePath]
  cases FirstChildElement x a <;> rfl

theorem firstMissing_cons (a : List Char) (q : List (List Char)) (x : List XMLNode) :
    firstMissing (a :: q) x =
      (FirstChildElement x a).elim (some a) (fun c => firstMissing q c.children) := by
  simp only [firstMissing]
  cases FirstChildElement x a <;> rfl

theorem pruneAlongPath_other (d : Bool) (a b b' : List Char) (hb : b ≠ b')
    (r q : List (List Char)) (t : List XMLNode) :
    resolvePath (a :: b' :: q) (pruneAlongPath d (a :: b :: r) t) =
        resolvePath (a :: b' :: q) t ∧
      firstMissing (a :: b' :: q) (pruneAlongPath d (a :: b :: r) t) =
        firstMissing (a :: b' :: q) t := by
  have hp : pruneAlongPath d (a :: b :: r) t = mapFirstChildElement a
      (fun c => .element c.Value (pruneAlongPath d (b :: r) c.children)) t := rfl
  rw [resolvePath_cons_cons, resolvePath_cons_cons, firstMissing_cons a, firstMissing_cons a,
    hp, FirstChildElement_mapFirst_same a _ (fun ch => ⟨_, rfl⟩) t]
  cases FirstChildElement t a with
  | none => exact ⟨rfl, rfl⟩
  | some c =>
    have h := FirstChildElement_pruneAlongPath_other d b b' hb r c.children
    simp only [Option.map_some', Option.elim]
    exact ⟨resolvePath_congr b' q _ _ h, firstMissing_congr b' q _ _ h⟩

theorem firstMissing_none (p : List (List Char)) (hp : p ≠ []) :
    ∀ t : List XMLNode, firstMissing p t = none → ∃ n, resolvePath p t = some n := by
  induction p with
  | nil => exact absurd rfl hp
  | cons a r ih =>
    intro t h
    cases r with
    | nil =>
      simp only [firstMissing, resolvePath] at h ⊢
      cases hc : FirstChildElement t a with
      | none => rw [hc] at h; cases h
      | some c => exact ⟨c, rfl⟩
    | cons b r =>
      simp only [firstMissing, resolvePath] at h ⊢
      cases hc : FirstChildElement t a with
      | none => rw [hc] at h; cases h
      | some c =>
        rw [hc] at h
        exact ih (by simp) c.children h

theorem pruneStatementType_own (d : Bool) (state : List Message × List XMLNode)
    (T : List Char) (h : TYPE_TO_BANKTRANLIST_MAP T ≠ []) :
    (pruneStatementType d state T).1 = state.1 ++
        ((firstMissing (TYPE_TO_BANKTRANLIST_MAP T) state.2).map
          (Message.notModifying T)).toList ∧
      (∀ seg, firstMissing (TYPE_TO_BANKTRANLIST_MAP T) state.2 = some seg →
        (pruneStatementType d state T).2 = state.2) ∧
      (firstMissing (TYPE_TO_BANKTRANLIST_MAP T) state.2 = none →
        (pruneStatementType d state T).2 =
          pruneAlongPath d (TYPE_TO_BANKTRANLIST_MAP T) state.2) := by
  have hl : ¬ (TYPE_TO_BANKTRANLIST_MAP T).length = 0 :=
    fun e => h (List.length_eq_zero.1 e)
  unfold pruneStatementType
  rw [if_neg hl]
  cases firstMissing (TYPE_TO_BANKTRANLIST_MAP T) state.2 with
  | none => exact ⟨by simp, fun seg hs => Option.noConfusion hs, fun _ => rfl⟩
  | some seg => exact ⟨by simp, fun _ _ => rfl, fun hs => Option.noConfusion hs⟩

theorem pruneStatementType_other (d : Bool) (state : List Message × List XMLNode)
    (T a b b' : List Char) (r q : List (List Char))
    (hT : TYPE_TO_BANKTRANLIST_MAP T = a :: b :: r) (hb : b ≠ b') :
    resolvePath (a :: b' :: q) (pruneStatementType d state T).2 =
        resolvePath (a :: b' :: q) state.2 ∧
      firstMissing (a :: b' :: q) (pruneStatementType d state T).2 =
        firstMissing (a :: b' :: q) state.2 := by
  have own := pruneStatementType_own d state T (by rw [hT]; simp)
  cases hf : firstMissing (TYPE_TO_BANKTRANLIST_MAP T) state.2 with
  | some seg =>
    rw [own.2.1 seg hf]
    exact ⟨rfl, rfl⟩
  | none =>
    rw [own.2.2 hf, hT]
    exact pruneAlongPath_other d a b b' hb r q state.2

theorem foldl_pruneStatementType_spec (d : Bool) (a : List Char) :
    ∀ (types : List (List Char)) (state : List Message × List XMLNode),
      types.Nodup → (∀ T ∈ types, ∃ r, TYPE_TO_BANKTRANLIST_MAP T = a :: T :: r) →
      (types.foldl (pruneStatementType d) state).1 = state.1 ++ types.filterMap
          (fun T => (firstMissing (TYPE_TO_BANKTRANLIST_MAP T) state.2).map
            (Message.notModifying T)) ∧
      (∀ T ∈ types,
        (∀ seg, firstMissing (TYPE_TO_BANKTRANLIST_MAP T) state.2 = some seg →
          resolvePath [a, T] (types.foldl (pruneStatementType d) state).2 =
            resolvePath [a, T] state.2) ∧
        (firstMissing (TYPE_TO_BANKTRANLIST_MAP T) state.2 = none →
          resolvePath (TYPE_TO_BANKTRANLIST_MAP T)
              (types.foldl (pruneStatementType d) state).2 =
            (resolvePath (TYPE_TO_BANKTRANLIST_MAP T) state.2).map (PruneSTMTTRN d))) ∧
      (∀ T', T' ∉ types → ∀ q,
        resolvePath (a :: T' :: q) (types.foldl (pruneStatementType d) state).2 =
            resolvePath (a :: T' :: q) state.2 ∧
          firstMissing (a :: T' :: q) (types.foldl (pruneStatementType d) state).2 =
            firstMissing (a :: T' :: q) state.2) := by
  intro types
  induction types with
  | nil => intro state _ _; simp
  | cons T ts ih =>
    intro state hnd hmap
    obtain ⟨r, hT⟩ := hmap T (List.mem_cons_self _ _)
    have hTts : T ∉ ts := (List.nodup_cons.1 hnd).1
    have own := pruneStatementType_own d state T (by rw [hT]; simp)
    have other := fun (T' : List Char) (hne : T ≠ T') (q : List (List Char)) =>
      pruneStatementType_other d state T a T T' r q hT hne
    obtain ⟨ih1, ih2, ih3⟩ := ih (pruneStatementType d state T) (List.nodup_cons.1 hnd).2
      (fun T' h' => hmap T' (List.mem_cons_of_mem _ h'))
    simp only [List.foldl_cons]
    refine ⟨?_, ?_, ?_⟩
    · rw [ih1, own.1, List.filterMap_cons]
      have hcongr : ts.filterMap
            (fun T' => (firstMissing (TYPE_TO_BANKTRANLIST_MAP T')
              (pruneStatementType d state T).2).map (Message.notModifying T')) =
          ts.filterMap
            (fun T' => (firstMissing (TYPE_TO_BANKTRANLIST_MAP T') state.2).map
              (Message.notModifying T')) := by
        apply List.filterMap_congr
        intro T' hT'
        obtain ⟨r', hT'map⟩ := hmap T' (List.mem_cons_of_mem _ hT')
        have hne : T ≠ T' := fun e => hTts (e ▸ hT')
        rw [hT'map, (other T' hne r').2]
      rw [hcongr]
      cases firstMissing (TYPE_TO_BANKTRANLIST_MAP T) state.2 <;> simp
    · intro T' hT'
      by_cases e : T' = T
      · rw [e]
        constructor
        · intro seg hs
          rw [(ih3 T hTts []).1, own.2.1 seg hs]
        · intro hn
          rw [hT, (ih3 T hTts r).1, own.2.2 hn, hT]
          exact resolvePath_pruneAlongPath d _ _
      · have hmem : T' ∈ ts := by
          rcases List.mem_cons.1 hT' with h | h
          · exact absurd h e
          · exact h
        obtain ⟨r', hT'map⟩ := hmap T' hT'
        have hne : T ≠ T' := fun h => e h.symm
        have o1 := other T' hne r'
        have o2 := other T' hne []
        have i2 := ih2 T' hmem
        rw [hT'map] at i2 ⊢
        rw [o1.2, o1.1, o2.1] at i2
        exact i2
    · intro T' hT' q
      have hne : T ≠ T' := fun e => hT' (e ▸ List.mem_cons_self _ _)
      have hnts : T' ∉ ts := fun h => hT' (List.mem_cons_of_mem _ h)
      have o := other T' hne q
      have i3 := ih3 T' hnts q
      exact ⟨i3.1.trans o.1, i3.2.trans o.2⟩

theorem statementTypes_nodup (doc : List XMLNode) :
    (statementTypes doc).Nodup ∧
      ∀ T ∈ statementTypes doc, ∃ r, TYPE_TO_BANKTRANLIST_MAP T = "OFX".toList :: T :: r := by
  simp only [statementTypes]
  split_ifs
  all_goals refine ⟨by decide, ?_⟩
  all_goals intro T hT
  all_goals simp only [List.append_nil, List.nil_append, List.cons_append, List.mem_cons,
    List.mem_singleton, List.not_mem_nil, or_false] at hT
  · rcases hT with rfl | rfl
    · exact ⟨_, rfl⟩
    · exact ⟨_, rfl⟩
  · subst hT
    exact ⟨_, rfl⟩
  · subst hT
    exact ⟨_, rfl⟩

/-- C12: in the path loop of `ConvertInputToOFX` (reached when the `OFX` root
and at least one statement type were found), the call ends in success with the
printed document `doc'`; the warnings shown are exactly one for each detected
type whose path has a missing segment; for such a type the subtree of the type
is in `doc'` as it was parsed, and for a detected type whose whole path
resolves there is no warning and the element at the end of its path is, in
`doc'`, the `BANKTRANLIST` as parsed with `PruneSTMTTRN` applied to it, whatever
happened for the other type. -/
theorem path_resolution (lib : XMLLibrary) (d : Bool) (s inxml : List Char)
    (msgs : List Message) (doc : List XMLNode) (htypes : statementTypes doc ≠ []) :
    ∃ doc', (convertParsed lib d s inxml msgs doc).result =
        .succeeded (normalizeLineEndings (lib.Print doc')) ∧
      (convertParsed lib d s inxml msgs doc).messages =
        msgs ++ pathWarnings doc ++
          (if s = normalizeLineEndings (lib.Print doc') then [Message.nothingChanged]
            else []) ∧
      ∀ type ∈ statementTypes doc,
        (∀ segment, firstMissing (TYPE_TO_BANKTRANLIST_MAP type) doc = some segment →
          Message.notModifying type segment ∈ pathWarnings doc ∧
          resolvePath ["OFX".toList, type] doc' = resolvePath ["OFX".toList, type] doc) ∧
        (firstMissing (TYPE_TO_BANKTRANLIST_MAP type) doc = none →
          (∀ segment, Message.notModifying type segment ∉ pathWarnings doc) ∧
          ∃ banktranlist,
            resolvePath (TYPE_TO_BANKTRANLIST_MAP type) doc = some banktranlist ∧
            resolvePath (TYPE_TO_BANKTRANLIST_MAP type) doc' =
              some (PruneSTMTTRN d banktranlist)) := by
  have hroot : ∃ ofx, FirstChildElement doc "OFX".toList = some ofx := by
    cases h : FirstChildElement doc "OFX".toList with
    | none =>
      exfalso
      apply htypes
      unfold statementTypes
      rw [h]
      rfl
    | some ofx => exact ⟨ofx, rfl⟩
  obtain ⟨ofx, hofx⟩ := hroot
  have hlen : ¬ (statementTypes doc).length = 0 :=
    fun e => htypes (List.length_eq_zero.1 e)
  obtain ⟨hnd, hmap⟩ := statementTypes_nodup doc
  obtain ⟨h1, h2, _⟩ := foldl_pruneStatementType_spec d "OFX".toList (statementTypes doc)
    (msgs, doc) hnd hmap
  have hout : convertParsed lib d s inxml msgs doc =
      ⟨if s = normalizeLineEndings (lib.Print
          ((statementTypes doc).foldl (pruneStatementType d) (msgs, doc)).2) then
          ((statementTypes doc).foldl (pruneStatementType d) (msgs, doc)).1 ++
            [.nothingChanged]
        else ((statementTypes doc).foldl (pruneStatementType d) (msgs, doc)).1,
        .succeeded (normalizeLineEndings (lib.Print
          ((statementTypes doc).foldl (pruneStatementType d) (msgs, doc)).2))⟩ := by
    unfold convertParsed
    rw [hofx]
    simp only []
    rw [if_neg hlen]
  refine ⟨((statementTypes doc).foldl (pruneStatementType d) (msgs, doc)).2, ?_, ?_, ?_⟩
  · rw [hout]
  · rw [hout]
    simp only []
    rw [h1]
    by_cases hs : s = normalizeLineEndings (lib.Print
        ((statementTypes doc).foldl (pruneStatementType d) (msgs, doc)).2)
    · rw [if_pos hs, if_pos hs]
      rfl
    · rw [if_neg hs, if_neg hs]
      simp [pathWarnings]
  · intro type ht
    obtain ⟨r, hr⟩ := hmap type ht
    constructor
    · intro segment hseg
      refine ⟨?_, (h2 type ht).1 segment hseg⟩
      unfold pathWarnings
      exact List.mem_filterMap.2 ⟨type, ht, by rw [hseg]; rfl⟩
    · intro hnone
      constructor
      · intro segment hmem
        unfold pathWarnings at hmem
        obtain ⟨T, _, hT⟩ := List.mem_filterMap.1 hmem
        cases hfm : firstMissing (TYPE_TO_BANKTRANLIST_MAP T) doc with
        | none =>
          rw [hfm] at hT
          cases hT
        | some seg =>
          rw [hfm] at hT
          simp only [Option.map_some', Option.some.injEq, Message.notModifying.injEq] at hT
          rw [hT.1, hnone] at hfm
          cases hfm
      · obtain ⟨n, hn⟩ := firstMissing_none (TYPE_TO_BANKTRANLIST_MAP type)
          (by rw [hr]; simp) doc hnone
        refine ⟨n, hn, ?_⟩
        have h3 := (h2 type ht).2 hnone
        simp only [hn, Option.map_some'] at h3
        exact h3

set_option maxRecDepth 100000 in
theorem path_resolution_witness :
    (statementTypes exampleDocument ≠ [] ∧
        pathWarnings exampleDocument =
          [Message.notModifying "BANKMSGSRSV1".toList "STMTRS".toList] ∧
        firstMissing (TYPE_TO_BANKTRANLIST_MAP "CREDITCARDMSGSRSV1".toList)
          exampleDocument = none) ∧
      ∃ doc', (convertParsed exampleLibrary true [] [] [] exampleDocument).result =
          .succeeded (normalizeLineEndings (exampleLibrary.Print doc')) ∧
        (convertParsed exampleLibrary true [] [] [] exampleDocument).messages =
          [] ++ pathWarnings exampleDocument ++
            (if [] = normalizeLineEndings (exampleLibrary.Print doc') then
              [Message.nothingChanged] else []) ∧
        ∀ type ∈ statementTypes exampleDocument,
          (∀ segment,
            firstMissing (TYPE_TO_BANKTRANLIST_MAP type) exampleDocument = some segment →
            Message.notModifying type segment ∈ pathWarnings exampleDocument ∧
            resolvePath ["OFX".toList, type] doc' =
              resolvePath ["OFX".toList, type] exampleDocument) ∧
          (firstMissing (TYPE_TO_BANKTRANLIST_MAP type) exampleDocument = none →
            (∀ segment, Message.notModifying type segment ∉ pathWarnings exampleDocument) ∧
            ∃ banktranlist,
              resolvePath (TYPE_TO_BANKTRANLIST_MAP type) exampleDocument =
                some banktranlist ∧
              resolvePath (TYPE_TO_BANKTRANLIST_MAP type) doc' =
                some (PruneSTMTTRN true banktranlist)) :=
  ⟨by decide, path_resolution exampleLibrary true [] [] [] exampleDocument (by decide)⟩

/-! ## Values as `FixXML` writes them -/

/-- C22: the value `x` followed by a tab is written with the tab, because the
`<` branch erases trailing spaces only (`find_last_not_of(" ")`): the value
written ends in a whitespace character. A trailing space is erased. -/
theorem FixXML_keeps_trailing_tab :
    FixXML "<a>x\t</a>".toList = .repaired "<a>x\t</a>".toList ∧
      isspace '\t' = true ∧
      FixXML "<a>x </a>".toList = .repaired "<a>x</a>".toList := by
  decide

/-- C21 as stated fails: for the input `<a>x </a>` the value written is `x`,
not the input value with its leading whitespace, carriage returns and line
feeds removed, which is `x` followed by a space. -/
theorem FixXML_value_loses_trailing_space :
    FixXML "<a>x </a>".toList = .repaired "<a>x</a>".toList ∧
      specValue "x ".toList = "x ".toList ∧
      "<a>x</a>".toList ≠ "<a>".toList ++ specValue "x ".toList ++ "</a>".toList := by
  decide

/-! ## What one `>` writes -/

theorem unwind_normal (tagRaw : List Char) (rest : List (List Char)) :
    ∀ (top fx v fx' v' : List Char) (stack' : List (List Char)),
      unwind tagRaw rest (openRawValue top) fx v = .ok (fx', v', stack') →
      ∃ closed matched, top :: rest = closed ++ matched :: stack' ∧
        openRawValue matched = tagRaw ∧
        (∀ p ∈ closed, openRawValue p ≠ tagRaw) ∧
        ∀ t, fx' ++ (v' ++ t) = fx ++ (v ++ (synthClosings closed ++ t)) := by
  induction rest with
  | nil =>
    intro top fx v fx' v' stack' h
    unfold unwind at h
    split_ifs at h with hne
    simp only [Except.ok.injEq, Prod.mk.injEq] at h
    obtain ⟨rfl, rfl, rfl⟩ := h
    exact ⟨[], top, rfl, by simpa using hne, by simp, by simp [synthClosings]⟩
  | cons r rest ih =>
    intro top fx v fx' v' stack' h
    unfold unwind at h
    split_ifs at h with hne
    · obtain ⟨closed, matched, h1, h2, h3, h4⟩ := ih r _ _ _ _ _ h
      refine ⟨top :: closed, matched, by rw [h1]; rfl, h2, ?_, ?_⟩
      · intro p hp
        rcases List.mem_cons.1 hp with rfl | hp
        · exact hne
        · exact h3 p hp
      · intro t
        rw [h4 t]
        simp [synthClosings]
    · simp only [Except.ok.injEq, Prod.mk.injEq] at h
      obtain ⟨rfl, rfl, rfl⟩ := h
      exact ⟨[], top, rfl, by simpa using hne, by simp, by simp [synthClosings]⟩

/-- Whatever branch a `>` takes, it writes the pending value, the closing tags
synthesized for the entries popped from the stack, and the tag. -/
theorem fixCloseBracket_normal (st st' : FixState) (t : List Char)
    (h : fixCloseBracket st t = .next st') :
    ∃ closed rest, st.tagStack = closed ++ rest ∧
      st'.fixedXML = st.fixedXML ++ (st.value ++ (synthClosings closed ++ t)) ∧
      st'.tag = [] ∧ st'.value = [] ∧ st'.processTag = false ∧
      ((isClosingTag t = true ∧
          (∃ matched, rest = matched :: st'.tagStack ∧
            openRawValue matched = closingRawValue t) ∧
          ∀ p ∈ closed, openRawValue p ≠ closingRawValue t) ∨
        (isClosingTag t = false ∧ isSelfContainedTag t = true ∧ closed = [] ∧
          st'.tagStack = rest) ∨
        (isClosingTag t = false ∧ isSelfContainedTag t = false ∧
          st'.tagStack = t :: rest ∧ (closed = [] ↔ st.value = []) ∧
          closed.length ≤ 1)) := by
  obtain ⟨fx, tg, v, pt, S⟩ := st
  unfold fixCloseBracket at h
  by_cases hc : isClosingTag t = true
  · simp only [hc, if_true] at h
    cases S with
    | nil => simp at h
    | cons top rest0 =>
      simp only at h
      cases hu : unwind (closingRawValue t) rest0 (openRawValue top) fx v with
      | error e => rw [hu] at h; simp at h
      | ok r =>
        obtain ⟨fx', v', stack'⟩ := r
        rw [hu] at h
        simp only [Step.next.injEq] at h
        subst h
        obtain ⟨closed, matched, h1, h2, h3, h4⟩ :=
          unwind_normal _ rest0 top fx v fx' v' stack' hu
        exact ⟨closed, matched :: stack', h1, h4 t, rfl, rfl, rfl,
          Or.inl ⟨hc, ⟨matched, rfl, h2⟩, h3⟩⟩
  · have hc' : isClosingTag t = false := Bool.eq_false_iff.2 hc
    simp only [hc', Bool.false_eq_true, if_false] at h
    by_cases hs : isSelfContainedTag t = true
    · simp only [hs, if_true, Step.next.injEq] at h
      subst h
      exact ⟨[], S, rfl, by simp [synthClosings], rfl, rfl, rfl,
        Or.inr (Or.inl ⟨hc', hs, rfl, rfl⟩)⟩
    · have hs' : isSelfContainedTag t = false := Bool.eq_false_iff.2 hs
      simp only [hs', Bool.false_eq_true, if_false] at h
      by_cases hl : v.length > 0
      · simp only [hl, if_true] at h
        cases S with
        | nil => simp at h
        | cons top rest0 =>
          simp only [Step.next.injEq] at h
          subst h
          have hv : v ≠ [] := by
            intro e
            rw [e] at hl
            simp at hl
          exact ⟨[top], rest0, rfl, by simp [synthClosings], rfl, rfl, rfl,
            Or.inr (Or.inr ⟨hc', hs', rfl, by simp [hv], by simp⟩)⟩
      · simp only [hl, if_false, Step.next.injEq] at h
        subst h
        have hv : v = [] := by
          cases v with
          | nil => rfl
          | cons a b => simp at hl
        exact ⟨[], S, rfl, by simp [synthClosings, hv], rfl, rfl, rfl,
          Or.inr (Or.inr ⟨hc', hs', rfl, by simp [hv], by simp⟩)⟩

/-! ## Trimming at a tag -/

theorem eraseTrailingSpaces_initial (v : List Char) : eraseTrailingSpaces v <+: v := by
  unfold eraseTrailingSpaces
  have h := List.dropWhile_suffix (fun c => c == ' ') (l := v.reverse)
  have h2 := List.reverse_prefix.2 h
  rwa [List.reverse_reverse] at h2

theorem eraseTrailingSpaces_getLast (v : List Char) :
    (eraseTrailingSpaces v).getLast? ≠ some ' ' := by
  unfold eraseTrailingSpaces
  rw [List.getLast?_reverse]
  have h := List.head?_dropWhile_not (fun c => c == ' ') v.reverse
  intro e
  rw [e] at h
  simp at h

theorem trimAtTag_initial (v : List Char) : trimAtTag v <+: v := by
  unfold trimAtTag
  split_ifs
  · exact eraseTrailingSpaces_initial v
  · exact List.prefix_refl v

theorem trimAtTag_idem (v : List Char) : trimAtTag (trimAtTag v) = trimAtTag v := by
  unfold trimAtTag
  by_cases h : v.length > 1
  · simp only [h, if_true]
    split_ifs
    · exact eraseTrailingSpaces_of_getLast _ (eraseTrailingSpaces_getLast v)
    · rfl
  · simp only [h, if_false]

theorem trimAtTag_nil : trimAtTag [] = [] := rfl

/-! ## The shape of the state throughout the scan -/

theorem ScanInv_tagShape (st : FixState) (inv : ScanInv st) :
    TagShape (st.tag ++ ['>']) := by
  rcases inv.tag_shape with ⟨h0, _⟩ | ⟨body, hb, h0, _⟩
  · rw [h0]; exact Or.inl rfl
  · rw [h0]; exact Or.inr ⟨body, hb, rfl⟩

theorem fixCloseBracket_scanInv (st st' : FixState) (t : List Char) (ht : TagShape t)
    (inv : ScanInv st) (h : fixCloseBracket st t = .next st') : ScanInv st' := by
  obtain ⟨closed, rest, hS, _, htg, hv, hpt, hcase⟩ := fixCloseBracket_normal st st' t h
  have hrest : ∀ p ∈ rest,
      TagShape p ∧ isClosingTag p = false ∧ isSelfContainedTag p = false := by
    intro p hp
    exact inv.stack_shape p (by rw [hS]; exact List.mem_append_right _ hp)
  refine ⟨by rw [hv]; simp, by rw [hv]; simp, Or.inl ⟨htg, hpt⟩, ?_⟩
  rcases hcase with ⟨_, ⟨matched, hm, _⟩, _⟩ | ⟨_, _, _, hst⟩ | ⟨hc, hs, hst, _, _⟩
  · intro p hp
    exact hrest p (by rw [hm]; exact List.mem_cons_of_mem _ hp)
  · rw [hst]
    exact hrest
  · rw [hst]
    intro p hp
    rcases List.mem_cons.1 hp with rfl | hp
    · exact ⟨ht, hc, hs⟩
    · exact hrest p hp

theorem fixStep_scanInv (c : Char) (st st' : FixState) (inv : ScanInv st)
    (h : fixStep c st = .next st') : ScanInv st' := by
  unfold fixStep at h
  by_cases hgt : c = '>'
  · subst hgt
    simp only [if_true] at h
    exact fixCloseBracket_scanInv st st' _ (ScanInv_tagShape st inv) inv h
  · simp only [hgt, if_false] at h
    by_cases hlt : c = '<'
    · subst hlt
      simp only [if_true] at h
      by_cases h0 : st.tag.length = 0
      · rw [if_pos h0] at h
        simp only [Step.next.injEq] at h
        subst h
        have ht0 : st.tag = [] := List.length_eq_zero.1 h0
        have hpre := trimAtTag_initial st.value
        refine ⟨?_, ?_, Or.inr ⟨[], bracketFree_nil, by simp [ht0], rfl, ?_⟩,
          inv.stack_shape⟩
        · intro d hd
          exact inv.value_chars d (hpre.subset hd)
        · intro d ds hd
          obtain ⟨r, hr⟩ := hpre
          have hd2 : trimAtTag st.value = d :: ds := hd
          rw [hd2] at hr
          exact inv.value_head d (ds ++ r) (by rw [← hr]; rfl)
        · exact trimAtTag_idem st.value
      · rw [if_neg h0] at h
        cases h
    · simp only [hlt, if_false] at h
      split_ifs at h with hp hsp hnl
      · simp only [Step.next.injEq] at h
        subst h
        rcases inv.tag_shape with ⟨_, h1⟩ | ⟨body, hb, h0, _, htrim⟩
        · rw [h1] at hp; cases hp
        · exact ⟨inv.value_chars, inv.value_head,
            Or.inr ⟨body ++ [c], bracketFree_append_singleton body c hb hlt hgt,
              by simp [h0], hp, htrim⟩, inv.stack_shape⟩
      · simp only [Step.next.injEq] at h
        subst h
        exact inv
      · simp only [Step.next.injEq] at h
        subst h
        exact inv
      · simp only [Step.next.injEq] at h
        subst h
        have hnl2 : c ≠ '\r' ∧ c ≠ '\n' := by
          constructor
          · exact fun e => hnl (Or.inl e)
          · exact fun e => hnl (Or.inr e)
        refine ⟨?_, ?_, ?_, inv.stack_shape⟩
        · intro d hd
          rcases List.mem_append.1 hd with hd | hd
          · exact inv.value_chars d hd
          · rw [List.mem_singleton] at hd
            subst hd
            exact ⟨hlt, hgt, hnl2.1, hnl2.2⟩
        · intro d ds hd
          cases hv : st.value with
          | nil =>
            have hd2 : st.value ++ [c] = d :: ds := hd
            rw [hv] at hd2
            simp only [List.nil_append, List.cons.injEq] at hd2
            rw [← hd2.1]
            have : (decide (st.value.length = 0) && isspace c) = false :=
              Bool.eq_false_iff.2 hsp
            rw [hv] at this
            simpa using this
          | cons a as =>
            have hd2 : st.value ++ [c] = d :: ds := hd
            rw [hv] at hd2
            simp only [List.cons_append, List.cons.injEq] at hd2
            rw [← hd2.1]
            exact inv.value_head a as hv
        · rcases inv.tag_shape with h1 | ⟨body, hb, h0, h1, _⟩
          · exact Or.inl h1
          · rw [h1] at hp; exact absurd rfl hp

theorem ScanInv_init : ScanInv FixState.init :=
  ⟨fun c hc => absurd hc (List.not_mem_nil c), fun _ _ h => List.noConfusion h,
    Or.inl ⟨rfl, rfl⟩, fun p hp => absurd hp (List.not_mem_nil p)⟩

theorem fixScan_scanInv (pre : List Char) : ∀ (st st' : FixState), ScanInv st →
    fixScan pre st = .next st' → ScanInv st' := by
  induction pre with
  | nil =>
    intro st st' inv h
    simp only [fixScan, Step.next.injEq] at h
    subst h
    exact inv
  | cons c cs ih =>
    intro st st' inv h
    simp only [fixScan] at h
    cases hs : fixStep c st with
    | next st1 =>
      rw [hs] at h
      exact ih st1 st' (fixStep_scanInv c st st1 inv hs) h
    | done r =>
      rw [hs] at h
      cases h

/-! ## Tools for properties kept by the scan -/

theorem fixStep_other (c : Char) (hc : c ≠ '>') (st st' : FixState)
    (h : fixStep c st = .next st') :
    st'.fixedXML = st.fixedXML ∧ st'.tagStack = st.tagStack := by
  unfold fixStep at h
  rw [if_neg hc] at h
  repeat' split at h
  all_goals simp only [Step.next.injEq, reduceCtorEq] at h
  all_goals subst h
  all_goals exact ⟨rfl, rfl⟩

theorem fixStep_bracket (st st' : FixState) (h : fixStep '>' st = .next st') :
    fixCloseBracket st (st.tag ++ ['>']) = .next st' := by
  unfold fixStep at h
  rw [if_pos rfl] at h
  exact h

theorem fixLoop_repaired (input : List Char) : ∀ (st : FixState) (out : List Char),
    fixLoop input st = .repaired out →
    ∃ st', fixScan input st = .next st' ∧ out = closeOut st'.tagStack st'.fixedXML := by
  induction input with
  | nil =>
    intro st out h
    simp only [fixLoop, FixOutcome.repaired.injEq] at h
    exact ⟨st, rfl, h.symm⟩
  | cons c cs ih =>
    intro st out h
    simp only [fixLoop] at h
    cases hs : fixStep c st with
    | next st1 =>
      rw [hs] at h
      obtain ⟨st', h1, h2⟩ := ih st1 out h
      exact ⟨st', by simp only [fixScan, hs, h1], h2⟩
    | done r =>
      rw [hs] at h
      simp only at h
      subst h
      exact absurd hs (fixStep_done_ne_repaired c st out)

theorem fixScan_keeps (I : FixState → Prop)
    (hstep : ∀ c st st', ScanInv st → I st → fixStep c st = .next st' → I st')
    (pre : List Char) : ∀ (st st' : FixState), ScanInv st → I st →
    fixScan pre st = .next st' → I st' := by
  induction pre with
  | nil =>
    intro st st' _ hi h
    simp only [fixScan, Step.next.injEq] at h
    subst h
    exact hi
  | cons c cs ih =>
    intro st st' inv hi h
    simp only [fixScan] at h
    cases hs : fixStep c st with
    | next st1 =>
      rw [hs] at h
      exact ih st1 st' (fixStep_scanInv c st st1 inv hs) (hstep c st st1 inv hi hs) h
    | done r =>
      rw [hs] at h
      cases h

/-! ## The characters outside the tags -/

theorem outsideTags_value (x : List Char) : ∀ v : List Char, bracketFree v →
    outsideTags (v ++ x) false = v ++ outsideTags x false := by
  intro v
  induction v with
  | nil => intro _; rfl
  | cons c cs ih =>
    intro hv
    have hc := hv c (List.mem_cons_self _ _)
    have hcs : bracketFree cs := fun d hd => hv d (List.mem_cons_of_mem _ hd)
    change outsideTags (c :: (cs ++ x)) false = c :: (cs ++ outsideTags x false)
    simp only [outsideTags, if_neg hc.1, if_neg hc.2, Bool.false_eq_true, if_false]
    rw [ih hcs]

theorem outsideTags_body (x : List Char) : ∀ body : List Char, bracketFree body →
    outsideTags (body ++ x) true = outsideTags x true := by
  intro body
  induction body with
  | nil => intro _; rfl
  | cons c cs ih =>
    intro hv
    have hc := hv c (List.mem_cons_self _ _)
    have hcs : bracketFree cs := fun d hd => hv d (List.mem_cons_of_mem _ hd)
    change outsideTags (c :: (cs ++ x)) true = outsideTags x true
    simp only [outsideTags, if_neg hc.1, if_neg hc.2, if_true]
    exact ih hcs

theorem outsideTags_tag (t x : List Char) (ht : TagShape t) :
    outsideTags (t ++ x) false = outsideTags x false := by
  rcases ht with rfl | ⟨body, hb, rfl⟩
  · simp [outsideTags]
  · have h1 : '<' ≠ '>' := by decide
    change outsideTags ('<' :: (body ++ ['>'] ++ x)) false = outsideTags x false
    simp only [outsideTags, if_neg h1, if_true]
    rw [List.append_assoc, outsideTags_body _ body hb]
    simp [outsideTags]

theorem TagShape_synth (p : List Char) (hp : TagShape p) :
    TagShape (closeTagOf (openRawValue p)) :=
  TagShape_closeTagOf _ (bracketFree_openRawValue p hp)

theorem outsideTags_synth (x : List Char) : ∀ closed : List (List Char),
    (∀ p ∈ closed, TagShape p) →
    outsideTags (synthClosings closed ++ x) false = outsideTags x false := by
  intro closed
  induction closed with
  | nil => intro _; rfl
  | cons p ps ih =>
    intro h
    have e : synthClosings (p :: ps) ++ x =
        closeTagOf (openRawValue p) ++ (synthClosings ps ++ x) := by
      simp [synthClosings]
    rw [e, outsideTags_tag _ _ (TagShape_synth p (h p (List.mem_cons_self _ _)))]
    exact ih (fun q hq => h q (List.mem_cons_of_mem _ hq))

theorem fixStep_outside (c : Char) (st st' : FixState) (inv : ScanInv st)
    (hi : ∃ O : List Char, (∀ d ∈ O, d ≠ '\r' ∧ d ≠ '\n') ∧
      ∀ x, outsideTags (st.fixedXML ++ x) false = O ++ outsideTags x false)
    (h : fixStep c st = .next st') :
    ∃ O : List Char, (∀ d ∈ O, d ≠ '\r' ∧ d ≠ '\n') ∧
      ∀ x, outsideTags (st'.fixedXML ++ x) false = O ++ outsideTags x false := by
  by_cases hgt : c = '>'
  · subst hgt
    obtain ⟨O, hO, hx⟩ := hi
    obtain ⟨closed, rest, hS, hfx, _, _, _, _⟩ :=
      fixCloseBracket_normal st st' _ (fixStep_bracket st st' h)
    have hvf : bracketFree st.value := fun d hd =>
      ⟨(inv.value_chars d hd).1, (inv.value_chars d hd).2.1⟩
    have hcl : ∀ p ∈ closed, TagShape p := fun p hp =>
      (inv.stack_shape p (by rw [hS]; exact List.mem_append_left _ hp)).1
    refine ⟨O ++ st.value, ?_, ?_⟩
    · intro d hd
      rcases List.mem_append.1 hd with hd | hd
      · exact hO d hd
      · exact ⟨(inv.value_chars d hd).2.2.1, (inv.value_chars d hd).2.2.2⟩
    · intro x
      have e : st.fixedXML ++ (st.value ++ (synthClosings closed ++ (st.tag ++ ['>']))) ++ x =
          st.fixedXML ++ (st.value ++ (synthClosings closed ++ ((st.tag ++ ['>']) ++ x))) := by
        simp only [List.append_assoc]
      rw [hfx, e, hx, outsideTags_value _ _ hvf, outsideTags_synth _ _ hcl,
        outsideTags_tag _ _ (ScanInv_tagShape st inv), List.append_assoc]
  · rw [(fixStep_other c hgt st st' h).1]
    exact hi

/-- In a repaired document no carriage return and no line feed is outside the
tags. -/
theorem FixXML_outside (s t : List Char) (h : FixXML s = .repaired t) :
    ∀ c ∈ outsideTags t false, c ≠ '\r' ∧ c ≠ '\n' := by
  obtain ⟨st, hscan, ht⟩ := fixLoop_repaired s FixState.init t h
  have inv := fixScan_scanInv s _ st ScanInv_init hscan
  obtain ⟨O, hO, hx⟩ := fixScan_keeps
    (fun st => ∃ O : List Char, (∀ d ∈ O, d ≠ '\r' ∧ d ≠ '\n') ∧
      ∀ x, outsideTags (st.fixedXML ++ x) false = O ++ outsideTags x false)
    fixStep_outside s _ st ScanInv_init ⟨[], by simp, fun x => rfl⟩ hscan
  have hcl : ∀ p ∈ st.tagStack, TagShape p := fun p hp => (inv.stack_shape p hp).1
  have e : outsideTags t false = O := by
    rw [ht, closeOut_eq]
    have h1 := hx (synthClosings st.tagStack ++ [])
    rw [outsideTags_synth _ _ hcl] at h1
    simpa [synthClosings, outsideTags] using h1
  rw [e]
  exact hO

/-! ## The value the scan stores -/

theorem fixStep_valueChar (c : Char) (h1 : c ≠ '<') (h2 : c ≠ '>')
    (fx v0 : List Char) (S : List (List Char)) :
    fixStep c ⟨fx, [], v0, false, S⟩ =
      .next ⟨fx, [],
        if (decide (v0.length = 0) && isspace c) = true then v0
        else if c = '\r' ∨ c = '\n' then v0 else v0 ++ [c],
        false, S⟩ := by
  simp only [fixStep, h1, h2, if_false, Bool.false_eq_true]
  split_ifs <;> rfl

theorem fixScan_value_filter (fx : List Char) (S : List (List Char)) :
    ∀ (v : List Char), bracketFree v → ∀ v0 : List Char, v0 ≠ [] →
      fixScan v ⟨fx, [], v0, false, S⟩ =
        .next ⟨fx, [], v0 ++ v.filter (fun c => c != '\r' && c != '\n'), false, S⟩ := by
  intro v
  induction v with
  | nil => intro _ v0 _; simp [fixScan]
  | cons c cs ih =>
    intro hv v0 h0
    have hc := hv c (List.mem_cons_self _ _)
    have hcs : bracketFree cs := fun d hd => hv d (List.mem_cons_of_mem _ hd)
    have hlen : (decide (v0.length = 0) && isspace c) = false := by
      have : v0.length ≠ 0 := fun e => h0 (List.length_eq_zero.1 e)
      simp [this]
    simp only [fixScan, fixStep_valueChar c hc.1 hc.2, hlen, Bool.false_eq_true, if_false]
    by_cases hnl : c = '\r' ∨ c = '\n'
    · rw [if_pos hnl, ih hcs v0 h0]
      have hf : (c != '\r' && c != '\n') = false := by
        rcases hnl with e | e <;> simp [e]
      simp [List.filter_cons, hf]
    · rw [if_neg hnl, ih hcs (v0 ++ [c]) (by simp)]
      have hf : (c != '\r' && c != '\n') = true := by
        have h1 : c ≠ '\r' := fun e => hnl (Or.inl e)
        have h2 : c ≠ '\n' := fun e => hnl (Or.inr e)
        simp [h1, h2]
      simp [List.filter_cons, hf]

theorem isspace_false (c : Char) (h : isspace c = false) : c ≠ '\r' ∧ c ≠ '\n' := by
  constructor
  · intro e
    rw [e] at h
    revert h
    decide
  · intro e
    rw [e] at h
    revert h
    decide

theorem fixScan_specValue (fx : List Char) (S : List (List Char)) :
    ∀ (v : List Char), bracketFree v →
      fixScan v ⟨fx, [], [], false, S⟩ = .next ⟨fx, [], specValue v, false, S⟩ := by
  intro v
  induction v with
  | nil => intro _; rfl
  | cons c cs ih =>
    intro hv
    have hc := hv c (List.mem_cons_self _ _)
    have hcs : bracketFree cs := fun d hd => hv d (List.mem_cons_of_mem _ hd)
    simp only [fixScan, fixStep_valueChar c hc.1 hc.2]
    by_cases hsp : isspace c = true
    · have e : specValue (c :: cs) = specValue cs := by
        simp [specValue, List.dropWhile_cons, hsp]
      simp only [List.length_nil, decide_True, Bool.true_and, hsp, if_true]
      rw [ih hcs, e]
    · have hsp2 : isspace c = false := Bool.eq_false_iff.2 hsp
      obtain ⟨h1, h2⟩ := isspace_false c hsp2
      have hnl : ¬ (c = '\r' ∨ c = '\n') := by
        rintro (e | e)
        · exact h1 e
        · exact h2 e
      have e : specValue (c :: cs) =
          [c] ++ cs.filter (fun c => c != '\r' && c != '\n') := by
        simp [specValue, List.dropWhile_cons, hsp2, List.filter_cons, h1, h2]
      simp only [List.length_nil, decide_True, Bool.true_and, hsp2, Bool.false_eq_true,
        if_false, if_neg hnl, List.nil_append]
      rw [fixScan_value_filter fx S cs hcs [c] (by simp), e]

theorem synthClosings_cons (p : List Char) (ps : List (List Char)) :
    synthClosings (p :: ps) = closeTagOf (openRawValue p) ++ synthClosings ps := rfl

theorem closeTagOf_cons (raw : List Char) :
    closeTagOf raw = '<' :: ('/' :: (raw ++ ['>'])) := by
  simp [closeTagOf]

theorem diagnosticMessages_spec :
    ∀ msg ∈ diagnosticMessages, bracketFree msg ∧ '\n' ∈ msg := by
  decide

/-- C21 amended: a value that is followed by a tag beginning with `<` is
written as the input value with all leading whitespace removed, every carriage
return and line feed removed (also in the middle of the value) and, when more
than one character is left, the trailing spaces erased; the text written by
that `>` begins with it and goes on with a `<`. For instance the input
`<a> \r\n x\ny</a>` gives `<a>xy</a>`. Consequently no carriage return and no
line feed occurs outside a tag in a repaired document. -/
theorem FixXML_written_value :
    (∀ (st0 st1 : FixState) (v body : List Char),
        st0.tag = [] → st0.value = [] → st0.processTag = false →
        bracketFree v → bracketFree body →
        fixScan (v ++ '<' :: (body ++ ['>'])) st0 = .next st1 →
        ∃ rest, st1.fixedXML =
          st0.fixedXML ++ (trimAtTag (specValue v) ++ '<' :: rest)) ∧
      FixXML "<a> \r\n x\ny</a>".toList = .repaired "<a>xy</a>".toList ∧
      (∀ s t : List Char, FixXML s = .repaired t →
        ∀ c ∈ outsideTags t false, c ≠ '\r' ∧ c ≠ '\n') := by
  refine ⟨?_, by decide, FixXML_outside⟩
  intro st0 st1 v body htg hval hpt hv hb h
  obtain ⟨fx, tg, val, pt, S⟩ := st0
  simp only at htg hval hpt
  subst htg hval hpt
  rw [fixScan_append, fixScan_specValue fx S v hv] at h
  simp only at h
  rw [fixScan_tag body hb] at h
  obtain ⟨closed, rest, _, hfx, _, _, _, _⟩ := fixCloseBracket_normal _ st1 _ h
  cases closed with
  | nil =>
    refine ⟨body ++ ['>'], ?_⟩
    rw [hfx]
    rfl
  | cons p ps =>
    refine ⟨('/' :: (openRawValue p ++ ['>']) ++ synthClosings ps) ++
      '<' :: (body ++ ['>']), ?_⟩
    rw [hfx, synthClosings_cons, closeTagOf_cons]
    rfl

/-- C25: every diagnostic result of `FixXML` begins with one of the three fixed
messages, and no repaired document begins with any of them (each message has a
line feed and no angle bracket, and a repaired document has no line feed
before its first tag). -/
theorem diagnostic_told_apart :
    (∀ s t : List Char, FixXML s = .diagnostic t →
        ∃ msg ∈ diagnosticMessages, msg <+: t) ∧
      (∀ s t : List Char, FixXML s = .repaired t →
        ∀ msg ∈ diagnosticMessages, ¬ msg <+: t) := by
  constructor
  · intro s t h
    obtain ⟨st, _, hd⟩ := (fixLoop_diagnostic_iff s FixState.init t).1 h
    obtain ⟨msg, extra, hm, ht⟩ := fixCloseBracket_diagnostic_text _ _ _ hd
    exact ⟨msg, hm, ⟨st.fixedXML ++ extra, ht.symm⟩⟩
  · intro s t h msg hm hpre
    obtain ⟨r, hr⟩ := hpre
    obtain ⟨hbf, hnl⟩ := diagnosticMessages_spec msg hm
    have hout := FixXML_outside s t h
    rw [← hr, outsideTags_value r msg hbf] at hout
    exact (hout '\n' (List.mem_append_left _ hnl)).2 rfl

/-! ## Scanning again what `FixXML` has written -/

theorem unwind_match (raw : List Char) (S : List (List Char)) (fx v : List Char) :
    unwind raw S raw fx v = .ok (fx, v, S) := by
  cases S <;> simp [unwind]

theorem fixCloseBracket_match (t top fx tg v : List Char) (pt : Bool)
    (S : List (List Char)) (ht : isClosingTag t = true)
    (hm : openRawValue top = closingRawValue t) :
    fixCloseBracket ⟨fx, tg, v, pt, top :: S⟩ t =
      .next ⟨fx ++ (v ++ t), [], [], false, S⟩ := by
  apply fixCloseBracket_closing t top fx tg v fx v pt S S ht
  rw [hm]
  exact unwind_match _ S fx v

theorem fixCloseBracket_self (t fx tg v : List Char) (pt : Bool) (S : List (List Char))
    (hc : isClosingTag t = false) (hs : isSelfContainedTag t = true) :
    fixCloseBracket ⟨fx, tg, v, pt, S⟩ t = .next ⟨fx ++ (v ++ t), [], [], false, S⟩ := by
  unfold fixCloseBracket
  simp only [hc, hs, Bool.false_eq_true, if_false, if_true]

theorem fixCloseBracket_push (t fx tg : List Char) (pt : Bool) (S : List (List Char))
    (hc : isClosingTag t = false) (hs : isSelfContainedTag t = false) :
    fixCloseBracket ⟨fx, tg, [], pt, S⟩ t = .next ⟨fx ++ t, [], [], false, t :: S⟩ := by
  unfold fixCloseBracket
  simp only [hc, hs, Bool.false_eq_true, if_false]
  rfl

/-- Scanning a tag from a state between tokens comes down to the `>` branch on
that tag, the pending value being trimmed unless the tag is a lone `>`. -/
theorem fixScan_tagShape (t : List Char) (ht : TagShape t) (fx v : List Char)
    (S : List (List Char)) (hv : t ≠ ['>'] → trimAtTag v = v) :
    fixScan t ⟨fx, [], v, false, S⟩ = fixCloseBracket ⟨fx, [], v, false, S⟩ t := by
  rcases ht with rfl | ⟨body, hb, rfl⟩
  · rw [fixScan_singleton]
    unfold fixStep
    rw [if_pos rfl]
    rfl
  · rw [fixScan_tag body hb]
    have e : (if v.length > 1 then eraseTrailingSpaces v else v) = v :=
      hv (by simp)
    rw [e]

theorem fixScan_synth_one (p fx v : List Char) (S : List (List Char))
    (hp : TagShape p) (hv : trimAtTag v = v) :
    fixScan (closeTagOf (openRawValue p)) ⟨fx, [], v, false, p :: S⟩ =
      .next ⟨fx ++ (v ++ closeTagOf (openRawValue p)), [], [], false, S⟩ := by
  rw [fixScan_tagShape _ (TagShape_synth p hp) fx v (p :: S) (fun _ => hv)]
  exact fixCloseBracket_match _ p fx [] v false S (isClosingTag_closeTagOf _)
    (closingRawValue_closeTagOf_open p).symm

theorem fixScan_synth (rest : List (List Char)) : ∀ (closed : List (List Char))
    (fx v : List Char), (∀ p ∈ closed, TagShape p) → trimAtTag v = v → closed ≠ [] →
    fixScan (synthClosings closed) ⟨fx, [], v, false, closed ++ rest⟩ =
      .next ⟨fx ++ (v ++ synthClosings closed), [], [], false, rest⟩ := by
  intro closed
  induction closed with
  | nil => intro fx v _ _ h; exact absurd rfl h
  | cons p ps ih =>
    intro fx v hsh hv _
    rw [synthClosings_cons, fixScan_append, List.cons_append,
      fixScan_synth_one p fx v (ps ++ rest) (hsh p (List.mem_cons_self _ _)) hv]
    simp only
    cases ps with
    | nil =>
      simp only [fixScan, synthClosings, List.map_nil, List.flatten_nil, List.nil_append,
        List.append_nil]
    | cons q qs =>
      rw [ih _ [] (fun r hr => hsh r (List.mem_cons_of_mem _ hr)) trimAtTag_nil (by simp)]
      simp only [List.nil_append, List.append_assoc]

theorem stray_classes :
    isClosingTag ['>'] = false ∧ isSelfContainedTag ['>'] = true := by
  decide

theorem fixStep_refix (c : Char) (st st' : FixState) (inv : ScanInv st)
    (hi : fixScan st.fixedXML FixState.init =
      .next ⟨st.fixedXML, [], [], false, st.tagStack⟩)
    (h : fixStep c st = .next st') :
    fixScan st'.fixedXML FixState.init =
      .next ⟨st'.fixedXML, [], [], false, st'.tagStack⟩ := by
  by_cases hgt : c = '>'
  · subst hgt
    have ht := ScanInv_tagShape st inv
    obtain ⟨closed, rest, hS, hfx, _, _, _, hcase⟩ :=
      fixCloseBracket_normal st st' _ (fixStep_bracket st st' h)
    have hcl : ∀ p ∈ closed, TagShape p := fun p hp =>
      (inv.stack_shape p (by rw [hS]; exact List.mem_append_left _ hp)).1
    -- the pending value has been trimmed unless the tag is a lone `>`
    have htrim : st.tag ++ ['>'] ≠ ['>'] → trimAtTag st.value = st.value := by
      intro hne
      rcases inv.tag_shape with ⟨h0, _⟩ | ⟨_, _, _, _, h4⟩
      · rw [h0] at hne
        exact absurd rfl hne
      · exact h4
    have hnotstray : closed ≠ [] → st.tag ++ ['>'] ≠ ['>'] := by
      intro hne e
      rw [e] at hcase
      rcases hcase with ⟨hc, _⟩ | ⟨_, _, h3, _⟩ | ⟨_, hs, _⟩
      · rw [stray_classes.1] at hc
        cases hc
      · exact hne h3
      · rw [stray_classes.2] at hs
        cases hs
    -- the state after the value and the synthesized closing tags
    have hmid : ∃ fx1 v1, fixScan (st.value ++ synthClosings closed)
          ⟨st.fixedXML, [], [], false, st.tagStack⟩ =
          .next ⟨fx1, [], v1, false, rest⟩ ∧
        fx1 ++ (v1 ++ (st.tag ++ ['>'])) =
          st.fixedXML ++ (st.value ++ (synthClosings closed ++ (st.tag ++ ['>']))) ∧
        (st.tag ++ ['>'] ≠ ['>'] → trimAtTag v1 = v1) ∧
        (closed ≠ [] → v1 = []) ∧ (closed = [] → v1 = st.value) := by
      have hval := fixScan_value_aux st.value inv.value_chars st.fixedXML [] st.tagStack
        (Or.inr inv.value_head)
      rw [List.nil_append] at hval
      rw [fixScan_append, hval]
      simp only
      by_cases hcn : closed = []
      · subst hcn
        rw [List.nil_append] at hS
        refine ⟨st.fixedXML, st.value, ?_, by simp [synthClosings], htrim,
          fun hne => absurd rfl hne, fun _ => rfl⟩
        rw [hS]
        rfl
      · refine ⟨st.fixedXML ++ (st.value ++ synthClosings closed), [], ?_,
          by simp, fun _ => trimAtTag_nil, fun _ => rfl, fun e => absurd e hcn⟩
        rw [hS]
        exact fixScan_synth rest closed st.fixedXML st.value hcl
          (htrim (hnotstray hcn)) hcn
    obtain ⟨fx1, v1, hscan, heq, htr1, hv1, hv1'⟩ := hmid
    have e : st.fixedXML ++ (st.value ++ (synthClosings closed ++ (st.tag ++ ['>']))) =
        st.fixedXML ++ ((st.value ++ synthClosings closed) ++ (st.tag ++ ['>'])) := by
      simp only [List.append_assoc]
    rw [hfx, e, fixScan_append, hi]
    simp only
    rw [fixScan_append, hscan]
    simp only
    rw [fixScan_tagShape _ ht fx1 v1 rest htr1, ← e, ← heq]
    rcases hcase with ⟨hc, ⟨matched, hm, hraw⟩, _⟩ | ⟨hc, hs, _, hst⟩ | ⟨hc, hs, hst, hiff, _⟩
    · rw [hm]
      exact fixCloseBracket_match _ matched fx1 [] v1 false _ hc hraw
    · rw [hst]
      exact fixCloseBracket_self _ fx1 [] v1 false rest hc hs
    · have hv0 : v1 = [] := by
        by_cases hcn : closed = []
        · rw [hv1' hcn]
          exact hiff.1 hcn
        · exact hv1 hcn
      rw [hst, hv0]
      exact fixCloseBracket_push _ fx1 [] false rest hc hs
  · obtain ⟨h1, h2⟩ := fixStep_other c hgt st st' h
    rw [h1, h2]
    exact hi

theorem closeOut_refix (stack : List (List Char)) (fx : List Char)
    (hS : ∀ p ∈ stack, TagShape p)
    (h : fixScan fx FixState.init = .next ⟨fx, [], [], false, stack⟩) :
    FixXML (closeOut stack fx) = .repaired (closeOut stack fx) := by
  unfold FixXML
  rw [closeOut_eq]
  change fixLoop (fx ++ synthClosings stack) FixState.init =
    .repaired (fx ++ synthClosings stack)
  rw [fixLoop_append, h]
  simp only
  have h2 := fixLoop_append (synthClosings stack) [] ⟨fx, [], [], false, stack⟩
  rw [List.append_nil] at h2
  rw [h2]
  by_cases hn : stack = []
  · subst hn
    simp only [synthClosings, List.map_nil, List.flatten_nil, fixScan, fixLoop, closeOut,
      List.append_nil]
  · have h3 := fixScan_synth [] stack fx [] hS trimAtTag_nil hn
    rw [List.append_nil] at h3
    rw [h3]
    simp only [fixLoop, closeOut, List.nil_append]

/-- C23: `FixXML` is idempotent on its own successful output: when `FixXML s`
is a repaired document `t`, `FixXML t` is the repaired document `t` again. -/
theorem FixXML_idempotent (s t : List Char) (h : FixXML s = .repaired t) :
    FixXML t = .repaired t := by
  obtain ⟨st, hscan, ht⟩ := fixLoop_repaired s FixState.init t h
  have inv := fixScan_scanInv s _ st ScanInv_init hscan
  have hre := fixScan_keeps
    (fun st => fixScan st.fixedXML FixState.init =
      .next ⟨st.fixedXML, [], [], false, st.tagStack⟩)
    fixStep_refix s _ st ScanInv_init rfl hscan
  rw [ht]
  exact closeOut_refix st.tagStack st.fixedXML (fun p hp => (inv.stack_shape p hp).1) hre

theorem FixXML_idempotent_witness :
    FixXML "<a>x <b>y".toList = .repaired "<a>x</a><b></b>".toList ∧
      FixXML "<a>x</a><b></b>".toList = .repaired "<a>x</a><b></b>".toList :=
  ⟨by decide, FixXML_idempotent "<a>x <b>y".toList "<a>x</a><b></b>".toList (by decide)⟩

/-! ## `FixXML` on a text that `isXMLBalanced` accepts -/

theorem tagsFrom_value (x : List Char) : ∀ v : List Char, bracketFree v →
    tagsFrom (v ++ x) [] = tagsFrom x [] := by
  intro v
  induction v with
  | nil => intro _; rfl
  | cons c cs ih =>
    intro hv
    have hc := hv c (List.mem_cons_self _ _)
    have hcs : bracketFree cs := fun d hd => hv d (List.mem_cons_of_mem _ hd)
    change tagsFrom (c :: (cs ++ x)) [] = tagsFrom x []
    simp only [tagsFrom, if_neg hc.1, if_neg hc.2, ne_eq, not_true_eq_false, if_false]
    exact ih hcs

theorem tagsFrom_body (x : List Char) : ∀ (body pending : List Char), bracketFree body →
    pending ≠ [] → tagsFrom (body ++ x) pending = tagsFrom x (pending ++ body) := by
  intro body
  induction body with
  | nil => intro pending _ _; simp
  | cons c cs ih =>
    intro pending hv hp
    have hc := hv c (List.mem_cons_self _ _)
    have hcs : bracketFree cs := fun d hd => hv d (List.mem_cons_of_mem _ hd)
    change tagsFrom (c :: (cs ++ x)) pending = tagsFrom x (pending ++ c :: cs)
    simp only [tagsFrom, if_neg hc.1, if_neg hc.2, if_pos hp]
    rw [ih (pending ++ [c]) hcs (by simp)]
    simp

theorem tagsFrom_tag (t x : List Char) (ht : TagShape t) :
    tagsFrom (t ++ x) [] = t :: tagsFrom x [] := by
  rcases ht with rfl | ⟨body, hb, rfl⟩
  · simp [tagsFrom]
  · have h1 : '<' ≠ '>' := by decide
    change tagsFrom ('<' :: (body ++ ['>'] ++ x)) [] = _
    simp only [tagsFrom, if_neg h1, if_true, List.nil_append]
    rw [List.append_assoc, tagsFrom_body _ body ['<'] hb (by simp)]
    simp [tagsFrom]

theorem sim_bracket (f : FixState) (b b' : BalState) (t : List Char)
    (hstack : f.tagStack = b.tagStack) (hval : b.value = [] → f.value = [])
    (hb : balCloseBracket b t = .next b') :
    fixCloseBracket f t =
        .next ⟨f.fixedXML ++ (f.value ++ t), [], [], false, b'.tagStack⟩ ∧
      b'.tag = [] ∧ b'.value = [] ∧ b'.processTag = false := by
  obtain ⟨fx, tg, v, pt, S⟩ := f
  obtain ⟨btg, bv, bpt, bS⟩ := b
  simp only at hstack hval
  subst hstack
  unfold balCloseBracket at hb
  by_cases hc : isClosingTag t = true
  · simp only [hc, if_true] at hb
    cases S with
    | nil => simp at hb
    | cons top rest =>
      simp only at hb
      by_cases hm : openRawValue top ≠ closingRawValue t
      · rw [if_pos hm] at hb
        cases hb
      · rw [if_neg hm] at hb
        simp only [Step.next.injEq] at hb
        subst hb
        exact ⟨fixCloseBracket_match t top fx tg v pt rest hc (not_not.1 hm),
          rfl, rfl, rfl⟩
  · have hc' : isClosingTag t = false := Bool.eq_false_iff.2 hc
    simp only [hc', Bool.false_eq_true, if_false] at hb
    by_cases hs : isSelfContainedTag t = true
    · simp only [hs, if_true, Step.next.injEq] at hb
      subst hb
      exact ⟨fixCloseBracket_self t fx tg v pt S hc' hs, rfl, rfl, rfl⟩
    · have hs' : isSelfContainedTag t = false := Bool.eq_false_iff.2 hs
      simp only [hs', Bool.false_eq_true, if_false] at hb
      by_cases hl : bv.length > 0
      · rw [if_pos hl] at hb
        cases hb
      · rw [if_neg hl] at hb
        simp only [Step.next.injEq] at hb
        subst hb
        have hbv : bv = [] := by
          cases bv with
          | nil => rfl
          | cons a as => simp at hl
        have hv : v = [] := hval hbv
        subst hv
        exact ⟨fixCloseBracket_push t fx tg pt S hc' hs', rfl, rfl, rfl⟩

theorem balStep_ne_done_true (c : Char) (b : BalState) :
    balStep c b ≠ .done (some true) := by
  unfold balStep balCloseBracket
  intro h
  repeat' split at h
  all_goals simp at h

theorem sublist_skip (v cs : List Char) (c : Char) :
    (v ++ ([] ++ cs)).Sublist (v ++ ([] ++ c :: cs)) :=
  List.Sublist.append (List.Sublist.refl _) (List.sublist_cons_self c cs)

theorem sim_other (c : Char) (hgt : c ≠ '>') (f : FixState) (b b' : BalState)
    (inv : ScanInv f) (sim : SimBal f b) (hb : balStep c b = .next b') :
    ∃ f', fixStep c f = .next f' ∧ SimBal f' b' ∧ f'.fixedXML = f.fixedXML ∧
      (∀ cs, (f'.value ++ (f'.tag ++ cs)).Sublist (f.value ++ (f.tag ++ c :: cs))) ∧
      (∀ cs, tagsFrom (c :: cs) f.tag = tagsFrom cs f'.tag) := by
  obtain ⟨fx, tg, v, pt, S⟩ := f
  obtain ⟨btg, bv, bpt, bS⟩ := b
  obtain ⟨h1, h2, h3, h4⟩ := sim
  have hshape := inv.tag_shape
  simp only at h1 h2 h3 h4 hshape
  subst h1 h2 h3
  unfold balStep at hb
  rw [if_neg hgt] at hb
  unfold fixStep
  rw [if_neg hgt]
  by_cases hlt : c = '<'
  · subst hlt
    rw [if_pos rfl] at hb ⊢
    by_cases h0 : tg.length = 0
    · simp only [h0, if_true, Step.next.injEq] at hb
      subst hb
      simp only [h0, if_true]
      refine ⟨_, rfl, ⟨rfl, rfl, rfl, ?_⟩, rfl, ?_, ?_⟩
      · intro hbv
        have hv : v = [] := h4 hbv
        subst hv
        rfl
      · intro cs
        have e : (tg ++ ['<']) ++ cs = tg ++ '<' :: cs := by simp
        change (trimAtTag v ++ ((tg ++ ['<']) ++ cs)).Sublist (v ++ (tg ++ '<' :: cs))
        rw [e]
        exact List.Sublist.append (trimAtTag_initial v).sublist (List.Sublist.refl _)
      · intro cs
        simp only [tagsFrom, if_neg hgt, if_true]
    · simp only [h0, if_false] at hb
      cases hb
  · rw [if_neg hlt] at hb ⊢
    by_cases hp : pt = true
    · subst hp
      simp only [if_true, Step.next.injEq] at hb
      subst hb
      simp only [if_true]
      have htg : tg ≠ [] := by
        rcases hshape with ⟨_, h⟩ | ⟨body, _, h, _⟩
        · cases h
        · rw [h]
          simp
      refine ⟨_, rfl, ⟨rfl, rfl, rfl, h4⟩, rfl, ?_, ?_⟩
      · intro cs
        have e : (tg ++ [c]) ++ cs = tg ++ c :: cs := by simp
        change (v ++ ((tg ++ [c]) ++ cs)).Sublist (v ++ (tg ++ c :: cs))
        rw [e]
      · intro cs
        simp only [tagsFrom, if_neg hgt, if_neg hlt, if_pos htg]
    · have hp' : pt = false := Bool.eq_false_iff.2 hp
      subst hp'
      have htg : tg = [] := by
        rcases hshape with ⟨h, _⟩ | ⟨_, _, _, h, _⟩
        · exact h
        · cases h
      subst htg
      have htags : ∀ cs, tagsFrom (c :: cs) [] = tagsFrom cs [] := by
        intro cs
        simp only [tagsFrom, if_neg hgt, if_neg hlt, ne_eq, not_true_eq_false, if_false]
      simp only [Bool.false_eq_true, if_false] at hb ⊢
      by_cases hb1 : (decide (bv.length = 0) && isspace c) = true
      · rw [if_pos hb1] at hb
        simp only [Step.next.injEq] at hb
        subst hb
        have hbv : bv = [] := by
          have := Bool.and_eq_true_iff.1 hb1
          exact List.length_eq_zero.1 (of_decide_eq_true this.1)
        have hv : v = [] := h4 hbv
        have hf1 : (decide (v.length = 0) && isspace c) = true := by
          rw [hv]
          rw [hbv] at hb1
          exact hb1
        rw [if_pos hf1]
        exact ⟨_, rfl, ⟨rfl, rfl, rfl, h4⟩, rfl, fun cs => sublist_skip v cs c, htags⟩
      · rw [if_neg hb1] at hb
        by_cases hnl : c = '\r' ∨ c = '\n'
        · rw [if_pos hnl] at hb
          simp only [Step.next.injEq] at hb
          subst hb
          by_cases hf1 : (decide (v.length = 0) && isspace c) = true
          · rw [if_pos hf1]
            exact ⟨_, rfl, ⟨rfl, rfl, rfl, h4⟩, rfl, fun cs => sublist_skip v cs c, htags⟩
          · rw [if_neg hf1, if_pos hnl]
            exact ⟨_, rfl, ⟨rfl, rfl, rfl, h4⟩, rfl, fun cs => sublist_skip v cs c, htags⟩
        · rw [if_neg hnl] at hb
          simp only [Step.next.injEq] at hb
          subst hb
          have hvac : bv ++ [c] = [] → v = [] := fun e => by simp at e
          by_cases hf1 : (decide (v.length = 0) && isspace c) = true
          · rw [if_pos hf1]
            exact ⟨_, rfl, ⟨rfl, rfl, rfl, hvac⟩, rfl, fun cs => sublist_skip v cs c, htags⟩
          · rw [if_neg hf1, if_neg hnl]
            refine ⟨_, rfl, ⟨rfl, rfl, rfl, fun e => by simp at e⟩, rfl, ?_, htags⟩
            intro cs
            have e : (v ++ [c]) ++ ([] ++ cs) = v ++ ([] ++ c :: cs) := by simp
            change ((v ++ [c]) ++ ([] ++ cs)).Sublist (v ++ ([] ++ c :: cs))
            rw [e]

theorem fixLoop_sim : ∀ (rest : List Char) (f : FixState) (b : BalState),
    ScanInv f → SimBal f b → balLoop rest b = some true →
    ∃ w, fixLoop rest f = .repaired (f.fixedXML ++ w) ∧
      w.Sublist (f.value ++ (f.tag ++ rest)) ∧
      tagsFrom w [] = tagsFrom rest f.tag := by
  intro rest
  induction rest with
  | nil =>
    intro f b inv sim h
    simp only [balLoop, Option.some.injEq, decide_eq_true_eq] at h
    have hS : f.tagStack = [] := by
      rw [sim.stack_eq]
      cases hb : b.tagStack with
      | nil => rfl
      | cons p ps =>
        rw [hb] at h
        simp at h
    refine ⟨[], ?_, List.nil_sublist _, rfl⟩
    simp only [fixLoop, hS, closeOut, List.append_nil]
  | cons c cs ih =>
    intro f b inv sim h
    simp only [balLoop] at h
    cases hbs : balStep c b with
    | done r =>
      rw [hbs] at h
      simp only at h
      subst h
      exact absurd hbs (balStep_ne_done_true c b)
    | next b' =>
      rw [hbs] at h
      simp only at h
      by_cases hgt : c = '>'
      · subst hgt
        have hb2 : balCloseBracket b (b.tag ++ ['>']) = .next b' := by
          unfold balStep at hbs
          rw [if_pos rfl] at hbs
          exact hbs
        rw [← sim.tag_eq] at hb2
        obtain ⟨hfix, hbtag, hbval, hbpt⟩ :=
          sim_bracket f b b' _ sim.stack_eq sim.value_nil hb2
        have hstep : fixStep '>' f =
            .next ⟨f.fixedXML ++ (f.value ++ (f.tag ++ ['>'])), [], [], false,
              b'.tagStack⟩ := by
          unfold fixStep
          rw [if_pos rfl]
          exact hfix
        have inv' := fixStep_scanInv _ _ _ inv hstep
        obtain ⟨w', hw1, hw2, hw3⟩ := ih _ b' inv'
          ⟨hbtag.symm, hbpt.symm, rfl, fun _ => rfl⟩ h
        have hvf : bracketFree f.value := fun d hd =>
          ⟨(inv.value_chars d hd).1, (inv.value_chars d hd).2.1⟩
        refine ⟨f.value ++ ((f.tag ++ ['>']) ++ w'), ?_, ?_, ?_⟩
        · simp only [fixLoop, hstep]
          rw [hw1]
          simp only [List.append_assoc]
        · have hw : w'.Sublist cs := hw2
          have e : (f.tag ++ ['>']) ++ w' = f.tag ++ '>' :: w' := by simp
          rw [e]
          exact List.Sublist.append (List.Sublist.refl _)
            (List.Sublist.append (List.Sublist.refl _) (hw.cons₂ '>'))
        · have hw : tagsFrom w' [] = tagsFrom cs [] := hw3
          rw [tagsFrom_value _ _ hvf, tagsFrom_tag _ _ (ScanInv_tagShape f inv), hw]
          simp only [tagsFrom, if_true]
      · obtain ⟨f', hstep, sim', hfx, hsub, htags⟩ := sim_other c hgt f b b' inv sim hbs
        have inv' := fixStep_scanInv _ _ _ inv hstep
        obtain ⟨w', hw1, hw2, hw3⟩ := ih f' b' inv' sim' h
        refine ⟨w', ?_, hw2.trans (hsub cs), ?_⟩
        · simp only [fixLoop, hstep]
          rw [hw1, hfx]
        · rw [hw3, htags cs]

/-- C24: for every input `s` with `isXMLBalanced s` true, `FixXML s` returns a
repaired document (no diagnostic) that is obtained from `s` by deleting
characters only and has exactly the tags of `s`, in the same order: no tag is
synthesized. -/
theorem FixXML_on_balanced (s : List Char) (h : isXMLBalanced s = some true) :
    ∃ t, FixXML s = .repaired t ∧ t.Sublist s ∧ tagsFrom t [] = tagsFrom s [] := by
  obtain ⟨w, h1, h2, h3⟩ := fixLoop_sim s FixState.init BalState.init ScanInv_init
    ⟨rfl, rfl, rfl, fun _ => rfl⟩ h
  exact ⟨w, h1, h2, h3⟩

theorem FixXML_on_balanced_witness :
    (isXMLBalanced "<a> x </a>\n<b/>tail".toList = some true ∧
        FixXML "<a> x </a>\n<b/>tail".toList = .repaired "<a>x</a><b/>".toList ∧
        tagsFrom "<a> x </a>\n<b/>tail".toList [] =
          ["<a>".toList, "</a>".toList, "<b/>".toList]) ∧
      ∃ t, FixXML "<a> x </a>\n<b/>tail".toList = .repaired t ∧
        t.Sublist "<a> x </a>\n<b/>tail".toList ∧
        tagsFrom t [] = tagsFrom "<a> x </a>\n<b/>tail".toList [] :=
  ⟨by decide, FixXML_on_balanced "<a> x </a>\n<b/>tail".toList (by decide)⟩

/-! ## What the path loop leaves as parsed -/

theorem firstChildIndex_spec (a : List Char) : ∀ (t : List XMLNode) (j : Nat),
    firstChildIndex a t = some j →
    FirstChildElement t a = t[j]? ∧ ∃ c, t[j]? = some c := by
  intro t
  induction t with
  | nil => intro j h; cases h
  | cons c cs ih =>
    intro j h
    simp only [firstChildIndex] at h
    unfold FirstChildElement at ih ⊢
    by_cases hc : c.isElementNamed a = true
    · rw [if_pos hc] at h
      simp only [Option.some.injEq] at h
      subst h
      simp only [List.find?_cons, hc, List.getElem?_cons_zero]
      exact ⟨trivial, c, rfl⟩
    · rw [if_neg hc] at h
      have hc2 : c.isElementNamed a = false := Bool.eq_false_iff.2 hc
      cases hk : firstChildIndex a cs with
      | none => rw [hk] at h; cases h
      | some k =>
        rw [hk] at h
        simp only [Option.map_some', Option.some.injEq] at h
        subst h
        simp only [List.find?_cons, hc2, List.getElem?_cons_succ]
        exact ih k hk

theorem getElem?_mapFirst (a : List Char) (f : XMLNode → XMLNode) :
    ∀ (t : List XMLNode) (i : Nat),
      (mapFirstChildElement a f t)[i]? =
        if firstChildIndex a t = some i then t[i]?.map f else t[i]? := by
  intro t
  induction t with
  | nil => intro i; simp [mapFirstChildElement, firstChildIndex]
  | cons c cs ih =>
    intro i
    by_cases hc : c.isElementNamed a = true
    · simp only [mapFirstChildElement, firstChildIndex, hc, if_true]
      cases i with
      | zero => simp
      | succ k => simp
    · have hc2 : c.isElementNamed a = false := Bool.eq_false_iff.2 hc
      simp only [mapFirstChildElement, firstChildIndex, hc2, Bool.false_eq_true, if_false]
      cases i with
      | zero =>
        have hne : ¬ Option.map (fun i => i + 1) (firstChildIndex a cs) = some 0 := by
          cases firstChildIndex a cs <;> simp
        rw [if_neg hne]
        simp only [List.getElem?_cons_zero]
      | succ k =>
        simp only [List.getElem?_cons_succ]
        rw [ih k]
        cases hk : firstChildIndex a cs with
        | none => simp
        | some m => simp

theorem firstChildIndex_mapFirst (a n : List Char) (f : XMLNode → XMLNode)
    (hf : ∀ ch, ∃ ch', f (.element a ch) = .element a ch') :
    ∀ t, firstChildIndex n (mapFirstChildElement a f t) = firstChildIndex n t := by
  intro t
  induction t with
  | nil => rfl
  | cons c cs ih =>
    by_cases hc : c.isElementNamed a = true
    · obtain ⟨ch, rfl⟩ := isElementNamed_element c a hc
      obtain ⟨ch', hch⟩ := hf ch
      have e : mapFirstChildElement a f (XMLNode.element a ch :: cs) =
          XMLNode.element a ch' :: cs := by
        simp only [mapFirstChildElement, hc, if_true, hch]
      rw [e]
      simp only [firstChildIndex, XMLNode.isElementNamed]
    · have hc2 : c.isElementNamed a = false := Bool.eq_false_iff.2 hc
      simp only [mapFirstChildElement, hc2, Bool.false_eq_true, if_false, firstChildIndex]
      rw [ih]

theorem offChain_nil (pos : List Nat) : offChain pos [] = false := by
  cases pos <;> rfl

theorem nodeAt_congr (i : Nat) (pos : List Nat) (x y : List XMLNode)
    (h : x[i]? = y[i]?) : nodeAt (i :: pos) x = nodeAt (i :: pos) y := by
  cases pos <;> simp only [nodeAt, h]

theorem nodeAt_cons_cons (i k : Nat) (pos : List Nat) (x : List XMLNode) (c : XMLNode)
    (h : x[i]? = some c) : nodeAt (i :: k :: pos) x = nodeAt (k :: pos) c.children := by
  simp only [nodeAt, h]

theorem pruneAlongPath_form (d : Bool) (a : List Char) (r : List (List Char))
    (t : List XMLNode) :
    ∃ g : XMLNode → XMLNode, pruneAlongPath d (a :: r) t = mapFirstChildElement a g t ∧
      (∀ ch, ∃ ch', g (.element a ch) = .element a ch') ∧
      (r ≠ [] → ∀ c, (g c).children = pruneAlongPath d r c.children) := by
  cases r with
  | nil => exact ⟨PruneSTMTTRN d, rfl, fun ch => ⟨_, rfl⟩, fun h => absurd rfl h⟩
  | cons b r =>
    exact ⟨fun c => .element c.Value (pruneAlongPath d (b :: r) c.children), rfl,
      fun ch => ⟨_, rfl⟩, fun _ c => rfl⟩

/-- The pruning along a path leaves every node as it was whose position leaves
the first-match chain of the path. -/
theorem nodeAt_pruneAlongPath (d : Bool) : ∀ (p : List (List Char)) (t : List XMLNode)
    (pos : List Nat), offChain pos (firstMatchChain p t) = true →
    nodeAt pos (pruneAlongPath d p t) = nodeAt pos t := by
  intro p
  induction p with
  | nil =>
    intro t pos h
    simp only [firstMatchChain, offChain_nil] at h
    cases h
  | cons a r ih =>
    intro t pos h
    cases pos with
    | nil => cases h
    | cons i pos' =>
      obtain ⟨g, hg, _, hgc⟩ := pruneAlongPath_form d a r t
      rw [hg]
      simp only [firstMatchChain] at h
      cases hj : firstChildIndex a t with
      | none =>
        rw [hj] at h
        cases h
      | some j =>
        rw [hj] at h
        simp only at h
        cases hc : t[j]? with
        | none =>
          rw [hc] at h
          cases h
        | some c =>
          rw [hc] at h
          simp only [offChain] at h
          have hget := getElem?_mapFirst a g t i
          rw [hj] at hget
          by_cases hij : i = j
          · subst hij
            rw [if_pos rfl] at h
            rw [if_pos rfl, hc] at hget
            simp only [Option.map_some'] at hget
            have hr : r ≠ [] := by
              intro e
              rw [e] at h
              simp only [firstMatchChain, offChain_nil] at h
              cases h
            cases pos' with
            | nil => cases h
            | cons k pos'' =>
              rw [nodeAt_cons_cons i k pos'' _ _ hget, nodeAt_cons_cons i k pos'' _ _ hc,
                hgc hr c]
              exact ih c.children (k :: pos'') h
          · have hne : ¬ some j = some i := fun e => hij (Option.some.inj e).symm
            rw [if_neg hne] at hget
            exact nodeAt_congr i pos' _ _ hget

theorem isElementNamed_of_first (t : List XMLNode) (n : List Char) (c : XMLNode)
    (h : FirstChildElement t n = some c) : c.isElementNamed n = true := by
  unfold FirstChildElement at h
  exact List.find?_some h

theorem firstChildIndex_of_first (n : List Char) : ∀ (t : List XMLNode) (c : XMLNode),
    FirstChildElement t n = some c → ∃ j, firstChildIndex n t = some j := by
  intro t
  induction t with
  | nil => intro c h; cases h
  | cons x xs ih =>
    intro c h
    unfold FirstChildElement at h ih
    by_cases hx : x.isElementNamed n = true
    · exact ⟨0, by simp only [firstChildIndex, hx, if_true]⟩
    · have hx2 : x.isElementNamed n = false := Bool.eq_false_iff.2 hx
      simp only [List.find?_cons, hx2] at h
      obtain ⟨j, hj⟩ := ih c h
      exact ⟨j + 1, by simp only [firstChildIndex, hx2, Bool.false_eq_true, if_false, hj,
        Option.map_some']⟩

theorem firstMatchChain_congr (b : List Char) (q : List (List Char)) (x y : List XMLNode)
    (h1 : firstChildIndex b x = firstChildIndex b y)
    (h2 : ∀ j, firstChildIndex b y = some j → x[j]? = y[j]?) :
    firstMatchChain (b :: q) x = firstMatchChain (b :: q) y := by
  simp only [firstMatchChain, h1]
  cases hj : firstChildIndex b y with
  | none => rfl
  | some j =>
    simp only
    rw [h2 j hj]

theorem firstMatchChain_inner (d : Bool) (b b' : List Char) (hb : b ≠ b')
    (r q : List (List Char)) (cs : List XMLNode) :
    firstMatchChain (b' :: q) (pruneAlongPath d (b :: r) cs) =
      firstMatchChain (b' :: q) cs := by
  obtain ⟨g, hg, hname, _⟩ := pruneAlongPath_form d b r cs
  rw [hg]
  apply firstMatchChain_congr
  · exact firstChildIndex_mapFirst b b' g hname cs
  · intro j hj
    rw [getElem?_mapFirst]
    have hne : ¬ firstChildIndex b cs = some j := by
      intro e
      obtain ⟨h1, c, hc⟩ := firstChildIndex_spec b cs j e
      obtain ⟨h2, _⟩ := firstChildIndex_spec b' cs j hj
      rw [hc] at h1 h2
      have n1 := isElementNamed_of_first cs b c h1
      have n2 := isElementNamed_of_first cs b' c h2
      obtain ⟨ch, rfl⟩ := isElementNamed_element c b n1
      simp only [XMLNode.isElementNamed, beq_iff_eq] at n2
      exact hb n2
    rw [if_neg hne]

theorem firstMatchChain_other (d : Bool) (a b b' : List Char) (hb : b ≠ b')
    (r q : List (List Char)) (t : List XMLNode) :
    firstMatchChain (a :: b' :: q) (pruneAlongPath d (a :: b :: r) t) =
      firstMatchChain (a :: b' :: q) t := by
  obtain ⟨g, hg, hname, hgc⟩ := pruneAlongPath_form d a (b :: r) t
  rw [hg]
  have e1 : ∀ x, firstMatchChain (a :: b' :: q) x =
      match firstChildIndex a x with
      | none => []
      | some i =>
        match x[i]? with
        | none => []
        | some c => i :: firstMatchChain (b' :: q) c.children := fun x => rfl
  rw [e1, e1, firstChildIndex_mapFirst a a g hname t]
  cases hj : firstChildIndex a t with
  | none => rfl
  | some j =>
    simp only
    have hget := getElem?_mapFirst a g t j
    rw [hj, if_pos rfl] at hget
    rw [hget]
    cases hc : t[j]? with
    | none => rfl
    | some c =>
      simp only [Option.map_some']
      rw [hgc (by simp) c, firstMatchChain_inner d b b' hb r q c.children]

theorem pruneStatementType_chain_other (d : Bool) (state : List Message × List XMLNode)
    (T a b b' : List Char) (r q : List (List Char))
    (hT : TYPE_TO_BANKTRANLIST_MAP T = a :: b :: r) (hb : b ≠ b') :
    firstMatchChain (a :: b' :: q) (pruneStatementType d state T).2 =
      firstMatchChain (a :: b' :: q) state.2 := by
  have own := pruneStatementType_own d state T (by rw [hT]; simp)
  cases hf : firstMissing (TYPE_TO_BANKTRANLIST_MAP T) state.2 with
  | some seg => rw [own.2.1 seg hf]
  | none =>
    rw [own.2.2 hf, hT]
    exact firstMatchChain_other d a b b' hb r q state.2

theorem foldl_pruneStatementType_frame (d : Bool) (a : List Char) (pos : List Nat) :
    ∀ (types : List (List Char)) (state : List Message × List XMLNode),
      types.Nodup → (∀ T ∈ types, ∃ r, TYPE_TO_BANKTRANLIST_MAP T = a :: T :: r) →
      (∀ T ∈ types, firstMissing (TYPE_TO_BANKTRANLIST_MAP T) state.2 = none →
        offChain pos (firstMatchChain (TYPE_TO_BANKTRANLIST_MAP T) state.2) = true) →
      nodeAt pos (types.foldl (pruneStatementType d) state).2 = nodeAt pos state.2 := by
  intro types
  induction types with
  | nil => intro state _ _ _; rfl
  | cons T ts ih =>
    intro state hnd hmap h
    obtain ⟨r, hT⟩ := hmap T (List.mem_cons_self _ _)
    have hTts : T ∉ ts := (List.nodup_cons.1 hnd).1
    have own := pruneStatementType_own d state T (by rw [hT]; simp)
    simp only [List.foldl_cons]
    rw [ih (pruneStatementType d state T) (List.nodup_cons.1 hnd).2
      (fun T' h' => hmap T' (List.mem_cons_of_mem _ h'))]
    · cases hf : firstMissing (TYPE_TO_BANKTRANLIST_MAP T) state.2 with
      | some seg => rw [own.2.1 seg hf]
      | none =>
        rw [own.2.2 hf]
        exact nodeAt_pruneAlongPath d _ _ pos (h T (List.mem_cons_self _ _) hf)
    · intro T' hT' hfm
      obtain ⟨r', hT'map⟩ := hmap T' (List.mem_cons_of_mem _ hT')
      have hne : T ≠ T' := fun e => hTts (e ▸ hT')
      have o := pruneStatementType_other d state T a T T' r r' hT hne
      have oc := pruneStatementType_chain_other d state T a T T' r r' hT hne
      have h0 := h T' (List.mem_cons_of_mem _ hT')
      rw [hT'map] at hfm h0 ⊢
      rw [o.2] at hfm
      rw [oc]
      exact h0 hfm

theorem nodeAt_firstMatchChain : ∀ (p : List (List Char)) (t : List XMLNode),
    p ≠ [] → firstMissing p t = none →
    firstMatchChain p t ≠ [] ∧ nodeAt (firstMatchChain p t) t = resolvePath p t := by
  intro p
  induction p with
  | nil => intro t h _; exact absurd rfl h
  | cons a r ih =>
    intro t _ hfm
    rw [firstMissing_cons] at hfm
    cases hc : FirstChildElement t a with
    | none =>
      rw [hc] at hfm
      cases hfm
    | some c =>
      rw [hc] at hfm
      simp only [Option.elim] at hfm
      obtain ⟨j, hj⟩ := firstChildIndex_of_first a t c hc
      obtain ⟨h1, _⟩ := firstChildIndex_spec a t j hj
      rw [hc] at h1
      have hchain : firstMatchChain (a :: r) t = j :: firstMatchChain r c.children := by
        simp only [firstMatchChain, hj, ← h1]
      rw [hchain]
      refine ⟨by simp, ?_⟩
      cases r with
      | nil => simp only [firstMatchChain, nodeAt, resolvePath, ← h1, hc]
      | cons b r' =>
        obtain ⟨hne, hnode⟩ := ih c.children (by simp) hfm
        cases hch : firstMatchChain (b :: r') c.children with
        | nil => exact absurd hch hne
        | cons k ks =>
          rw [hch] at hnode
          rw [nodeAt_cons_cons j k ks t c h1.symm, hnode, resolvePath_cons_cons, hc]
          rfl

theorem convertParsed_result (lib : XMLLibrary) (d : Bool) (s inxml : List Char)
    (msgs : List Message) (doc : List XMLNode) (htypes : statementTypes doc ≠ []) :
    (convertParsed lib d s inxml msgs doc).result =
      .succeeded (normalizeLineEndings (lib.Print
        ((statementTypes doc).foldl (pruneStatementType d) (msgs, doc)).2)) := by
  have hroot : ∃ ofx, FirstChildElement doc "OFX".toList = some ofx := by
    cases h : FirstChildElement doc "OFX".toList with
    | none =>
      exfalso
      apply htypes
      unfold statementTypes
      rw [h]
      rfl
    | some ofx => exact ⟨ofx, rfl⟩
  obtain ⟨ofx, hofx⟩ := hroot
  have hlen : ¬ (statementTypes doc).length = 0 :=
    fun e => htypes (List.length_eq_zero.1 e)
  unfold convertParsed
  rw [hofx]
  simp only []
  rw [if_neg hlen]

/-- C26: the path loop follows, at each level of a statement type's path, only
the first child element of the required name, so for each detected type whose
path resolves one chain of positions leads to the transaction list that is
pruned (`nodeAt` of the chain is the element the walk ends at); every node
whose position leaves the chains of all those types, such as a second
`STMTTRNRS` block with the transaction lists under it, is in the printed
document exactly as it was parsed. -/
theorem path_frame (lib : XMLLibrary) (d : Bool) (s inxml : List Char)
    (msgs : List Message) (doc : List XMLNode) (htypes : statementTypes doc ≠ []) :
    ∃ doc', (convertParsed lib d s inxml msgs doc).result =
        .succeeded (normalizeLineEndings (lib.Print doc')) ∧
      (∀ type ∈ statementTypes doc,
        firstMissing (TYPE_TO_BANKTRANLIST_MAP type) doc = none →
        nodeAt (firstMatchChain (TYPE_TO_BANKTRANLIST_MAP type) doc) doc =
          resolvePath (TYPE_TO_BANKTRANLIST_MAP type) doc) ∧
      ∀ pos : List Nat,
        (∀ type ∈ statementTypes doc,
          firstMissing (TYPE_TO_BANKTRANLIST_MAP type) doc = none →
          offChain pos (firstMatchChain (TYPE_TO_BANKTRANLIST_MAP type) doc) = true) →
        nodeAt pos doc' = nodeAt pos doc := by
  obtain ⟨hnd, hmap⟩ := statementTypes_nodup doc
  refine ⟨((statementTypes doc).foldl (pruneStatementType d) (msgs, doc)).2,
    convertParsed_result lib d s inxml msgs doc htypes, ?_, ?_⟩
  · intro type ht hfm
    obtain ⟨r, hr⟩ := hmap type ht
    exact (nodeAt_firstMatchChain _ doc (by rw [hr]; simp) hfm).2
  · intro pos h
    exact foldl_pruneStatementType_frame d "OFX".toList pos (statementTypes doc)
      (msgs, doc) hnd hmap h

set_option maxRecDepth 100000 in
theorem path_frame_witness :
    (statementTypes twoBlockDocument ≠ [] ∧
        firstMatchChain (TYPE_TO_BANKTRANLIST_MAP "BANKMSGSRSV1".toList) twoBlockDocument =
          [0, 0, 0, 0, 0] ∧
        offChain [0, 0, 1] [0, 0, 0, 0, 0] = true) ∧
      ∃ doc', (convertParsed exampleLibrary true [] [] [] twoBlockDocument).result =
          .succeeded (normalizeLineEndings (exampleLibrary.Print doc')) ∧
        (∀ type ∈ statementTypes twoBlockDocument,
          firstMissing (TYPE_TO_BANKTRANLIST_MAP type) twoBlockDocument = none →
          nodeAt (firstMatchChain (TYPE_TO_BANKTRANLIST_MAP type) twoBlockDocument)
              twoBlockDocument =
            resolvePath (TYPE_TO_BANKTRANLIST_MAP type) twoBlockDocument) ∧
        ∀ pos : List Nat,
          (∀ type ∈ statementTypes twoBlockDocument,
            firstMissing (TYPE_TO_BANKTRANLIST_MAP type) twoBlockDocument = none →
            offChain pos
              (firstMatchChain (TYPE_TO_BANKTRANLIST_MAP type) twoBlockDocument) = true) →
          nodeAt pos doc' = nodeAt pos twoBlockDocument :=
  ⟨by decide, path_frame exampleLibrary true [] [] [] twoBlockDocument (by decide)⟩

/-! ## The decision to repair -/

end ConvertToOFX
